import Mathlib

/-!
# Temporal denoise filter (`src/temporal_denoise.cpp`)

A shallow embedding of the VapourSynth temporal denoising plugin and the
properties of its frame callback `temporalDenoiseGetFrame` and of its
constructor `temporalDenoiseCreate`.

Modelling conventions.

* C++ `int` is a Lean `Int`; the computations that can leave the 32-bit range
  (`n + i`, `sum += ...`, `radius * 2 + 1`, the counter `i++` and the start
  `-radius` of the request loop, and the narrowing `(int)` of the `radius`
  argument) are reduced with `wrap32` (two's complement).  A loop that does not
  end is reported as such (`forOffsets` returns `none`).
* C++ `float` is IEEE-754 binary32 with round-to-nearest, ties-to-even, every
  operation rounded on its own (no extended precision, no fused
  multiply-add).  A finite value is a dyadic number `m * 2^e` (`Dyadic`);
  `round32` rounds an exact dyadic to the binary32 grid.
* A plane buffer is a map from byte offsets to bytes, a pointer is a buffer
  together with an offset, and the host (frame cache, allocator) is an explicit
  state threaded through the callback.
-/

namespace TemporalDenoise

/-! ## 32-bit integers -/

/-- Two's-complement reduction of a mathematical integer to the range of a
32-bit `int`. -/
def wrap32 (x : Int) : Int := (x + 2 ^ 31) % 2 ^ 32 - 2 ^ 31

/-- The function `std::clamp(v, lo, hi)` on `int`:
`(v < lo) ? lo : (hi < v) ? hi : v`. -/
def clampInt (v lo hi : Int) : Int :=
  if v < lo then lo else if hi < v then hi else v

/-! ## binary32 arithmetic -/

/-- A dyadic number `m * 2^e`; every finite `float` and every exact sum or
product of two of them has this form. -/
structure Dyadic where
  m : Int
  e : Int
deriving DecidableEq, Repr

/-- The rational value `m * 2^e` of a dyadic number. -/
def Dyadic.toRat (d : Dyadic) : ℚ := (d.m : ℚ) * (2 : ℚ) ^ d.e

/-- Number of binary digits of `n`, by halving (`fuel` bounds the number of
halvings). -/
def bitLengthAux : Nat → Nat → Nat
  | 0, _ => 0
  | fuel + 1, n => if n = 0 then 0 else bitLengthAux fuel (n / 2) + 1

/-- Number of binary digits of `n` (`0` for `n = 0`). -/
def bitLength (n : Nat) : Nat := bitLengthAux n n

/-- Rounding of an exact dyadic value to binary32: 24 significant bits,
smallest exponent `-149` (subnormals), round to nearest, ties to even.
The blend multiplies and adds values below `2^32`, far from the overflow
threshold `2^128`; overflow to infinity is handled where a `double` is
converted (`Fl.cast32`). -/
def round32 (d : Dyadic) : Dyadic :=
  let t : Int := max (d.e + bitLength d.m.natAbs - 24) (-149)
  if t ≤ d.e then d
  else
    let k : Nat := (t - d.e).toNat
    let q : Int := d.m / 2 ^ k
    let r : Int := d.m % 2 ^ k
    let h : Int := 2 ^ (k - 1)
    let q1 : Int :=
      if r < h then q else if h < r then q + 1 else if q % 2 = 0 then q else q + 1
    ⟨q1, t⟩

/-- Exact sum of two dyadic numbers (common exponent: the smaller one). -/
def Dyadic.add (a b : Dyadic) : Dyadic :=
  let e := min a.e b.e
  ⟨a.m * 2 ^ (a.e - e).toNat + b.m * 2 ^ (b.e - e).toNat, e⟩

/-- Exact negation. -/
def Dyadic.neg (a : Dyadic) : Dyadic := ⟨-a.m, a.e⟩

/-- Exact product. -/
def Dyadic.mul (a b : Dyadic) : Dyadic := ⟨a.m * b.m, a.e + b.e⟩

/-- Strict order of the values of two dyadic numbers, decided on integers. -/
def Dyadic.lt (a b : Dyadic) : Prop :=
  a.m * 2 ^ (a.e - min a.e b.e).toNat < b.m * 2 ^ (b.e - min a.e b.e).toNat

instance (a b : Dyadic) : Decidable (Dyadic.lt a b) := by
  unfold Dyadic.lt; infer_instance

/-- The `float` operation `a + b`. -/
def fadd (a b : Dyadic) : Dyadic := round32 (a.add b)

/-- The `float` operation `a - b`. -/
def fsub (a b : Dyadic) : Dyadic := round32 (a.add b.neg)

/-- The `float` operation `a * b`. -/
def fmul (a b : Dyadic) : Dyadic := round32 (a.mul b)

/-- The conversion `static_cast<float>(n)` of an `int`. -/
def ofInt (n : Int) : Dyadic := round32 ⟨n, 0⟩

/-- The conversion `static_cast<int>(x)` of a finite `float`: truncation
toward zero. -/
def truncToInt (d : Dyadic) : Int :=
  if 0 ≤ d.e then d.m * 2 ^ d.e.toNat else Int.tdiv d.m (2 ^ (-d.e).toNat)

/-- The literal `1.0f`. -/
def f32One : Dyadic := ⟨1, 0⟩

/-- The literal `0.5f`. -/
def f32Half : Dyadic := ⟨1, -1⟩

/-- The literal `0.0f`. -/
def f32Zero : Dyadic := ⟨0, 0⟩

/-- A dyadic number written in the binary32 format: at most 24 significant
bits and an exponent in the finite range. -/
def IsBinary32 (d : Dyadic) : Prop :=
  d.m.natAbs < 2 ^ 24 ∧ -149 ≤ d.e ∧ d.e ≤ 104

instance (d : Dyadic) : Decidable (IsBinary32 d) := by
  unfold IsBinary32; infer_instance

/-- A strength the instance can hold after construction: a binary32 value in
`[0, 1]`. -/
def IsStrength (s : Dyadic) : Prop :=
  IsBinary32 s ∧ 0 ≤ s.m ∧ ¬ Dyadic.lt f32One s

instance (s : Dyadic) : Decidable (IsStrength s) := by
  unfold IsStrength; infer_instance

/-- A floating-point datum (`float` or `double`): finite, infinite or NaN. -/
inductive Fl where
  | fin (d : Dyadic)
  | posInf
  | negInf
  | nan
deriving DecidableEq, Repr

/-- The comparison `a < b` of floating-point data (false when either is NaN). -/
def Fl.lt : Fl → Fl → Prop
  | .fin a, .fin b => Dyadic.lt a b
  | .fin _, .posInf => True
  | .negInf, .fin _ => True
  | .negInf, .posInf => True
  | _, _ => False

instance (a b : Fl) : Decidable (Fl.lt a b) := by
  cases a <;> cases b <;> unfold Fl.lt <;> infer_instance

/-- The conversion `(float)x` of a `double`: rounding to binary32, with
overflow to infinity at magnitude `2^128`. -/
def Fl.cast32 : Fl → Fl
  | .fin d =>
      let r := round32 d
      if ¬ Dyadic.lt ⟨-(2 ^ 128), 0⟩ r then .negInf
      else if ¬ Dyadic.lt r ⟨2 ^ 128, 0⟩ then .posInf
      else .fin r
  | x => x

/-- The function `std::clamp(v, lo, hi)` on `float`. -/
def Fl.clamp (v lo hi : Fl) : Fl :=
  if Fl.lt v lo then lo else if Fl.lt hi v then hi else v

/-! ## The per-sample computation (lines 56-66) -/

/-- The accumulation `int sum = 0; for (t...) sum += rp[t][x];` over the
samples of the window, each addition reduced to 32 bits. -/
def sumLoop (window : List Nat) : Int :=
  window.foldl (fun (sum : Int) (v : Nat) => wrap32 (sum + (v : Int))) 0

/-- The body of the pixel loop for one column: `window` lists the samples
`rp[0][x], ..., rp[T-1][x]`, `radius` is `d->radius` and `strength` is
`d->strength`.  The result is the byte stored in `wp[x]`. -/
def blendSample (window : List Nat) (radius : Nat) (strength : Dyadic) : Nat :=
  let T : Int := (window.length : Int)
  let sum : Int := sumLoop window
  let avg : Int := Int.tdiv sum T
  let cur : Int := ((window.getD radius 0 : Nat) : Int)
  let outv : Dyadic :=
    fadd (fmul (ofInt cur) (fsub f32One strength)) (fmul (ofInt avg) strength)
  (clampInt (truncToInt (fadd outv f32Half)) 0 255 % 256).toNat

/-! ## Frames, planes and pointers -/

/-- The bytes of one plane, by byte offset from the start of the plane. -/
abbrev Buf := Nat → Nat

/-- One plane of a frame: its width and height in samples, its row stride in
bytes and its bytes. -/
structure Plane where
  width : Nat
  height : Nat
  stride : Nat
  data : Buf

/-- A frame: its planes by plane number. -/
abbrev Frame := Nat → Plane

/-- The sample at row `y`, column `x` of a plane, located by that plane's
own stride. -/
def Plane.sample (p : Plane) (y x : Nat) : Nat := p.data (y * p.stride + x)

/-- A `uint8_t*` into a plane: the buffer and the current byte offset. -/
structure Ptr where
  buf : Buf
  off : Nat

/-- The read `p[x]`. -/
def Ptr.read (p : Ptr) (x : Nat) : Nat := p.buf (p.off + x)

/-- The store `p[x] = v`. -/
def Ptr.write (p : Ptr) (x v : Nat) : Ptr :=
  ⟨Function.update p.buf (p.off + x) v, p.off⟩

/-- The pointer step `p += stride`. -/
def Ptr.advance (p : Ptr) (stride : Nat) : Ptr := ⟨p.buf, p.off + stride⟩

/-- The loop over the columns `x = 0 .. w-1` of one row (lines 55-67). -/
def colLoop (rp : List Ptr) (radius : Nat) (strength : Dyadic) (w : Nat) (wp : Ptr) : Ptr :=
  (List.range w).foldl
    (fun wp x => wp.write x (blendSample (rp.map fun p => p.read x) radius strength)) wp

/-- The loop over the rows (lines 54-72): `h` rows remain, every read pointer
and the write pointer are advanced by the same `stride` after each row. -/
def rowLoop (radius : Nat) (strength : Dyadic) (w stride : Nat) :
    Nat → List Ptr → Ptr → Ptr
  | 0, _, wp => wp
  | h + 1, rp, wp =>
      rowLoop radius strength w stride h (rp.map fun p => p.advance stride)
        ((colLoop rp radius strength w wp).advance stride)

/-- A frame with empty planes, the value of an unset `refFrames` slot. -/
def nullFrame : Frame := fun _ => ⟨0, 0, 0, fun _ => 0⟩

/-- The body of the loop over planes (lines 43-72) for plane number `plane`:
height, width and stride are those of `src = refFrames[radius]`. -/
def blendPlane (refFrames : List Frame) (radius : Nat) (strength : Dyadic)
    (dst : Frame) (plane : Nat) : Frame :=
  let src : Frame := refFrames.getD radius nullFrame
  let h := (src plane).height
  let w := (src plane).width
  let stride := (src plane).stride
  let rp : List Ptr := refFrames.map fun f => ⟨(f plane).data, 0⟩
  let wp : Ptr := ⟨(dst plane).data, 0⟩
  let out := rowLoop radius strength w stride h rp wp
  Function.update dst plane { dst plane with data := out.buf }

/-- The loop over the planes `0 .. numPlanes-1` (lines 42-73). -/
def blendPlanes (refFrames : List Frame) (radius : Nat) (strength : Dyadic)
    (numPlanes : Nat) (dst : Frame) : Frame :=
  (List.range numPlanes).foldl (blendPlane refFrames radius strength) dst

/-! ## The host and the frame callback -/

/-- Calls into the host API that the callback makes, in order. -/
inductive Event where
  | requestFrameFilter (fn : Int)
  | getFrameFilter (fn : Int) (ref : Nat)
  | newVideoFrame (ref : Nat)
  | freeFrame (ref : Nat)
deriving DecidableEq, Repr

/-- The host as the callback sees it (the functions of `vsapi` are external
to the plugin): the frames of the source node by frame number, the frame
`newVideoFrame` hands out (contents unspecified, stride chosen by the host),
the next unused reference number and the log of API calls. -/
structure Host where
  clip : Int → Frame
  fresh : Frame
  nextRef : Nat
  log : List Event

/-- A frame reference returned by the host. -/
structure FrameRef where
  id : Nat
  frame : Frame

/-- An unset slot of `refFrames`. -/
def nullRef : FrameRef := ⟨0, nullFrame⟩

/-- The call `vsapi->requestFrameFilter(fn, d->node, frameCtx)`. -/
def Host.requestFrameFilter (h : Host) (fn : Int) : Host :=
  { h with log := h.log ++ [Event.requestFrameFilter fn] }

/-- The call `vsapi->getFrameFilter(fn, d->node, frameCtx)`: a new reference
to frame `fn`. -/
def Host.getFrameFilter (h : Host) (fn : Int) : FrameRef × Host :=
  (⟨h.nextRef, h.clip fn⟩,
   { h with nextRef := h.nextRef + 1, log := h.log ++ [Event.getFrameFilter fn h.nextRef] })

/-- The call `vsapi->newVideoFrame(fi, width, height, src, core)`. -/
def Host.newVideoFrame (h : Host) : FrameRef × Host :=
  (⟨h.nextRef, h.fresh⟩,
   { h with nextRef := h.nextRef + 1, log := h.log ++ [Event.newVideoFrame h.nextRef] })

/-- The call `vsapi->freeFrame(f)`. -/
def Host.freeFrame (h : Host) (f : FrameRef) : Host :=
  { h with log := h.log ++ [Event.freeFrame f.id] }

/-- Modelled from the spec: the sample type of a video format (`stInteger`
or `stFloat` in `VapourSynth4.h`, a header that is not among the sources). -/
inductive SampleType where
  | stInteger
  | stFloat
deriving DecidableEq, Repr

/-- Modelled from the spec: the fields of `VSVideoFormat` (declared in
`VapourSynth4.h`) that the plugin reads. -/
structure VSVideoFormat where
  sampleType : SampleType
  bytesPerSample : Int
  numPlanes : Nat
deriving DecidableEq, Repr

/-- Modelled from the spec: the fields of `VSVideoInfo` (declared in
`VapourSynth4.h`) that the plugin reads. -/
structure VSVideoInfo where
  format : VSVideoFormat
  numFrames : Int
  width : Int
  height : Int
deriving DecidableEq, Repr

/-- The instance data `TemporalDenoiseData` (lines 7-12); `node` is the handle
of the source clip. -/
structure TemporalDenoiseData where
  node : Nat
  vi : VSVideoInfo
  radius : Int
  strength : Fl
deriving DecidableEq, Repr

/-- Modelled from the spec: the activation reason of the initial activation,
`arInitial` of `VapourSynth4.h` (a header that is not among the sources).
Only that it differs from `arAllFramesReady` is used. -/
def arInitial : Int := 0

/-- Modelled from the spec: the activation reason of the ready activation,
`arAllFramesReady` of `VapourSynth4.h` (a header that is not among the
sources). -/
def arAllFramesReady : Int := 1

/-- The frame number `std::clamp(n + i, 0, d->vi.numFrames - 1)` of window
offset `i` (lines 22 and 31). -/
def frameIndex (d : TemporalDenoiseData) (n i : Int) : Int :=
  clampInt (wrap32 (n + i)) 0 (d.vi.numFrames - 1)

/-- The loop `for (int i = -radius; i <= radius; i++) body(i)` as the machine
runs it, started at counter value `i`: the counter is an `int`, so `i++` is
reduced to 32 bits.  At most `fuel` iterations are run; the result is `none`
when the loop condition still holds after them. -/
def forOffsets {σ : Type} (radius : Int) (body : Int → σ → σ) : Nat → Int → σ → Option σ
  | 0, i, st => if i ≤ radius then none else some st
  | fuel + 1, i, st =>
      if i ≤ radius then forOffsets radius body fuel (wrap32 (i + 1)) (body i st) else some st

/-- Iterations allowed to a loop with an `int` counter, one for each value of
the counter. -/
def intLoopFuel : Nat := 2 ^ 32

/-- The same loop with an exact counter and a result that is always defined.
The counter stays within `[-radius, radius + 1]`, so for every radius below
`2^31 - 1` this is the loop the machine runs (theorem
`forOffsets_eq_exact`). -/
def forOffsetsExact {σ : Type} (radius : Int) (body : Int → σ → σ) : Nat → Int → σ → σ
  | 0, _, st => st
  | fuel + 1, i, st =>
      if i ≤ radius then forOffsetsExact radius body fuel (i + 1) (body i st) else st

/-- Iterations allowed to the loop with an exact counter: one more than the
`2r+1` the loop condition admits. -/
def loopFuel (radius : Int) : Nat := (2 * radius + 2).toNat

/-- The request loop of the initial activation (lines 21-24), with its `int`
counter; `none` when the loop does not end. -/
def requestLoop (d : TemporalDenoiseData) (n : Int) (host : Host) : Option Host :=
  forOffsets d.radius (fun i h => h.requestFrameFilter (frameIndex d n i))
    intLoopFuel (wrap32 (-d.radius)) host

/-- The fetch loop of the ready activation (lines 30-33): slot `i + radius`
of `refFrames` receives the reference to frame `frameIndex d n i`.  The ready
activation reaches this loop only after `refFrames` was built, which for a
radius `r >= 0` needs `r < 2^30`; the counter then stays in the range of
`int`, and the loop is written with the exact counter. -/
def fetchLoop (d : TemporalDenoiseData) (n : Int) (refFrames : List FrameRef) (host : Host) :
    List FrameRef × Host :=
  forOffsetsExact d.radius
    (fun i st =>
      let r := st.2.getFrameFilter (frameIndex d n i)
      (st.1.set (i + d.radius).toNat r.1, r.2))
    (loopFuel d.radius) (-d.radius) (refFrames, host)

/-- What the callback returns: `NULL`, a frame (with its reference number),
or nothing because the run left defined behaviour (a `std::vector` of
negative size, a non-finite `float` converted to `int`, a loop counter
incremented past the largest `int`). -/
inductive Result where
  | null
  | frame (ref : Nat) (f : Frame)
  | undefined

/-- The ready activation (lines 29-79) for a finite strength. -/
def readyPhase (d : TemporalDenoiseData) (strength : Dyadic) (n : Int) (host : Host) :
    Result × Host :=
  let size : Int := wrap32 (d.radius * 2 + 1)
  if size < 0 then (Result.undefined, host)
  else
    let fetched := fetchLoop d n (List.replicate size.toNat nullRef) host
    let refFrames := fetched.1
    let alloc := fetched.2.newVideoFrame
    let dst := blendPlanes (refFrames.map fun r => r.frame) d.radius.toNat strength
      d.vi.format.numPlanes alloc.1.frame
    let host3 := refFrames.foldl (fun h r => h.freeFrame r) alloc.2
    (Result.frame alloc.1.id dst, host3)

/-- The frame callback `temporalDenoiseGetFrame` (lines 14-83).  With a
non-finite `d->strength` the conversion `static_cast<int>(outv + 0.5f)` of the
ready activation has no defined result; neither has the initial activation
when its loop does not end. -/
def temporalDenoiseGetFrame (n activationReason : Int) (d : TemporalDenoiseData)
    (host : Host) : Result × Host :=
  if activationReason = arInitial then
    match requestLoop d n host with
    | some host2 => (Result.null, host2)
    | none => (Result.undefined, host)
  else if activationReason = arAllFramesReady then
    match d.strength with
    | Fl.fin s => readyPhase d s n host
    | _ => (Result.undefined, host)
  else
    (Result.null, host)

/-! ## Construction (lines 92-135) -/

/-- The argument map `in` of the constructor: the video info of the node
under key `clip` (absent when the key is missing), and the optional `radius`
(an `int64_t`) and `strength` (a `double`). -/
structure CreateArgs where
  clip : Option (Nat × VSVideoInfo)
  radius : Option Int
  strength : Option Fl

/-- Calls the constructor makes on the host, in order. -/
inductive CreateEvent where
  | mapSetError (msg : String)
  | freeNode (node : Nat)
  | createVideoFilter (name : String) (d : TemporalDenoiseData)
deriving DecidableEq, Repr

/-- The constructor `temporalDenoiseCreate` (lines 92-135): the list of host
calls it makes. -/
def temporalDenoiseCreate (args : CreateArgs) : List CreateEvent :=
  match args.clip with
  | none => [CreateEvent.mapSetError "TemporalDenoise: clip is required."]
  | some (node, vi) =>
      if vi.format.bytesPerSample ≠ 1 ∨ vi.format.sampleType ≠ SampleType.stInteger then
        [CreateEvent.mapSetError "TemporalDenoise: Only 8-bit integer clips are supported.",
         CreateEvent.freeNode node]
      else
        let radius : Int :=
          match args.radius with
          | some v => wrap32 v
          | none => 1
        let strength : Fl :=
          match args.strength with
          | some v => Fl.cast32 v
          | none => Fl.fin f32Half
        let strength := Fl.clamp strength (Fl.fin f32Zero) (Fl.fin f32One)
        [CreateEvent.createVideoFilter "TemporalDenoiseO" ⟨node, vi, radius, strength⟩]

/-- The frame numbers the window loop computes, in order: the values `fn` of
lines 22 and 31 for `i = -radius, ..., radius`. -/
def windowIndices (d : TemporalDenoiseData) (n : Int) : List Int :=
  forOffsetsExact d.radius (fun i l => l ++ [frameIndex d n i]) (loopFuel d.radius) (-d.radius) []

/-- The window loop of lines 21-24 and 30-33 with its `int` counter,
collecting the frame numbers `fn` in order; `none` when the loop does not
end. -/
def windowLoop (d : TemporalDenoiseData) (n : Int) : Option (List Int) :=
  forOffsets d.radius (fun i l => l ++ [frameIndex d n i]) intLoopFuel (wrap32 (-d.radius)) []

/-! ## Concrete instances -/

/-- A plane all of whose bytes are `v`. -/
def constPlane (w h stride v : Nat) : Plane := ⟨w, h, stride, fun _ => v⟩

/-- A frame all of whose planes are `constPlane w h stride v`. -/
def constFrame (w h stride v : Nat) : Frame := fun _ => constPlane w h stride v

/-- The specification's end-to-end example: three 2x2 frames with luma 255, 0
and 255. -/
def exampleClip : Int → Frame :=
  fun fn => if fn = 1 then constFrame 2 2 2 0 else constFrame 2 2 2 255

/-- A host serving `exampleClip`, with an empty log. -/
def exampleHost : Host := ⟨exampleClip, constFrame 2 2 2 0, 0, []⟩

/-- The instance of the end-to-end example: one plane, three frames, radius 1,
strength `0.5`. -/
def exampleData : TemporalDenoiseData :=
  ⟨0, ⟨⟨SampleType.stInteger, 1, 1⟩, 3, 2, 2⟩, 1, Fl.fin f32Half⟩

/-- An instance on a clip of `2^31 - 1` frames with radius 2. -/
def longClipData : TemporalDenoiseData :=
  ⟨0, ⟨⟨SampleType.stInteger, 1, 1⟩, 2147483647, 1, 1⟩, 2, Fl.fin f32One⟩

/-- The sample at plane `p`, row `y`, column `x` of the frame a callback run
returned, located by the stride of that plane of the returned frame; `none`
when no frame was returned. -/
def Result.sample? (res : Result) (p y x : Nat) : Option Nat :=
  match res with
  | Result.frame _ f => some ((f p).sample y x)
  | _ => none

/-- Three frames of width 1 and height 2 with values 255, 0 and 255; frame 0
has stride 2 (one padding byte of value 7 per row), the others stride 1. -/
def paddedClip : Int → Frame :=
  fun fn =>
    if fn = 0 then fun _ => ⟨1, 2, 2, fun off => if off % 2 = 1 then 7 else 255⟩
    else if fn = 1 then constFrame 1 2 1 0
    else constFrame 1 2 1 255

/-- A host serving `paddedClip`; the output frame has stride 1. -/
def paddedHost : Host := ⟨paddedClip, constFrame 1 2 1 0, 0, []⟩

/-- An instance over `paddedClip`: one plane, three frames, radius 1, strength
`0.5`. -/
def paddedData : TemporalDenoiseData :=
  ⟨0, ⟨⟨SampleType.stInteger, 1, 1⟩, 3, 1, 2⟩, 1, Fl.fin f32Half⟩

/-- A host for `longClipData`: frame 0 is black, every other frame white, all
of one sample. -/
def longClipHost : Host :=
  ⟨fun fn => if fn = 0 then constFrame 1 1 1 0 else constFrame 1 1 1 255, constFrame 1 1 1 0, 0, []⟩

/-- An instance with radius `2^30`, for which `radius * 2 + 1` does not fit an
`int`. -/
def hugeRadiusData : TemporalDenoiseData :=
  ⟨0, ⟨⟨SampleType.stInteger, 1, 1⟩, 3, 2, 2⟩, 1073741824, Fl.fin f32Half⟩

/-- An instance with radius `2^31 - 1`, the largest `int`. -/
def maxRadiusData : TemporalDenoiseData :=
  ⟨0, ⟨⟨SampleType.stInteger, 1, 1⟩, 3, 2, 2⟩, 2147483647, Fl.fin f32Half⟩

/-- A one-frame clip (width 1, height 2, stride 1, every byte 9) whose host
allocates output frames of stride 2. -/
def singleFrameHost : Host :=
  ⟨fun _ => constFrame 1 2 1 9, fun _ => ⟨1, 2, 2, fun _ => 7⟩, 0, []⟩

/-- An instance over a one-frame clip with radius 2 and strength `0.5`. -/
def singleFrameData : TemporalDenoiseData :=
  ⟨0, ⟨⟨SampleType.stInteger, 1, 1⟩, 1, 1, 2⟩, 2, Fl.fin f32Half⟩

/-- A one-frame clip of one white sample. -/
def whiteHost : Host := ⟨fun _ => constFrame 1 1 1 255, constFrame 1 1 1 0, 0, []⟩

/-- An instance over a one-frame clip with radius 4210752 and strength 1. -/
def wideWindowData : TemporalDenoiseData :=
  ⟨0, ⟨⟨SampleType.stInteger, 1, 1⟩, 1, 1, 1⟩, 4210752, Fl.fin f32One⟩

/-- Whether a host call of the constructor sets a configuration error. -/
def CreateEvent.isError : CreateEvent → Bool
  | CreateEvent.mapSetError _ => true
  | _ => false

/-- Whether a host call of the constructor creates a filter. -/
def CreateEvent.isFilter : CreateEvent → Bool
  | CreateEvent.createVideoFilter _ _ => true
  | _ => false

/-! ## The specification's formulas -/

/-- The specification's step 4, `outv = cur * (1 - strength) + avg * strength`,
in exact arithmetic. -/
def exactBlend (cur avg : Nat) (s : ℚ) : ℚ := (cur : ℚ) * (1 - s) + (avg : ℚ) * s

/-- The specification's rounding law: the exact blend, rounded by adding one
half and taking the floor, clamped to `[0, 255]`. -/
def roundingLaw (cur avg : Nat) (s : ℚ) : Int := clampInt ⌊exactBlend cur avg s + 1 / 2⌋ 0 255

/-- The specification's step 4 followed by the addition of one half, with
every operation rounded to binary32: the value `outv + 0.5f`. -/
def blend32 (cur avg : Nat) (s : Dyadic) : Dyadic :=
  fadd (fadd (fmul (ofInt (cur : Int)) (fsub f32One s)) (fmul (ofInt (avg : Int)) s)) f32Half

/-- The specification's rounding law evaluated in binary32 arithmetic. -/
def roundingLaw32 (cur avg : Nat) (s : Dyadic) : Int :=
  clampInt ⌊(blend32 cur avg s).toRat⌋ 0 255

/-- The truncated window mean of the specification's step 2: the sum of the
window's samples integer-divided by their number. -/
def truncMean (window : List Nat) : Nat := window.sum / window.length

/-- The specification's resolver, in exact integers: for offset `i` from
`-radius` to `+radius` emit `clamp(centerIndex + i, 0, sequenceLength - 1)`. -/
def resolve (centerIndex : Int) (radius : Nat) (sequenceLength : Int) : List Int :=
  (List.range (2 * radius + 1)).map fun (k : Nat) =>
    clampInt (centerIndex + ((k : Int) - (radius : Int))) 0 (sequenceLength - 1)

/-- The 8-bit integer sample format: integer samples of one byte. -/
def Is8BitInteger (vi : VSVideoInfo) : Prop :=
  vi.format.bytesPerSample = 1 ∧ vi.format.sampleType = SampleType.stInteger

/-- The specification's rejection condition: the clip argument is missing or
the clip's sample format is not the 8-bit integer one. -/
def Rejected (args : CreateArgs) : Prop :=
  match args.clip with
  | none => True
  | some c => ¬ Is8BitInteger c.2

/-! ## Reading the logs -/

/-- The frame number of a request, for a `requestFrameFilter` call. -/
def Event.requested : Event → Option Int
  | Event.requestFrameFilter fn => some fn
  | _ => none

/-- The frame number fetched, for a `getFrameFilter` call. -/
def Event.fetched : Event → Option Int
  | Event.getFrameFilter fn _ => some fn
  | _ => none

/-- The reference obtained, for a `getFrameFilter` call. -/
def Event.fetchedRef : Event → Option Nat
  | Event.getFrameFilter _ ref => some ref
  | _ => none

/-- The reference obtained, for a `newVideoFrame` call. -/
def Event.allocated : Event → Option Nat
  | Event.newVideoFrame ref => some ref
  | _ => none

/-- The reference given back, for a `freeFrame` call. -/
def Event.released : Event → Option Nat
  | Event.freeFrame ref => some ref
  | _ => none

/-- The API calls a run added to the log of the host. -/
def newEvents (before after : Host) : List Event := after.log.drop before.log.length

/-- The instance data handed to `createVideoFilter`, when the constructor
reached that call. -/
def createdData : List CreateEvent → Option TemporalDenoiseData
  | [] => none
  | CreateEvent.createVideoFilter _ d :: _ => some d
  | _ :: rest => createdData rest

/-- The value `static_cast<int>(outv + 0.5f)` of line 66, before the clamp
and the narrowing to `uint8_t`. -/
def roundedValue (window : List Nat) (radius : Nat) (strength : Dyadic) : Int :=
  let T : Int := (window.length : Int)
  let sum : Int := sumLoop window
  let avg : Int := Int.tdiv sum T
  let cur : Int := ((window.getD radius 0 : Nat) : Int)
  let outv : Dyadic :=
    fadd (fmul (ofInt cur) (fsub f32One strength)) (fmul (ofInt avg) strength)
  truncToInt (fadd outv f32Half)

/-- Whether a callback run left defined behaviour. -/
def Result.isUndefined : Result → Bool
  | Result.undefined => true
  | _ => false

/-- The reference number of the frame a callback run returned, if any. -/
def Result.ref? : Result → Option Nat
  | Result.frame ref _ => some ref
  | _ => none

/-! ## Constructor arguments used as examples -/

/-- The `double` nearest to one tenth, `3602879701896397 * 2^-55`. -/
def doubleTenth : Dyadic := ⟨3602879701896397, -55⟩

/-- The `float` nearest to one tenth, `13421773 * 2^-27`. -/
def floatTenth : Dyadic := ⟨13421773, -27⟩

/-- The video info of an 8-bit integer clip of three 2x2 frames with one
plane. -/
def grayInfo : VSVideoInfo := ⟨⟨SampleType.stInteger, 1, 1⟩, 3, 2, 2⟩

/-- Constructor arguments with a valid clip, no radius and strength one
tenth. -/
def tenthArgs : CreateArgs := ⟨some (0, grayInfo), none, some (Fl.fin doubleTenth)⟩

/-- Constructor arguments with a valid clip, no radius and strength 3. -/
def strongArgs : CreateArgs := ⟨some (0, grayInfo), none, some (Fl.fin ⟨3, 0⟩)⟩

/-- Constructor arguments with a valid clip, no radius and a NaN strength. -/
def nanArgs : CreateArgs := ⟨some (0, grayInfo), none, some Fl.nan⟩

/-- Constructor arguments with a valid clip, radius `-1` and no strength. -/
def negativeRadiusArgs : CreateArgs := ⟨some (0, grayInfo), some (-1), none⟩

/-- The instance the constructor creates from `negativeRadiusArgs`. -/
def negativeRadiusData : TemporalDenoiseData := ⟨0, grayInfo, -1, Fl.fin f32Half⟩

/-! ## The order of the window -/

/-- The specification's ordered window: each entry is followed by itself or
by its successor (so the list is non-decreasing with steps 0 or 1). -/
def OrderedWindow : List Int → Prop
  | [] => True
  | [_] => True
  | a :: b :: rest => (b = a ∨ b = a + 1) ∧ OrderedWindow (b :: rest)

/-- Deciding `OrderedWindow` entry by entry. -/
def decOrderedWindow : (l : List Int) → Decidable (OrderedWindow l)
  | [] => isTrue trivial
  | [_] => isTrue trivial
  | a :: b :: rest =>
      have : Decidable (OrderedWindow (b :: rest)) := decOrderedWindow (b :: rest)
      inferInstanceAs (Decidable ((b = a ∨ b = a + 1) ∧ OrderedWindow (b :: rest)))

instance (l : List Int) : Decidable (OrderedWindow l) := decOrderedWindow l

/-! ## The memory accesses of the pixel loop -/

/-- A memory access of the pixel loop: a load from byte offset `off` of the
plane of window slot `t`, or a store to byte offset `off` of the output
plane. -/
inductive Access where
  | read (t : Nat) (off : Nat)
  | write (off : Nat)
deriving DecidableEq, Repr

/-- A pointer to an empty buffer, the value of an index outside `rp`. -/
def nullPtr : Ptr := ⟨fun _ => 0, 0⟩

/-- The accesses of the loop body for column `x` (lines 56-66): the loads
`rp[t][x]` for `t = 0 .. T-1` (line 58), the load `rp[radius][x]` (line 62)
and the store `wp[x]` (line 66). -/
def pixelAccesses (rp : List Ptr) (radius : Nat) (wp : Ptr) (x : Nat) : List Access :=
  (rp.enum.map fun (tp : Nat × Ptr) => Access.read tp.1 (tp.2.off + x)) ++
    [Access.read radius ((rp.getD radius nullPtr).off + x), Access.write (wp.off + x)]

/-- The loop `colLoop` with the list of its memory accesses carried along. -/
def colLoopTraced (rp : List Ptr) (radius : Nat) (strength : Dyadic) (w : Nat)
    (st : Ptr × List Access) : Ptr × List Access :=
  (List.range w).foldl
    (fun (st : Ptr × List Access) (x : Nat) =>
      (st.1.write x (blendSample (rp.map fun p => p.read x) radius strength),
        st.2 ++ pixelAccesses rp radius st.1 x)) st

/-- The loop `rowLoop` with the list of its memory accesses carried along. -/
def rowLoopTraced (radius : Nat) (strength : Dyadic) (w stride : Nat) :
    Nat → List Ptr → Ptr × List Access → Ptr × List Access
  | 0, _, st => st
  | h + 1, rp, st =>
      rowLoopTraced radius strength w stride h (rp.map fun p => p.advance stride)
        (((colLoopTraced rp radius strength w st).1).advance stride,
          (colLoopTraced rp radius strength w st).2)

/-- The byte offset of a store; `none` for a load. -/
def Access.writeOffset? : Access → Option Nat
  | Access.write off => some off
  | _ => none

/-- The byte offsets stored to, in order. -/
def writeOffsets (trace : List Access) : List Nat := trace.filterMap Access.writeOffset?

/-- The accesses of the loop body for column `x`, by the byte offsets of the
pointers alone. -/
def pixelAccessesAt (offs : List Nat) (radius woff x : Nat) : List Access :=
  (offs.enum.map fun (tp : Nat × Nat) => Access.read tp.1 (tp.2 + x)) ++
    [Access.read radius (offs.getD radius 0 + x), Access.write (woff + x)]

/-- The accesses of the rows `0 .. h-1`, by the byte offsets the pointers
have at row 0: at row `y` every pointer has moved by `y * stride`. -/
def planeAccesses (offs : List Nat) (radius woff w stride h : Nat) : List Access :=
  (List.range h).flatMap fun (y : Nat) =>
    (List.range w).flatMap fun (x : Nat) =>
      pixelAccessesAt (offs.map fun o => o + y * stride) radius (woff + y * stride) x

/-- Read pointers at the start of three planes of width 1, height 2 and
stride 2 with sample values 255, 0 and 255. -/
def exampleRows : List Ptr := [⟨fun _ => 255, 0⟩, ⟨fun _ => 0, 0⟩, ⟨fun _ => 255, 0⟩]

/-- A write pointer at the start of an output plane all of whose bytes are 7. -/
def exampleOut : Ptr := ⟨fun _ => 7, 0⟩

/-! ## Exact clamping -/

/-- The value `clamp(x, 0, 1)` in exact arithmetic. -/
def clamp01 (x : ℚ) : ℚ := max 0 (min x 1)

/-! ## Lemmas on 32-bit integers -/

theorem wrap32_of_range (x : Int) (h0 : -(2 ^ 31) ≤ x) (h1 : x < 2 ^ 31) : wrap32 x = x := by
  unfold wrap32
  omega

theorem wrap32_range (x : Int) : -(2 ^ 31) ≤ wrap32 x ∧ wrap32 x < 2 ^ 31 := by
  unfold wrap32
  omega

theorem wrap32_wrap32_add (a b : Int) : wrap32 (wrap32 a + b) = wrap32 (a + b) := by
  unfold wrap32
  omega

theorem clampInt_range (v lo hi : Int) (h : lo ≤ hi) :
    lo ≤ clampInt v lo hi ∧ clampInt v lo hi ≤ hi := by
  unfold clampInt
  split_ifs <;> omega

theorem clampInt_of_range (v lo hi : Int) (h0 : lo ≤ v) (h1 : v ≤ hi) : clampInt v lo hi = v := by
  unfold clampInt
  split_ifs <;> omega

/-! ## Lemmas on the bit length -/

theorem bitLengthAux_spec (fuel : Nat) :
    ∀ n : Nat, n ≤ fuel →
      n < 2 ^ bitLengthAux fuel n ∧ (n ≠ 0 → 2 ^ (bitLengthAux fuel n - 1) ≤ n) := by
  induction fuel with
  | zero =>
    intro n hn
    have h0 : n = 0 := by omega
    subst h0
    simp [bitLengthAux]
  | succ fuel ih =>
    intro n hn
    by_cases h0 : n = 0
    · subst h0
      simp [bitLengthAux]
    · have hhalf : n / 2 ≤ fuel := by omega
      obtain ⟨hlt, hge⟩ := ih (n / 2) hhalf
      have hdef : bitLengthAux (fuel + 1) n = bitLengthAux fuel (n / 2) + 1 := by
        simp [bitLengthAux, h0]
      rw [hdef]
      constructor
      · rw [pow_succ]
        omega
      · intro _
        simp only [Nat.add_sub_cancel]
        by_cases h1 : n / 2 = 0
        · have : bitLengthAux fuel (n / 2) = 0 := by
            rw [h1]
            cases fuel <;> simp [bitLengthAux]
          rw [this]
          simp
          omega
        · have h2 := hge h1
          have hpos : 0 < bitLengthAux fuel (n / 2) := by
            by_contra hc
            have hz : bitLengthAux fuel (n / 2) = 0 := by omega
            rw [hz] at hlt
            omega
          have : 2 ^ bitLengthAux fuel (n / 2) = 2 ^ (bitLengthAux fuel (n / 2) - 1) * 2 := by
            rw [← pow_succ]
            congr 1
            omega
          omega

theorem lt_two_pow_bitLength (n : Nat) : n < 2 ^ bitLength n :=
  (bitLengthAux_spec n n le_rfl).1

theorem two_pow_bitLength_le (n : Nat) (h : n ≠ 0) : 2 ^ (bitLength n - 1) ≤ n :=
  (bitLengthAux_spec n n le_rfl).2 h

theorem bitLength_le_of_lt (n k : Nat) (h : n < 2 ^ k) : bitLength n ≤ k := by
  by_cases h0 : n = 0
  · subst h0
    have : bitLength 0 = 0 := by simp [bitLength, bitLengthAux]
    omega
  · by_contra hc
    have h1 := two_pow_bitLength_le n h0
    have h2 : (2 : Nat) ^ k ≤ 2 ^ (bitLength n - 1) :=
      Nat.pow_le_pow_right (by norm_num) (by omega)
    omega

/-! ## Values of dyadic operations -/

theorem two_zpow_pos (e : Int) : (0 : ℚ) < (2 : ℚ) ^ e := zpow_pos (by norm_num) e

theorem two_zpow_toNat (a e : Int) (h : e ≤ a) :
    ((2 : ℚ) ^ (a - e).toNat) * (2 : ℚ) ^ e = (2 : ℚ) ^ a := by
  have h1 : ((a - e).toNat : Int) = a - e := Int.toNat_of_nonneg (by omega)
  rw [← zpow_natCast, h1, ← zpow_add₀ (by norm_num : (2 : ℚ) ≠ 0)]
  congr 1
  omega

theorem Dyadic.toRat_add (a b : Dyadic) : (a.add b).toRat = a.toRat + b.toRat := by
  unfold Dyadic.add Dyadic.toRat
  simp only
  push_cast
  rw [add_mul, mul_assoc, mul_assoc, two_zpow_toNat a.e _ (min_le_left _ _),
    two_zpow_toNat b.e _ (min_le_right _ _)]

theorem Dyadic.toRat_neg (a : Dyadic) : a.neg.toRat = -a.toRat := by
  unfold Dyadic.neg Dyadic.toRat
  simp

theorem Dyadic.toRat_mul (a b : Dyadic) : (a.mul b).toRat = a.toRat * b.toRat := by
  unfold Dyadic.mul Dyadic.toRat
  simp only
  push_cast
  rw [zpow_add₀ (by norm_num : (2 : ℚ) ≠ 0)]
  ring

theorem Dyadic.lt_iff (a b : Dyadic) : Dyadic.lt a b ↔ a.toRat < b.toRat := by
  unfold Dyadic.lt Dyadic.toRat
  have hp := two_zpow_pos (min a.e b.e)
  rw [← two_zpow_toNat a.e _ (min_le_left a.e b.e), ← two_zpow_toNat b.e _ (min_le_right a.e b.e),
    ← mul_assoc, ← mul_assoc, mul_lt_mul_right hp]
  constructor
  · intro h
    exact_mod_cast h
  · intro h
    exact_mod_cast h

/-! ## The rounding error of `round32` -/

theorem round32_zero_mantissa (d : Dyadic) (h : d.m = 0) : (round32 d).m = 0 := by
  have hpos : ∀ k : Nat, (0 : Int) < 2 ^ k := fun k => by positivity
  unfold round32
  simp only [h]
  by_cases h1 : max (d.e + bitLength (0 : Int).natAbs - 24) (-149) ≤ d.e
  · rw [if_pos h1]
    exact h
  · rw [if_neg h1]
    simp [hpos]

theorem toRat_of_zero_mantissa (d : Dyadic) (h : d.m = 0) : d.toRat = 0 := by
  unfold Dyadic.toRat
  simp [h]

/-- Half an ulp: the value of `round32 d` is within `2^(t-1)` of the value of
`d`, where `2^t` is the spacing of the binary32 grid at `d`. -/
theorem round32_err_grid (d : Dyadic) :
    |(round32 d).toRat - d.toRat| ≤
      (2 : ℚ) ^ (max (d.e + bitLength d.m.natAbs - 24) (-149) - 1) := by
  unfold round32
  simp only
  set t : Int := max (d.e + bitLength d.m.natAbs - 24) (-149) with ht
  by_cases h1 : t ≤ d.e
  · rw [if_pos h1]
    simp
    exact (two_zpow_pos _).le
  · rw [if_neg h1]
    have hk : (((t - d.e).toNat : Nat) : Int) = t - d.e := Int.toNat_of_nonneg (by omega)
    set k : Nat := (t - d.e).toNat with hkdef
    have hk1 : 1 ≤ k := by omega
    have hpow : (2 : Int) ^ k = 2 * 2 ^ (k - 1) := by
      rw [← pow_succ']
      congr 1
      omega
    have hhpos : (0 : Int) < 2 ^ (k - 1) := by positivity
    have hdm : d.m = 2 ^ k * (d.m / 2 ^ k) + d.m % 2 ^ k := (Int.ediv_add_emod d.m (2 ^ k)).symm
    have hr0 : 0 ≤ d.m % 2 ^ k := Int.emod_nonneg _ (by positivity)
    have hr1 : d.m % 2 ^ k < 2 ^ k := Int.emod_lt_of_pos _ (by positivity)
    set q : Int := d.m / 2 ^ k with hq
    set r : Int := d.m % 2 ^ k with hr
    set h : Int := 2 ^ (k - 1) with hh
    -- the integer error, in units of `2^d.e`
    have key : ∀ q1 : Int, |q1 * 2 ^ k - d.m| ≤ h →
        |(Dyadic.mk q1 t).toRat - d.toRat| ≤ (2 : ℚ) ^ (t - 1) := by
      intro q1 hq1
      have e1 : (Dyadic.mk q1 t).toRat - d.toRat =
          ((q1 * 2 ^ k - d.m : Int) : ℚ) * (2 : ℚ) ^ d.e := by
        unfold Dyadic.toRat
        simp only
        have : (2 : ℚ) ^ t = (2 : ℚ) ^ k * (2 : ℚ) ^ d.e := by
          rw [hkdef, two_zpow_toNat t d.e (by omega)]
        rw [this]
        push_cast
        ring
      have e2 : (2 : ℚ) ^ (t - 1) = ((h : Int) : ℚ) * (2 : ℚ) ^ d.e := by
        have : t - 1 = ((k - 1 : Nat) : Int) + d.e := by omega
        rw [this, zpow_add₀ (by norm_num : (2 : ℚ) ≠ 0), zpow_natCast, hh]
        push_cast
        ring
      rw [e1, e2, abs_mul, abs_of_pos (two_zpow_pos d.e)]
      apply mul_le_mul_of_nonneg_right _ (two_zpow_pos d.e).le
      have : |((q1 * 2 ^ k - d.m : Int) : ℚ)| = ((|q1 * 2 ^ k - d.m| : Int) : ℚ) := by
        rw [Int.cast_abs]
      rw [this]
      exact_mod_cast hq1
    apply key
    rw [abs_le]
    split_ifs with c1 c2 c3
    · constructor <;> nlinarith
    · constructor <;> nlinarith
    · constructor <;> nlinarith
    · constructor <;> nlinarith

theorem abs_toRat (d : Dyadic) : |d.toRat| = ((d.m.natAbs : Nat) : ℚ) * (2 : ℚ) ^ d.e := by
  unfold Dyadic.toRat
  rw [abs_mul, abs_of_pos (two_zpow_pos d.e), Nat.cast_natAbs, Int.cast_abs]

/-- The rounding error of `round32` on a value below `2^K` is at most
`2^(K-25)` (for `K` in the normal range). -/
theorem round32_err (d : Dyadic) (K : Int) (hK : -125 ≤ K) (hd : |d.toRat| < (2 : ℚ) ^ K) :
    |(round32 d).toRat - d.toRat| ≤ (2 : ℚ) ^ (K - 25) := by
  by_cases hm : d.m = 0
  · rw [toRat_of_zero_mantissa _ (round32_zero_mantissa d hm), toRat_of_zero_mantissa d hm]
    simp
    exact (two_zpow_pos _).le
  · refine le_trans (round32_err_grid d) (zpow_le_zpow_right₀ (by norm_num) ?_)
    have hn : d.m.natAbs ≠ 0 := by simpa using hm
    have h1 := two_pow_bitLength_le d.m.natAbs hn
    have hL : 1 ≤ bitLength d.m.natAbs := by
      by_contra hc
      have h0 : bitLength d.m.natAbs = 0 := by omega
      have h2 := lt_two_pow_bitLength d.m.natAbs
      rw [h0] at h2
      omega
    have h3 : (2 : ℚ) ^ ((bitLength d.m.natAbs : Int) - 1 + d.e) < (2 : ℚ) ^ K := by
      refine lt_of_le_of_lt ?_ hd
      rw [abs_toRat, zpow_add₀ (by norm_num : (2 : ℚ) ≠ 0)]
      apply mul_le_mul_of_nonneg_right _ (two_zpow_pos d.e).le
      have h4 : ((bitLength d.m.natAbs : Int) - 1) = ((bitLength d.m.natAbs - 1 : Nat) : Int) := by
        omega
      rw [h4, zpow_natCast]
      exact_mod_cast h1
    have h5 := (zpow_lt_zpow_iff_right₀ (by norm_num : (1 : ℚ) < 2)).1 h3
    rcases max_cases (d.e + (bitLength d.m.natAbs : Int) - 24) (-149) with ⟨h6, _⟩ | ⟨h6, _⟩ <;>
      rw [h6] <;> omega

theorem ofInt_exact (n : Int) (h0 : -(2 ^ 24) < n) (h1 : n < 2 ^ 24) : ofInt n = ⟨n, 0⟩ := by
  unfold ofInt round32
  have hL : bitLength n.natAbs ≤ 24 := bitLength_le_of_lt _ _ (by omega)
  simp only
  rw [if_pos]
  rcases max_cases ((0 : Int) + (bitLength n.natAbs : Int) - 24) (-149) with ⟨h6, _⟩ | ⟨h6, _⟩ <;>
    rw [h6] <;> omega

theorem round32_mantissa_nonneg (d : Dyadic) (h : 0 ≤ d.m) : 0 ≤ (round32 d).m := by
  unfold round32
  simp only
  have hq : ∀ k : Nat, 0 ≤ d.m / 2 ^ k := fun k => Int.ediv_nonneg h (by positivity)
  by_cases h1 : max (d.e + bitLength d.m.natAbs - 24) (-149) ≤ d.e
  · rw [if_pos h1]
    exact h
  · rw [if_neg h1]
    simp only
    split_ifs
    · exact hq _
    · have := hq (max (d.e + bitLength d.m.natAbs - 24) (-149) - d.e).toNat
      omega
    · exact hq _
    · have := hq (max (d.e + bitLength d.m.natAbs - 24) (-149) - d.e).toNat
      omega

theorem mantissa_nonneg_of_toRat (d : Dyadic) (h : 0 ≤ d.toRat) : 0 ≤ d.m := by
  unfold Dyadic.toRat at h
  have hp := two_zpow_pos d.e
  have : (0 : ℚ) ≤ (d.m : ℚ) := by
    by_contra hc
    push_neg at hc
    have := mul_neg_of_neg_of_pos hc hp
    linarith
  exact_mod_cast this

/-- On a non-negative value, `static_cast<int>` is the floor. -/
theorem truncToInt_eq_floor (d : Dyadic) (h : 0 ≤ d.m) : truncToInt d = ⌊d.toRat⌋ := by
  unfold truncToInt Dyadic.toRat
  by_cases he : 0 ≤ d.e
  · rw [if_pos he]
    have h1 : ((d.e.toNat : Nat) : Int) = d.e := Int.toNat_of_nonneg he
    have h2 : (d.m : ℚ) * (2 : ℚ) ^ d.e = ((d.m * 2 ^ d.e.toNat : Int) : ℚ) := by
      rw [← h1, zpow_natCast]
      push_cast
      rw [h1]
    rw [h2, Int.floor_intCast]
  · rw [if_neg he]
    have h1 : (((-d.e).toNat : Nat) : Int) = -d.e := Int.toNat_of_nonneg (by omega)
    have h2 : (d.m : ℚ) * (2 : ℚ) ^ d.e = (d.m : ℚ) / ((2 ^ (-d.e).toNat : Nat) : ℚ) := by
      have : d.e = -(((-d.e).toNat : Nat) : Int) := by omega
      rw [this, zpow_neg, zpow_natCast]
      push_cast
      rw [← this]
      rfl
    rw [h2, Rat.floor_intCast_div_natCast, Int.tdiv_eq_ediv h (by positivity)]
    push_cast
    rfl

/-! ## Error analysis of the blend (lines 64-66) -/

theorem toRat_f32One : f32One.toRat = 1 := by
  unfold f32One Dyadic.toRat
  norm_num

theorem toRat_f32Half : f32Half.toRat = 1 / 2 := by
  unfold f32Half Dyadic.toRat
  norm_num

theorem toRat_intLit (n : Int) : (Dyadic.mk n 0).toRat = (n : ℚ) := by
  unfold Dyadic.toRat
  simp

theorem IsStrength.toRat_nonneg {s : Dyadic} (hs : IsStrength s) : 0 ≤ s.toRat := by
  unfold Dyadic.toRat
  have := two_zpow_pos s.e
  have h0 : (0 : ℚ) ≤ (s.m : ℚ) := by exact_mod_cast hs.2.1
  positivity

theorem IsStrength.toRat_le_one {s : Dyadic} (hs : IsStrength s) : s.toRat ≤ 1 := by
  have h := hs.2.2
  rw [Dyadic.lt_iff, toRat_f32One] at h
  linarith

/-- The value of `1.0f - strength` is within `2^-24` of `1 - strength`. -/
theorem fsub_one_err (s : Dyadic) (hs : IsStrength s) :
    |(fsub f32One s).toRat - (1 - s.toRat)| ≤ (2 : ℚ) ^ (-24 : Int) := by
  have h0 := hs.toRat_nonneg
  have h1 := hs.toRat_le_one
  have hv : (f32One.add s.neg).toRat = 1 - s.toRat := by
    rw [Dyadic.toRat_add, Dyadic.toRat_neg, toRat_f32One]
    ring
  have := round32_err (f32One.add s.neg) 1 (by norm_num) (by
    rw [hv, abs_lt]
    constructor <;> norm_num <;> linarith)
  unfold fsub
  rw [hv] at this
  simpa using this

/-- Error of the blend before truncation.  `B` stands for the computed second
product `static_cast<float>(avg) * strength` and `b` for its exact value. -/
theorem blend_err (cur : Int) (s B : Dyadic) (b : ℚ) (hc0 : 0 ≤ cur) (hc1 : cur ≤ 255)
    (hs : IsStrength s) (hb0 : 0 ≤ b) (hb1 : b ≤ 255)
    (hB : |B.toRat - b| ≤ (2 : ℚ) ^ (-17 : Int)) :
    |(fadd (fadd (fmul (ofInt cur) (fsub f32One s)) B) f32Half).toRat
        - ((cur : ℚ) * (1 - s.toRat) + b + 1 / 2)| ≤ (2 : ℚ) ^ (-13 : Int) := by
  have h0 := hs.toRat_nonneg
  have h1 := hs.toRat_le_one
  have hcq0 : (0 : ℚ) ≤ (cur : ℚ) := by exact_mod_cast hc0
  have hcq1 : (cur : ℚ) ≤ 255 := by exact_mod_cast hc1
  have ha := fsub_one_err s hs
  set a : ℚ := (fsub f32One s).toRat with hadef
  rw [abs_le] at ha hB
  norm_num at ha hB
  -- first product
  have hof : ofInt cur = ⟨cur, 0⟩ := ofInt_exact cur (by omega) (by omega)
  have hp1v : ((Dyadic.mk cur 0).mul (fsub f32One s)).toRat = (cur : ℚ) * a := by
    rw [Dyadic.toRat_mul, toRat_intLit]
  have hca0 : -(1 / 65536 : ℚ) ≤ (cur : ℚ) * a - (cur : ℚ) * (1 - s.toRat) := by nlinarith
  have hca1 : (cur : ℚ) * a - (cur : ℚ) * (1 - s.toRat) ≤ 1 / 65536 := by nlinarith
  have hcs0 : 0 ≤ (cur : ℚ) * (1 - s.toRat) := by nlinarith
  have hcs1 : (cur : ℚ) * (1 - s.toRat) ≤ 255 := by nlinarith
  have hp1 := round32_err ((Dyadic.mk cur 0).mul (fsub f32One s)) 8 (by norm_num) (by
    rw [hp1v, abs_lt]
    constructor <;> norm_num <;> linarith)
  rw [hp1v] at hp1
  have hp1def : (fmul (ofInt cur) (fsub f32One s)).toRat
      = (round32 ((Dyadic.mk cur 0).mul (fsub f32One s))).toRat := by
    unfold fmul
    rw [hof]
  set p1 : ℚ := (fmul (ofInt cur) (fsub f32One s)).toRat with hp1n
  rw [← hp1def] at hp1
  rw [abs_le] at hp1
  norm_num at hp1
  -- the sum
  have hsumv : ((fmul (ofInt cur) (fsub f32One s)).add B).toRat = p1 + B.toRat := by
    rw [Dyadic.toRat_add]
  have hsum := round32_err ((fmul (ofInt cur) (fsub f32One s)).add B) 9 (by norm_num) (by
    rw [hsumv, abs_lt]
    constructor <;> norm_num <;> linarith)
  rw [hsumv] at hsum
  have hodef : (fadd (fmul (ofInt cur) (fsub f32One s)) B).toRat
      = (round32 ((fmul (ofInt cur) (fsub f32One s)).add B)).toRat := rfl
  set o : ℚ := (fadd (fmul (ofInt cur) (fsub f32One s)) B).toRat with hon
  rw [← hodef] at hsum
  rw [abs_le] at hsum
  norm_num at hsum
  -- adding one half
  have hyv : ((fadd (fmul (ofInt cur) (fsub f32One s)) B).add f32Half).toRat = o + 1 / 2 := by
    rw [Dyadic.toRat_add, toRat_f32Half]
  have hy := round32_err ((fadd (fmul (ofInt cur) (fsub f32One s)) B).add f32Half) 10
    (by norm_num) (by
    rw [hyv, abs_lt]
    constructor <;> norm_num <;> linarith)
  rw [hyv] at hy
  have hydef : (fadd (fadd (fmul (ofInt cur) (fsub f32One s)) B) f32Half).toRat
      = (round32 ((fadd (fmul (ofInt cur) (fsub f32One s)) B).add f32Half)).toRat := rfl
  rw [hydef]
  rw [abs_le] at hy ⊢
  norm_num at hy ⊢
  constructor <;> linarith

/-- The truncated result of the blend lies between the floors of the exact
value shifted by `2^-13` either way. -/
theorem blend_trunc (cur : Int) (s B : Dyadic) (b : ℚ) (hc0 : 0 ≤ cur) (hc1 : cur ≤ 255)
    (hs : IsStrength s) (hb0 : 0 ≤ b) (hb1 : b ≤ 255)
    (hB : |B.toRat - b| ≤ (2 : ℚ) ^ (-17 : Int)) :
    ⌊(cur : ℚ) * (1 - s.toRat) + b + 1 / 2 - (2 : ℚ) ^ (-13 : Int)⌋
        ≤ truncToInt (fadd (fadd (fmul (ofInt cur) (fsub f32One s)) B) f32Half) ∧
      truncToInt (fadd (fadd (fmul (ofInt cur) (fsub f32One s)) B) f32Half)
        ≤ ⌊(cur : ℚ) * (1 - s.toRat) + b + 1 / 2 + (2 : ℚ) ^ (-13 : Int)⌋ := by
  have herr := blend_err cur s B b hc0 hc1 hs hb0 hb1 hB
  have h0 := hs.toRat_nonneg
  have h1 := hs.toRat_le_one
  have hcq0 : (0 : ℚ) ≤ (cur : ℚ) := by exact_mod_cast hc0
  have hx0 : 0 ≤ (cur : ℚ) * (1 - s.toRat) := by nlinarith
  rw [abs_le] at herr
  have hpos : 0 ≤ (fadd (fadd (fmul (ofInt cur) (fsub f32One s)) B) f32Half).toRat := by
    have : ((2 : ℚ) ^ (-13 : Int)) ≤ 1 / 2 := by norm_num
    linarith [herr.1]
  rw [truncToInt_eq_floor _ (mantissa_nonneg_of_toRat _ hpos)]
  constructor
  · apply Int.floor_le_floor
    linarith [herr.1]
  · apply Int.floor_le_floor
    linarith [herr.2]

/-! ## The accumulator -/

theorem foldl_wrap_eq (window : List Nat) :
    ∀ acc : Int, 0 ≤ acc → (∀ v ∈ window, v ≤ 255) →
      acc + 255 * (window.length : Int) ≤ 2 ^ 31 - 1 →
      window.foldl (fun (sum : Int) (v : Nat) => wrap32 (sum + (v : Int))) acc = acc + (window.sum : Nat) := by
  induction window with
  | nil => intro acc _ _ _; simp
  | cons v w ih =>
    intro acc h0 hv hb
    have hv0 : v ≤ 255 := hv v (List.mem_cons_self _ _)
    simp only [List.length_cons, Nat.cast_add, Nat.cast_one] at hb
    have hw : wrap32 (acc + (v : Int)) = acc + (v : Int) := wrap32_of_range _ (by omega) (by omega)
    rw [List.foldl_cons, hw, ih (acc + v) (by omega) (fun u hu => hv u (List.mem_cons_of_mem _ hu))
      (by omega)]
    simp only [List.sum_cons, Nat.cast_add]
    ring

/-- Without overflow the accumulator holds the sum of the window. -/
theorem sumLoop_eq_sum (window : List Nat) (hv : ∀ v ∈ window, v ≤ 255)
    (hb : 255 * (window.length : Int) ≤ 2 ^ 31 - 1) : sumLoop window = (window.sum : Nat) := by
  unfold sumLoop
  rw [foldl_wrap_eq window 0 le_rfl hv (by omega)]
  simp

theorem sum_le_of_bounded (window : List Nat) (hv : ∀ v ∈ window, v ≤ 255) :
    window.sum ≤ 255 * window.length := by
  induction window with
  | nil => simp
  | cons v w ih =>
    have hv0 : v ≤ 255 := hv v (List.mem_cons_self _ _)
    have := ih (fun u hu => hv u (List.mem_cons_of_mem _ hu))
    simp only [List.sum_cons, List.length_cons]
    omega

theorem truncMean_le (window : List Nat) (hv : ∀ v ∈ window, v ≤ 255) :
    truncMean window ≤ 255 := by
  unfold truncMean
  by_cases h : window.length = 0
  · simp [h]
  · apply Nat.div_le_of_le_mul
    have := sum_le_of_bounded window hv
    rw [Nat.mul_comm] at this
    exact this

theorem getD_le_of_bounded (window : List Nat) (hv : ∀ v ∈ window, v ≤ 255) (r : Nat) :
    window.getD r 0 ≤ 255 := by
  rw [List.getD_eq_getElem?_getD]
  cases h : window[r]? with
  | none => simp
  | some v =>
    simp only [Option.getD_some]
    exact hv v (List.getElem?_mem h)

/-! ## The sample written by the pixel loop -/

/-- The computed product `static_cast<float>(avg) * strength` is within
`2^-17` of the exact product when `avg` is a sample mean. -/
theorem fmul_avg_err (avg : Int) (s : Dyadic) (ha0 : 0 ≤ avg) (ha1 : avg ≤ 255)
    (hs : IsStrength s) :
    |(fmul (ofInt avg) s).toRat - (avg : ℚ) * s.toRat| ≤ (2 : ℚ) ^ (-17 : Int) := by
  have h0 := hs.toRat_nonneg
  have h1 := hs.toRat_le_one
  have hq0 : (0 : ℚ) ≤ (avg : ℚ) := by exact_mod_cast ha0
  have hq1 : (avg : ℚ) ≤ 255 := by exact_mod_cast ha1
  have hof : ofInt avg = ⟨avg, 0⟩ := ofInt_exact avg (by omega) (by omega)
  have hv : ((Dyadic.mk avg 0).mul s).toRat = (avg : ℚ) * s.toRat := by
    rw [Dyadic.toRat_mul, toRat_intLit]
  have := round32_err ((Dyadic.mk avg 0).mul s) 8 (by norm_num) (by
    rw [hv, abs_lt]
    constructor <;> norm_num <;> nlinarith)
  unfold fmul
  rw [hof]
  rw [hv] at this
  simpa using this

theorem exactBlend_range (cur avg : Nat) (s : ℚ) (hc : cur ≤ 255) (ha : avg ≤ 255)
    (h0 : 0 ≤ s) (h1 : s ≤ 1) : 0 ≤ exactBlend cur avg s ∧ exactBlend cur avg s ≤ 255 := by
  unfold exactBlend
  have hc0 : (0 : ℚ) ≤ (cur : ℚ) := by positivity
  have ha0 : (0 : ℚ) ≤ (avg : ℚ) := by positivity
  have hc1 : (cur : ℚ) ≤ 255 := by exact_mod_cast hc
  have ha1 : (avg : ℚ) ≤ 255 := by exact_mod_cast ha
  constructor <;> nlinarith

/-- The sample written, unfolded: without overflow of the accumulator the
byte is the truncated binary32 blend of the centre sample and the truncated
mean, and the clamp and the narrowing to `uint8_t` leave it unchanged. -/
theorem blendSample_sandwich (r : Nat) (window : List Nat) (s : Dyadic)
    (hlen : window.length = 2 * r + 1) (hw : ∀ v ∈ window, v ≤ 255) (hs : IsStrength s)
    (hT : 255 * (2 * r + 1) < 2 ^ 31) :
    ⌊exactBlend (window.getD r 0) (truncMean window) s.toRat + 1 / 2 - (2 : ℚ) ^ (-13 : Int)⌋
        ≤ (blendSample window r s : Int) ∧
      (blendSample window r s : Int)
        ≤ ⌊exactBlend (window.getD r 0) (truncMean window) s.toRat + 1 / 2 + (2 : ℚ) ^ (-13 : Int)⌋ := by
  have hsum : sumLoop window = (window.sum : Nat) :=
    sumLoop_eq_sum window hw (by rw [hlen]; norm_num at hT ⊢; omega)
  have hcur := getD_le_of_bounded window hw r
  have hmean := truncMean_le window hw
  have havg : Int.tdiv (sumLoop window) (window.length : Int) = ((truncMean window : Nat) : Int) := by
    rw [hsum, Int.tdiv_eq_ediv (by positivity) (by positivity)]
    unfold truncMean
    push_cast
    rfl
  have h0 := hs.toRat_nonneg
  have h1 := hs.toRat_le_one
  have hmq0 : (0 : ℚ) ≤ (truncMean window : ℚ) := by positivity
  have hmq1 : (truncMean window : ℚ) ≤ 255 := by exact_mod_cast hmean
  obtain ⟨hx0, hx1⟩ := exactBlend_range (window.getD r 0) (truncMean window) s.toRat hcur hmean h0 h1
  have hB := fmul_avg_err (truncMean window : Int) s (by positivity) (by exact_mod_cast hmean) hs
  have key := blend_trunc ((window.getD r 0 : Nat) : Int) s (fmul (ofInt (truncMean window : Int)) s)
    ((truncMean window : ℚ) * s.toRat) (by positivity) (by exact_mod_cast hcur) hs
    (by positivity)
    (by have := mul_le_mul hmq1 h1 h0 (by norm_num : (0 : ℚ) ≤ 255); linarith)
    (by simpa only [Int.cast_natCast] using hB)
  have hx : exactBlend (window.getD r 0) (truncMean window) s.toRat
      = (((window.getD r 0 : Nat) : Int) : ℚ) * (1 - s.toRat) + (truncMean window : ℚ) * s.toRat := by
    unfold exactBlend
    push_cast
    rfl
  rw [← hx] at key
  set v : Int := truncToInt (fadd (fadd (fmul (ofInt ((window.getD r 0 : Nat) : Int)) (fsub f32One s))
    (fmul (ofInt (truncMean window : Int)) s)) f32Half) with hv
  have hlo : (0 : Int) ≤ ⌊exactBlend (window.getD r 0) (truncMean window) s.toRat + 1 / 2
      - (2 : ℚ) ^ (-13 : Int)⌋ := by
    apply Int.floor_nonneg.2
    have : ((2 : ℚ) ^ (-13 : Int)) ≤ 1 / 2 := by norm_num
    linarith
  have hhi : ⌊exactBlend (window.getD r 0) (truncMean window) s.toRat + 1 / 2
      + (2 : ℚ) ^ (-13 : Int)⌋ ≤ 255 := by
    have : ⌊exactBlend (window.getD r 0) (truncMean window) s.toRat + 1 / 2
      + (2 : ℚ) ^ (-13 : Int)⌋ < 256 := by
      rw [Int.floor_lt]
      have : ((2 : ℚ) ^ (-13 : Int)) < 1 / 2 := by norm_num
      push_cast
      linarith
    omega
  have hout : (blendSample window r s : Int) = v := by
    unfold blendSample
    simp only
    rw [havg, ← hv, clampInt_of_range v 0 255 (by omega) (by omega)]
    omega
  rw [hout]
  exact key


theorem foldl_wrap_replicate (n v : Nat) :
    ∀ acc : Int, (List.replicate n v).foldl (fun (sum : Int) (v : Nat) => wrap32 (sum + (v : Int))) (wrap32 acc)
      = wrap32 (acc + (n : Int) * (v : Int)) := by
  induction n with
  | zero => intro acc; simp
  | succ n ih =>
    intro acc
    rw [List.replicate_succ, List.foldl_cons, wrap32_wrap32_add, ih]
    congr 1
    push_cast
    ring

theorem sumLoop_replicate (n v : Nat) : sumLoop (List.replicate n v) = wrap32 ((n : Int) * (v : Int)) := by
  unfold sumLoop
  have h0 : (0 : Int) = wrap32 0 := by decide
  rw [h0, foldl_wrap_replicate]
  simp

theorem blendSample_replicate (n v r : Nat) (s : Dyadic) (h : r < n) :
    blendSample (List.replicate n v) r s =
      (clampInt (truncToInt (fadd (fadd (fmul (ofInt (v : Int)) (fsub f32One s))
        (fmul (ofInt (Int.tdiv (wrap32 ((n : Int) * (v : Int))) (n : Int))) s)) f32Half)) 0 255 % 256).toNat := by
  unfold blendSample
  simp only [sumLoop_replicate, List.length_replicate, List.getD_eq_getElem?_getD,
    List.getElem?_replicate_of_lt h, Option.getD_some]

theorem truncMean_replicate (n v : Nat) (h : 0 < n) : truncMean (List.replicate n v) = v := by
  unfold truncMean
  simp only [List.sum_replicate, List.length_replicate, smul_eq_mul]
  exact Nat.mul_div_cancel_left v h

theorem floor_int_add_half_sub (k : Int) :
    ⌊(k : ℚ) + 1 / 2 - (2 : ℚ) ^ (-13 : Int)⌋ = k := by
  rw [Int.floor_eq_iff]
  constructor <;> norm_num <;> linarith

theorem floor_int_add_half_add (k : Int) :
    ⌊(k : ℚ) + 1 / 2 + (2 : ℚ) ^ (-13 : Int)⌋ = k := by
  rw [Int.floor_eq_iff]
  constructor <;> norm_num <;> linarith

/-- C1, counterexample.  The rounding law in exact arithmetic fails on the
code in two ways.  (1) Window `[1, 0, 2]`, radius 1 (`cur = 0`, `avg = 1`) and
the binary32 strength `s = 16777215 * 2^-25 = 0.5 - 2^-25`: `outv` is `s`, and
`outv + 0.5f`, exactly `1 - 2^-25`, lies halfway between the neighbouring
binary32 values `1 - 2^-24` and `1`, so it rounds (ties to even) to
`16777216 * 2^-24 = 1.0f`; the code writes 1 while
`floor(cur*(1-s) + avg*s + 1/2) = floor(1 - 2^-25)` is 0.  (2) With a window of
8421505 samples of value 255 and strength 1 the 32-bit accumulator wraps and
the code writes 0 while the law gives 255. -/
theorem blendSample_rounding_law_fails :
    (IsStrength ⟨16777215, -25⟩ ∧
      fadd ⟨16777215, -25⟩ f32Half = ⟨16777216, -24⟩ ∧
      blendSample [1, 0, 2] 1 ⟨16777215, -25⟩ = 1 ∧
      roundingLaw (([1, 0, 2] : List Nat).getD 1 0) (truncMean [1, 0, 2])
        (Dyadic.toRat ⟨16777215, -25⟩) = 0) ∧
    (blendSample (List.replicate (2 * 4210752 + 1) 255) 4210752 f32One = 0 ∧
      roundingLaw ((List.replicate (2 * 4210752 + 1) 255).getD 4210752 0)
        (truncMean (List.replicate (2 * 4210752 + 1) 255)) f32One.toRat = 255) := by
  refine ⟨⟨by decide, by decide, by decide, ?_⟩, ?_, ?_⟩
  · have h1 : ([1, 0, 2] : List Nat).getD 1 0 = 0 := by decide
    have h2 : truncMean [1, 0, 2] = 1 := by decide
    rw [h1, h2]
    unfold roundingLaw exactBlend Dyadic.toRat
    have : ⌊((0 : Nat) : ℚ) * (1 - ((16777215 : Int) : ℚ) * (2 : ℚ) ^ (-25 : Int))
        + ((1 : Nat) : ℚ) * (((16777215 : Int) : ℚ) * (2 : ℚ) ^ (-25 : Int)) + 1 / 2⌋ = 0 := by
      rw [Int.floor_eq_iff]
      norm_num
    rw [this]
    decide
  · rw [blendSample_replicate _ _ _ _ (by decide)]
    decide
  · have h1 : (List.replicate (2 * 4210752 + 1) 255).getD 4210752 0 = 255 := by
      rw [List.getD_eq_getElem?_getD, List.getElem?_replicate_of_lt (by decide)]
      rfl
    rw [h1, truncMean_replicate _ _ (by decide), toRat_f32One]
    unfold roundingLaw exactBlend
    have : ⌊((255 : Nat) : ℚ) * (1 - 1) + ((255 : Nat) : ℚ) * 1 + 1 / 2⌋ = 255 := by
      rw [Int.floor_eq_iff]
      norm_num
    rw [this]
    decide

theorem exactBlend_one (cur avg : Nat) : exactBlend cur avg 1 = (avg : ℚ) := by
  unfold exactBlend
  ring

theorem exactBlend_same (v : Nat) (s : ℚ) : exactBlend v v s = (v : ℚ) := by
  unfold exactBlend
  ring

/-- C7, counterexample.  With radius 4210752 the window has 8421505 samples;
when all are 255 their sum 2147483775 exceeds `2^31 - 1`, the accumulator
wraps to -2147483521, the mean becomes -254 and at strength 1 the code writes
0, not the truncated mean 255. -/
theorem blendSample_full_strength_overflow :
    blendSample (List.replicate (2 * 4210752 + 1) 255) 4210752 f32One = 0 ∧
      truncMean (List.replicate (2 * 4210752 + 1) 255) = 255 ∧
      sumLoop (List.replicate (2 * 4210752 + 1) 255) = -2147483521 := by
  refine ⟨?_, ?_, ?_⟩
  · rw [blendSample_replicate _ _ _ _ (by decide)]
    decide
  · exact truncMean_replicate _ _ (by decide)
  · rw [sumLoop_replicate]
    decide

/-- C7, amended.  Full strength: for every radius `r` with
`255*(2r+1) < 2^31`, every window of `T = 2r+1` samples in `[0,255]` and a
strength of value 1, the sample written equals the sum of the `T` window
samples integer-divided by `T`. -/
theorem blendSample_strength_one (r : Nat) (window : List Nat) (s : Dyadic)
    (hlen : window.length = 2 * r + 1) (hw : ∀ v ∈ window, v ≤ 255) (hs : IsStrength s)
    (h1 : s.toRat = 1) (hT : 255 * (2 * r + 1) < 2 ^ 31) :
    blendSample window r s = window.sum / (2 * r + 1) := by
  obtain ⟨hlo, hhi⟩ := blendSample_sandwich r window s hlen hw hs hT
  rw [h1, exactBlend_one] at hlo hhi
  have e : ((truncMean window : Nat) : ℚ) = (((truncMean window : Nat) : Int) : ℚ) := by
    push_cast
    rfl
  rw [e, floor_int_add_half_sub] at hlo
  rw [e, floor_int_add_half_add] at hhi
  have : (blendSample window r s : Int) = ((truncMean window : Nat) : Int) := le_antisymm hhi hlo
  have h2 : blendSample window r s = truncMean window := by exact_mod_cast this
  rw [h2]
  unfold truncMean
  rw [hlen]

/-- C7, amended: the theorem applied to the window `[255, 0, 255]`, radius 1
and strength `1.0f`. -/
theorem blendSample_strength_one_witness :
    blendSample [255, 0, 255] 1 f32One = ([255, 0, 255] : List Nat).sum / (2 * 1 + 1) :=
  blendSample_strength_one 1 [255, 0, 255] f32One (by decide) (by decide) (by decide)
    toRat_f32One (by decide)

/-- C8, counterexample.  A uniform window of 8421505 samples of value 255
(radius 4210752) at strength `0.5`: the accumulator wraps, the mean becomes
-254 and the code writes 1, not 255. -/
theorem blendSample_uniform_overflow :
    IsStrength f32Half ∧
      blendSample (List.replicate (2 * 4210752 + 1) 255) 4210752 f32Half = 1 := by
  refine ⟨by decide, ?_⟩
  rw [blendSample_replicate _ _ _ _ (by decide)]
  decide

/-- A uniform window without accumulator overflow is reproduced. -/
theorem blendSample_replicate_eq (r v : Nat) (s : Dyadic) (hv : v ≤ 255) (hs : IsStrength s)
    (hT : 255 * (2 * r + 1) < 2 ^ 31) :
    blendSample (List.replicate (2 * r + 1) v) r s = v := by
  have hw : ∀ u ∈ List.replicate (2 * r + 1) v, u ≤ 255 := by
    intro u hu
    rw [List.eq_of_mem_replicate hu]
    exact hv
  obtain ⟨hlo, hhi⟩ := blendSample_sandwich r (List.replicate (2 * r + 1) v) s
    (List.length_replicate _ _) hw hs hT
  have hc : (List.replicate (2 * r + 1) v).getD r 0 = v := by
    rw [List.getD_eq_getElem?_getD, List.getElem?_replicate_of_lt (by omega)]
    rfl
  rw [hc, truncMean_replicate _ _ (by omega), exactBlend_same] at hlo hhi
  have e : ((v : Nat) : ℚ) = (((v : Nat) : Int) : ℚ) := by
    push_cast
    rfl
  rw [e, floor_int_add_half_sub] at hlo
  rw [e, floor_int_add_half_add] at hhi
  have : (blendSample (List.replicate (2 * r + 1) v) r s : Int) = ((v : Nat) : Int) :=
    le_antisymm hhi hlo
  exact_mod_cast this

/-- C8, amended.  Uniform window: for every radius `r` with
`255*(2r+1) < 2^31`, every value `v` in `[0,255]` and every binary32 strength
in `[0,1]`, if all `2r+1` window samples equal `v` the sample written is `v`. -/
theorem blendSample_uniform (r v : Nat) (s : Dyadic) (hv : v ≤ 255) (hs : IsStrength s)
    (hT : 255 * (2 * r + 1) < 2 ^ 31) :
    blendSample (List.replicate (2 * r + 1) v) r s = v :=
  blendSample_replicate_eq r v s hv hs hT

/-- C8, amended: the theorem applied to radius 2, value 200 and strength
`0.49999997`. -/
theorem blendSample_uniform_witness :
    blendSample (List.replicate (2 * 2 + 1) 200) 2 ⟨16777215, -25⟩ = 200 :=
  blendSample_uniform 2 200 ⟨16777215, -25⟩ (by decide) (by decide) (by decide)

/-! ## The window loops -/

/-- With enough fuel the counted loop is a fold over its `radius - i + 1`
iterations. -/
theorem forOffsetsExact_eq_foldl {σ : Type} (radius : Int) (body : Int → σ → σ) (fuel : Nat) :
    ∀ (i : Int) (st : σ), (radius - i + 1).toNat ≤ fuel →
      forOffsetsExact radius body fuel i st
        = (List.range (radius - i + 1).toNat).foldl (fun (st : σ) (k : Nat) => body (i + (k : Int)) st) st := by
  induction fuel with
  | zero =>
    intro i st h
    have h0 : (radius - i + 1).toNat = 0 := by omega
    simp [forOffsetsExact, h0]
  | succ fuel ih =>
    intro i st h
    unfold forOffsetsExact
    by_cases hi : i ≤ radius
    · rw [if_pos hi, ih (i + 1) (body i st) (by omega)]
      have h1 : (radius - i + 1).toNat = (radius - (i + 1) + 1).toNat + 1 := by omega
      rw [h1, List.range_succ_eq_map, List.foldl_cons, List.foldl_map]
      simp only [Nat.cast_zero, add_zero, Nat.succ_eq_add_one, Nat.cast_add, Nat.cast_one]
      congr 1
      funext st k
      congr 1
      ring
    · rw [if_neg hi]
      have h0 : (radius - i + 1).toNat = 0 := by omega
      simp [h0]

/-- The window loop with a non-negative radius `r` runs over the `2r+1`
offsets `-r + k`. -/
theorem forOffsetsExact_window {σ : Type} (r : Nat) (body : Int → σ → σ) (st : σ) :
    forOffsetsExact (r : Int) body (loopFuel (r : Int)) (-(r : Int)) st
      = (List.range (2 * r + 1)).foldl (fun (st : σ) (k : Nat) => body (-(r : Int) + (k : Int)) st) st := by
  have h1 : ((r : Int) - -(r : Int) + 1).toNat = 2 * r + 1 := by omega
  rw [forOffsetsExact_eq_foldl _ _ _ _ _ (by unfold loopFuel; omega), h1]

theorem foldl_snoc_range {α : Type} (f : Nat → α) (m : Nat) (l : List α) :
    (List.range m).foldl (fun l k => l ++ [f k]) l = l ++ (List.range m).map f := by
  induction m with
  | zero => simp
  | succ m ih =>
    rw [List.range_succ, List.foldl_append, ih]
    simp

theorem windowIndices_eq (d : TemporalDenoiseData) (n : Int) (r : Nat) (hr : d.radius = r) :
    windowIndices d n = (List.range (2 * r + 1)).map fun (k : Nat) => frameIndex d n (-(r : Int) + (k : Int)) := by
  unfold windowIndices
  rw [hr, forOffsetsExact_window, foldl_snoc_range]
  simp

theorem foldl_request_range (f : Nat → Int) (m : Nat) (host : Host) :
    (List.range m).foldl (fun (h : Host) k => h.requestFrameFilter (f k)) host
      = { host with log := host.log ++ (List.range m).map fun k => Event.requestFrameFilter (f k) } := by
  induction m with
  | zero => simp
  | succ m ih =>
    rw [List.range_succ, List.foldl_append, ih]
    simp [Host.requestFrameFilter]

/-- While the counter stays in the range of `int` the loop with the `int`
counter ends and is the loop with the exact counter. -/
theorem forOffsets_eq_exact {σ : Type} (radius : Int) (body : Int → σ → σ)
    (hr : radius < 2 ^ 31 - 1) (fuel : Nat) :
    ∀ (i : Int) (st : σ), -(2 ^ 31) ≤ i → (radius - i + 1).toNat ≤ fuel →
      forOffsets radius body fuel i st = some (forOffsetsExact radius body fuel i st) := by
  induction fuel with
  | zero =>
    intro i st _ h
    unfold forOffsets forOffsetsExact
    rw [if_neg (by omega)]
  | succ fuel ih =>
    intro i st hi h
    unfold forOffsets forOffsetsExact
    by_cases hc : i ≤ radius
    · rw [if_pos hc, if_pos hc, wrap32_of_range _ (by omega) (by omega)]
      exact ih (i + 1) (body i st) (by omega) (by omega)
    · rw [if_neg hc, if_neg hc]

/-- With radius `2^31 - 1` every `int` satisfies the loop condition: the loop
with the `int` counter does not end, whatever the number of iterations
allowed. -/
theorem forOffsets_diverges {σ : Type} (body : Int → σ → σ) (fuel : Nat) :
    ∀ (i : Int) (st : σ), i < 2 ^ 31 → forOffsets (2 ^ 31 - 1) body fuel i st = none := by
  induction fuel with
  | zero =>
    intro i st hi
    unfold forOffsets
    rw [if_pos (by omega)]
  | succ fuel ih =>
    intro i st hi
    unfold forOffsets
    rw [if_pos (by omega)]
    exact ih _ _ (wrap32_range (i + 1)).2

/-- The loop with the `int` counter for a radius `0 <= r < 2^31 - 1`: it ends
and runs over the `2r+1` offsets `-r + k`. -/
theorem forOffsets_window {σ : Type} (r : Nat) (body : Int → σ → σ) (st : σ)
    (hr : r < 2 ^ 31 - 1) :
    forOffsets (r : Int) body intLoopFuel (wrap32 (-(r : Int))) st
      = some ((List.range (2 * r + 1)).foldl
          (fun (st : σ) (k : Nat) => body (-(r : Int) + (k : Int)) st) st) := by
  have h1 : ((r : Int) - -(r : Int) + 1).toNat = 2 * r + 1 := by omega
  rw [wrap32_of_range _ (by omega) (by omega),
    forOffsets_eq_exact _ _ (by omega) _ _ _ (by omega) (by unfold intLoopFuel; omega),
    forOffsetsExact_eq_foldl _ _ _ _ _ (by unfold intLoopFuel; omega), h1]

theorem requestLoop_eq (d : TemporalDenoiseData) (n : Int) (r : Nat) (hr : d.radius = r)
    (hr31 : r < 2 ^ 31 - 1) (host : Host) :
    requestLoop d n host
      = some { host with log := host.log ++ (windowIndices d n).map Event.requestFrameFilter } := by
  rw [windowIndices_eq d n r hr]
  unfold requestLoop
  rw [hr, forOffsets_window _ _ _ hr31, foldl_request_range]
  simp

theorem windowLoop_eq (d : TemporalDenoiseData) (n : Int) (r : Nat) (hr : d.radius = r)
    (hr31 : r < 2 ^ 31 - 1) :
    windowLoop d n = some (windowIndices d n) := by
  rw [windowIndices_eq d n r hr]
  unfold windowLoop
  rw [hr, forOffsets_window _ _ _ hr31, foldl_snoc_range]
  simp

theorem frameIndex_range (d : TemporalDenoiseData) (n i : Int) (hN : 1 ≤ d.vi.numFrames) :
    0 ≤ frameIndex d n i ∧ frameIndex d n i ≤ d.vi.numFrames - 1 :=
  clampInt_range _ _ _ (by omega)


/-- State of the fetch loop after its first `j` iterations: slots `0 .. j-1`
of `refFrames` hold the references fetched, the others are still unset. -/
theorem foldl_fetch_range (f : Nat → Int) (m : Nat) (host : Host) :
    ∀ j : Nat, j ≤ m →
      (List.range j).foldl
          (fun (st : List FrameRef × Host) (k : Nat) =>
            ((st.1.set k (st.2.getFrameFilter (f k)).1, (st.2.getFrameFilter (f k)).2) :
              List FrameRef × Host))
          (List.replicate m nullRef, host)
        = ((List.range j).map (fun (k : Nat) => (⟨host.nextRef + k, host.clip (f k)⟩ : FrameRef))
              ++ List.replicate (m - j) nullRef,
            { host with
              nextRef := host.nextRef + j,
              log := host.log ++ (List.range j).map
                fun (k : Nat) => Event.getFrameFilter (f k) (host.nextRef + k) }) := by
  intro j
  induction j with
  | zero => intro _; simp
  | succ j ih =>
    intro hj
    rw [List.range_succ, List.foldl_append, ih (by omega)]
    simp only [List.foldl_cons, List.foldl_nil, Host.getFrameFilter, List.map_append,
      List.map_cons, List.map_nil]
    have hlen : ((List.range j).map
        (fun (k : Nat) => (⟨host.nextRef + k, host.clip (f k)⟩ : FrameRef))).length ≤ j := by simp
    have hrep : List.replicate (m - j) nullRef = nullRef :: List.replicate (m - (j + 1)) nullRef := by
      have : m - j = (m - (j + 1)) + 1 := by omega
      rw [this, List.replicate_succ]
    rw [List.set_append_right _ _ hlen, hrep]
    simp [List.append_assoc, Nat.add_assoc]

theorem fetchLoop_eq (d : TemporalDenoiseData) (n : Int) (r : Nat) (hr : d.radius = r)
    (host : Host) :
    fetchLoop d n (List.replicate (2 * r + 1) nullRef) host
      = ((List.range (2 * r + 1)).map
            (fun (k : Nat) =>
              (⟨host.nextRef + k, host.clip (frameIndex d n (-(r : Int) + (k : Int)))⟩ : FrameRef)),
          { host with
            nextRef := host.nextRef + (2 * r + 1),
            log := host.log ++ (List.range (2 * r + 1)).map
              fun (k : Nat) =>
                Event.getFrameFilter (frameIndex d n (-(r : Int) + (k : Int))) (host.nextRef + k) }) := by
  unfold fetchLoop
  rw [hr, forOffsetsExact_window]
  have hbody : (fun (st : List FrameRef × Host) (k : Nat) =>
      ((st.1.set (-(r : Int) + (k : Int) + (r : Int)).toNat
          (st.2.getFrameFilter (frameIndex d n (-(r : Int) + (k : Int)))).1,
        (st.2.getFrameFilter (frameIndex d n (-(r : Int) + (k : Int)))).2) : List FrameRef × Host))
      = (fun (st : List FrameRef × Host) (k : Nat) =>
      ((st.1.set k (st.2.getFrameFilter (frameIndex d n (-(r : Int) + (k : Int)))).1,
        (st.2.getFrameFilter (frameIndex d n (-(r : Int) + (k : Int)))).2) : List FrameRef × Host)) := by
    funext st k
    have : (-(r : Int) + (k : Int) + (r : Int)).toNat = k := by omega
    rw [this]
  rw [hbody, foldl_fetch_range (fun k => frameIndex d n (-(r : Int) + (k : Int))) (2 * r + 1) host
    (2 * r + 1) le_rfl]
  simp

theorem fetchLoop_frames (d : TemporalDenoiseData) (n : Int) (r : Nat) (hr : d.radius = r)
    (host : Host) :
    (fetchLoop d n (List.replicate (2 * r + 1) nullRef) host).1.map (fun ref => ref.frame)
      = (windowIndices d n).map host.clip := by
  rw [fetchLoop_eq d n r hr, windowIndices_eq d n r hr]
  simp [List.map_map, Function.comp_def]

theorem windowIndices_length (d : TemporalDenoiseData) (n : Int) (r : Nat) (hr : d.radius = r) :
    (windowIndices d n).length = 2 * r + 1 := by
  rw [windowIndices_eq d n r hr]
  simp

theorem windowIndices_getElem? (d : TemporalDenoiseData) (n : Int) (r : Nat) (hr : d.radius = r)
    (k : Nat) (hk : k < 2 * r + 1) :
    (windowIndices d n)[k]? = some (frameIndex d n (-(r : Int) + (k : Int))) := by
  rw [windowIndices_eq d n r hr, List.getElem?_map, List.getElem?_range hk]
  rfl

/-- Without overflow of `n + i` the frame number is the exact clamp. -/
theorem frameIndex_eq_clamp (d : TemporalDenoiseData) (n i : Int)
    (h0 : -(2 ^ 31) ≤ n + i) (h1 : n + i < 2 ^ 31) :
    frameIndex d n i = clampInt (n + i) 0 (d.vi.numFrames - 1) := by
  unfold frameIndex
  rw [wrap32_of_range _ h0 h1]

/-- C4.  Centre of the window: for every radius `r >= 0`, sequence length
`N >= 1` and centre index `n` with `0 <= n <= N-1` (an `int`), position `r` of
the window holds frame number `n`, and `refFrames[radius]` is the reference to
frame `n`. -/
theorem window_centre (d : TemporalDenoiseData) (n : Int) (r : Nat) (host : Host)
    (hr : d.radius = r) (h0 : 0 ≤ n) (h1 : n ≤ d.vi.numFrames - 1) (hint : n < 2 ^ 31) :
    (windowIndices d n)[r]? = some n ∧
      (fetchLoop d n (List.replicate (2 * r + 1) nullRef) host).1[r]?
        = some ⟨host.nextRef + r, host.clip n⟩ := by
  have hc : frameIndex d n (-(r : Int) + (r : Int)) = n := by
    rw [frameIndex_eq_clamp d n _ (by omega) (by omega)]
    have : n + (-(r : Int) + (r : Int)) = n := by ring
    rw [this]
    exact clampInt_of_range n 0 _ h0 h1
  constructor
  · rw [windowIndices_getElem? d n r hr r (by omega), hc]
  · rw [fetchLoop_eq d n r hr]
    simp only
    rw [List.getElem?_map, List.getElem?_range (by omega)]
    simp only [Option.map_some', hc]

/-- C4: the theorem applied to the end-to-end example (radius 1, three
frames, centre index 1). -/
theorem window_centre_witness :
    (windowIndices exampleData 1)[1]? = some 1 :=
  (window_centre exampleData 1 1 exampleHost rfl (by decide) (by decide) (by decide)).1

/-- Boundary replication where `n + i` stays in the range of `int`: at centre
0 every offset `i < 0` resolves to 0, and at centre `N-1` every offset `i > 0`
with `N - 1 + i < 2^31` resolves to `N-1`. -/
theorem boundary_replication_in_range (d : TemporalDenoiseData) (i : Int)
    (hN : 1 ≤ d.vi.numFrames) :
    (i < 0 → -(2 ^ 31) ≤ i → frameIndex d 0 i = 0) ∧
      (0 < i → d.vi.numFrames - 1 + i < 2 ^ 31 →
        frameIndex d (d.vi.numFrames - 1) i = d.vi.numFrames - 1) := by
  constructor
  · intro hi hlo
    rw [frameIndex_eq_clamp d 0 i (by omega) (by omega)]
    unfold clampInt
    rw [if_pos (by omega)]
  · intro hi hhi
    rw [frameIndex_eq_clamp d _ i (by omega) hhi]
    unfold clampInt
    rw [if_neg (by omega), if_pos (by omega)]

/-- C5, the code at the failing input.  On a clip of `N = 2^31 - 1` frames
with radius 2 and centre index `N - 1 = 2147483646`, the sum `n + i` for
offset `i = 2` is `2^31`, which does not fit an `int`; reduced to 32 bits it
is negative and the clamp yields frame 0 instead of `N - 1`. -/
theorem window_tail_overflow :
    windowIndices longClipData 2147483646
        = [2147483644, 2147483645, 2147483646, 2147483646, 0] ∧
      frameIndex longClipData (longClipData.vi.numFrames - 1) 2 = 0 ∧
      clampInt (longClipData.vi.numFrames - 1 + 2) 0 (longClipData.vi.numFrames - 1)
        = longClipData.vi.numFrames - 1 := by
  decide

/-! ## The pixel loops -/

theorem colLoop_succ (rp : List Ptr) (r : Nat) (s : Dyadic) (w : Nat) (wp : Ptr) :
    colLoop rp r s (w + 1) wp
      = (colLoop rp r s w wp).write w (blendSample (rp.map fun p => p.read w) r s) := by
  unfold colLoop
  rw [List.range_succ, List.foldl_append]
  rfl

/-- One row: the columns `0 .. w-1` at the write pointer receive the blended
samples, every other byte of the output buffer is untouched and the pointer
does not move. -/
theorem colLoop_spec (rp : List Ptr) (r : Nat) (s : Dyadic) (wp : Ptr) (w : Nat) :
    (colLoop rp r s w wp).off = wp.off ∧
      (∀ x, x < w →
        (colLoop rp r s w wp).buf (wp.off + x) = blendSample (rp.map fun p => p.read x) r s) ∧
      (∀ j, (j < wp.off ∨ wp.off + w ≤ j) → (colLoop rp r s w wp).buf j = wp.buf j) := by
  induction w with
  | zero =>
    refine ⟨rfl, ?_, ?_⟩
    · intro x hx
      omega
    · intro j _
      rfl
  | succ w ih =>
    obtain ⟨ih1, ih2, ih3⟩ := ih
    rw [colLoop_succ]
    have hwr : ((colLoop rp r s w wp).write w (blendSample (rp.map fun p => p.read w) r s)).buf
        = Function.update (colLoop rp r s w wp).buf (wp.off + w)
            (blendSample (rp.map fun p => p.read w) r s) := by
      unfold Ptr.write
      rw [ih1]
    refine ⟨ih1, ?_, ?_⟩
    · intro x hx
      rw [hwr]
      by_cases hxw : x = w
      · subst hxw
        rw [Function.update_same]
      · rw [Function.update_noteq (by omega)]
        exact ih2 x (by omega)
    · intro j hj
      rw [hwr]
      rw [Function.update_noteq (by omega)]
      exact ih3 j (by omega)

/-- The rows: for `w <= stride`, row `y` and column `x` of the output, located
with the stride the loop steps by, receive the blend of the bytes the read
pointers see at the same offset; bytes before the write pointer are
untouched. -/
theorem rowLoop_spec (r : Nat) (s : Dyadic) (w stride : Nat) (hS : w ≤ stride) :
    ∀ (h : Nat) (rp : List Ptr) (wp : Ptr),
      (∀ y, y < h → ∀ x, x < w →
        (rowLoop r s w stride h rp wp).buf (wp.off + y * stride + x)
          = blendSample (rp.map fun p => p.buf (p.off + y * stride + x)) r s) ∧
      (∀ j, j < wp.off → (rowLoop r s w stride h rp wp).buf j = wp.buf j) := by
  intro h
  induction h with
  | zero =>
    intro rp wp
    refine ⟨?_, ?_⟩
    · intro y hy
      omega
    · intro j _
      rfl
  | succ h ih =>
    intro rp wp
    obtain ⟨c1, c2, c3⟩ := colLoop_spec rp r s wp w
    obtain ⟨ih1, ih2⟩ := ih (rp.map fun p => p.advance stride)
      ((colLoop rp r s w wp).advance stride)
    have hoff : ((colLoop rp r s w wp).advance stride).off = wp.off + stride := by
      unfold Ptr.advance
      simp only [c1]
    have hbuf : ((colLoop rp r s w wp).advance stride).buf = (colLoop rp r s w wp).buf := rfl
    rw [hoff] at ih1 ih2
    rw [hbuf] at ih2
    show (∀ y, y < h + 1 → ∀ x, x < w →
        (rowLoop r s w stride h (rp.map fun p => p.advance stride)
          ((colLoop rp r s w wp).advance stride)).buf (wp.off + y * stride + x)
          = blendSample (rp.map fun p => p.buf (p.off + y * stride + x)) r s) ∧
      (∀ j, j < wp.off → (rowLoop r s w stride h (rp.map fun p => p.advance stride)
          ((colLoop rp r s w wp).advance stride)).buf j = wp.buf j)
    refine ⟨?_, ?_⟩
    · intro y hy x hx
      cases y with
      | zero =>
        have e : wp.off + 0 * stride + x = wp.off + x := by simp
        rw [e, ih2 (wp.off + x) (by omega), c2 x hx]
        congr 1
        apply List.map_congr_left
        intro p _
        unfold Ptr.read
        simp
      | succ y =>
        have e : wp.off + (y + 1) * stride + x = wp.off + stride + y * stride + x := by ring
        rw [e, ih1 y (by omega) x hx, List.map_map]
        congr 1
        apply List.map_congr_left
        intro p _
        simp only [Function.comp_apply, Ptr.advance]
        congr 1
        ring
    · intro j hj
      rw [ih2 j (by omega)]
      exact c3 j (Or.inl hj)

/-! ## The loop over planes -/

theorem blendPlanes_succ (refFrames : List Frame) (r : Nat) (s : Dyadic) (np : Nat) (dst : Frame) :
    blendPlanes refFrames r s (np + 1) dst
      = blendPlane refFrames r s (blendPlanes refFrames r s np dst) np := by
  unfold blendPlanes
  rw [List.range_succ, List.foldl_append]
  rfl

/-- The planes `0 .. numPlanes-1` of the output carry the buffer the row loop
leaves; the other planes and the geometry of every plane are those of the
frame the host allocated. -/
theorem blendPlanes_spec (refFrames : List Frame) (r : Nat) (s : Dyadic) (dst : Frame) (np : Nat) :
    (∀ p, p < np →
      blendPlanes refFrames r s np dst p
        = { dst p with
            data := (rowLoop r s ((refFrames.getD r nullFrame) p).width
              ((refFrames.getD r nullFrame) p).stride ((refFrames.getD r nullFrame) p).height
              (refFrames.map fun f => ⟨(f p).data, 0⟩) ⟨(dst p).data, 0⟩).buf }) ∧
      (∀ p, np ≤ p → blendPlanes refFrames r s np dst p = dst p) := by
  induction np with
  | zero =>
    refine ⟨?_, ?_⟩
    · intro p hp
      omega
    · intro p _
      rfl
  | succ np ih =>
    obtain ⟨ih1, ih2⟩ := ih
    rw [blendPlanes_succ]
    refine ⟨?_, ?_⟩
    · intro p hp
      unfold blendPlane
      simp only
      by_cases hpn : p = np
      · subst hpn
        rw [Function.update_same, ih2 p le_rfl]
      · rw [Function.update_noteq hpn]
        exact ih1 p (by omega)
    · intro p hp
      unfold blendPlane
      simp only
      rw [Function.update_noteq (by omega)]
      exact ih2 p (by omega)

/-! ## The ready activation -/

/-- What the ready activation returns.  The frame is the one the host
allocated, with the planes `0 .. numPlanes-1` blended.  Height, width and
stride are those of the centre frame `src`; every window frame is read, and
the output written, at offset `y * stride(src) + x`. -/
theorem readyPhase_samples (d : TemporalDenoiseData) (s : Dyadic) (n : Int) (r : Nat)
    (host : Host) (hr : d.radius = r) (hr30 : r < 2 ^ 30) :
    ∃ f : Frame,
      (readyPhase d s n host).1 = Result.frame (host.nextRef + (2 * r + 1)) f ∧
      ∀ p, p < d.vi.format.numPlanes →
        (f p).width = (host.fresh p).width ∧ (f p).height = (host.fresh p).height ∧
        (f p).stride = (host.fresh p).stride ∧
        ((host.clip (frameIndex d n 0) p).width ≤ (host.clip (frameIndex d n 0) p).stride →
          ∀ y, y < (host.clip (frameIndex d n 0) p).height →
            ∀ x, x < (host.clip (frameIndex d n 0) p).width →
              (f p).data (y * (host.clip (frameIndex d n 0) p).stride + x)
                = blendSample ((windowIndices d n).map fun fn =>
                    (host.clip fn p).data (y * (host.clip (frameIndex d n 0) p).stride + x)) r s) := by
  have hsize : wrap32 (d.radius * 2 + 1) = ((2 * r + 1 : Nat) : Int) := by
    rw [hr, wrap32_of_range _ (by omega) (by omega)]
    push_cast
    ring
  have hframes := fetchLoop_frames d n r hr host
  have hhost : (fetchLoop d n (List.replicate (2 * r + 1) nullRef) host).2.nextRef
      = host.nextRef + (2 * r + 1) := by
    rw [fetchLoop_eq d n r hr]
  have hfresh : (fetchLoop d n (List.replicate (2 * r + 1) nullRef) host).2.fresh = host.fresh := by
    rw [fetchLoop_eq d n r hr]
  have hsrc : ((windowIndices d n).map host.clip).getD r nullFrame
      = host.clip (frameIndex d n 0) := by
    rw [List.getD_eq_getElem?_getD, List.getElem?_map,
      windowIndices_getElem? d n r hr r (by omega)]
    simp
  have hfr : (fetchLoop d n (List.replicate (2 * r + 1) nullRef) host).2.newVideoFrame.1.frame
      = host.fresh := by
    unfold Host.newVideoFrame
    simp only [hfresh]
  have hid : (fetchLoop d n (List.replicate (2 * r + 1) nullRef) host).2.newVideoFrame.1.id
      = host.nextRef + (2 * r + 1) := by
    unfold Host.newVideoFrame
    simp only [hhost]
  unfold readyPhase
  simp only
  rw [hsize, if_neg (by omega), Int.toNat_ofNat, hr, Int.toNat_ofNat, hframes, hfr, hid]
  refine ⟨blendPlanes ((windowIndices d n).map host.clip) r s d.vi.format.numPlanes host.fresh,
    rfl, ?_⟩
  intro p hp
  obtain ⟨hb, _⟩ := blendPlanes_spec ((windowIndices d n).map host.clip) r s host.fresh
    d.vi.format.numPlanes
  rw [hb p hp, hsrc]
  refine ⟨rfl, rfl, rfl, ?_⟩
  intro hS y hy x hx
  obtain ⟨hrow, _⟩ := rowLoop_spec r s _ _ hS (host.clip (frameIndex d n 0) p).height
    (((windowIndices d n).map host.clip).map fun f => ⟨(f p).data, 0⟩) ⟨(host.fresh p).data, 0⟩
  have := hrow y hy x hx
  simp only [Nat.zero_add] at this
  refine this.trans ?_
  rw [List.map_map, List.map_map]
  congr 1
  apply List.map_congr_left
  intro fn _
  simp

/-! ## C2 and C9: the returned frame -/

theorem windowIndices_eq_resolve (d : TemporalDenoiseData) (n : Int) (r : Nat)
    (hr : d.radius = r) (h0 : 0 ≤ n) (hr31 : (r : Int) < 2 ^ 31) (hov : n + r < 2 ^ 31) :
    windowIndices d n = resolve n r d.vi.numFrames := by
  rw [windowIndices_eq d n r hr]
  unfold resolve
  apply List.map_congr_left
  intro k hk
  rw [List.mem_range] at hk
  rw [frameIndex_eq_clamp d n _ (by omega) (by omega)]
  congr 1
  ring

theorem getFrame_ready (d : TemporalDenoiseData) (s : Dyadic) (n : Int) (host : Host)
    (hs : d.strength = Fl.fin s) :
    temporalDenoiseGetFrame n arAllFramesReady d host = readyPhase d s n host := by
  unfold temporalDenoiseGetFrame
  rw [if_neg (by decide), if_pos rfl, hs]

/-- C2, counterexample.  Three instances in which the frames share format,
width and height.  (1) Frame 0 has row stride 2, the centre frame stride 1:
the code steps every read pointer by the centre frame's stride, reads the
padding byte 7 of frame 0 in row 1 and writes 44, while the blend of the
samples at row 1, column 0 (255, 0, 255) is 85.  (2) On a clip of `2^31 - 1`
frames, centre index `2^31 - 2`, radius 2, the sum `n + 2` overflows `int`, the
last window slot holds frame 0 and the code writes 204, while the blend over
the frames `clamp(n+i, 0, N-1)` is 255.  (3) With radius `2^30` the size
`radius * 2 + 1` of `refFrames` overflows and no frame is produced. -/
theorem ready_frame_fails :
    ((∀ fn ∈ resolve 1 1 3, (paddedHost.clip fn 0).width = (paddedHost.fresh 0).width ∧
          (paddedHost.clip fn 0).height = (paddedHost.fresh 0).height) ∧
        (temporalDenoiseGetFrame 1 arAllFramesReady paddedData paddedHost).1.sample? 0 1 0
          = some 44 ∧
        blendSample ((resolve 1 1 3).map fun fn => (paddedHost.clip fn 0).sample 1 0) 1 f32Half
          = 85) ∧
      ((temporalDenoiseGetFrame 2147483646 arAllFramesReady longClipData longClipHost).1.sample?
            0 0 0 = some 204 ∧
        blendSample ((resolve 2147483646 2 2147483647).map fun fn =>
            (longClipHost.clip fn 0).sample 0 0) 2 f32One = 255) ∧
      (temporalDenoiseGetFrame 0 arAllFramesReady hugeRadiusData exampleHost).1.sample? 0 0 0
        = none := by
  refine ⟨⟨by decide, by decide, by decide⟩, ⟨by decide, by decide⟩, by decide⟩


/-- C2, amended.  Frame-level correctness of the ready phase when, in
addition to format, width and height, all window planes and the output plane
share one row stride (at least the width), and the `int` computations
`radius * 2 + 1` and `n + radius` do not overflow: for every output index
`n >= 0` (so for every `n` in `[0, N-1]`), plane `p`, row `y` and column `x`,
the byte of the returned frame
at row `y`, column `x` is the per-sample blend of the bytes at row `y`, column
`x` of the frames `clamp(n+i, 0, N-1)`, `i = -r..r`. -/
theorem ready_frame_correct (d : TemporalDenoiseData) (s : Dyadic) (n : Int) (r : Nat)
    (host : Host) (hr : d.radius = r) (hs : d.strength = Fl.fin s)
    (hN : 1 ≤ d.vi.numFrames) (h0 : 0 ≤ n) (hr30 : r < 2 ^ 30) (hov : n + r < 2 ^ 31)
    (hgeom : ∀ fn, 0 ≤ fn → fn ≤ d.vi.numFrames - 1 → ∀ p, p < d.vi.format.numPlanes →
      (host.clip fn p).width = (host.fresh p).width ∧
      (host.clip fn p).height = (host.fresh p).height ∧
      (host.clip fn p).stride = (host.fresh p).stride)
    (hpad : ∀ p, p < d.vi.format.numPlanes → (host.fresh p).width ≤ (host.fresh p).stride) :
    ∃ f : Frame,
      (temporalDenoiseGetFrame n arAllFramesReady d host).1
        = Result.frame (host.nextRef + (2 * r + 1)) f ∧
      ∀ p, p < d.vi.format.numPlanes →
        (f p).width = (host.fresh p).width ∧ (f p).height = (host.fresh p).height ∧
        ∀ y, y < (f p).height → ∀ x, x < (f p).width →
          (f p).sample y x
            = blendSample ((resolve n r d.vi.numFrames).map fun fn =>
                (host.clip fn p).sample y x) r s := by
  obtain ⟨f, hf, hp⟩ := readyPhase_samples d s n r host hr hr30
  refine ⟨f, by rw [getFrame_ready d s n host hs, hf], ?_⟩
  intro p hpl
  obtain ⟨hw, hh, hst, hsm⟩ := hp p hpl
  have hc := frameIndex_range d n 0 hN
  obtain ⟨gw, gh, gs⟩ := hgeom (frameIndex d n 0) hc.1 hc.2 p hpl
  refine ⟨hw, hh, ?_⟩
  intro y hy x hx
  rw [gw, gs, gh] at hsm
  have := hsm (hpad p hpl) y (by omega) x (by omega)
  unfold Plane.sample
  rw [hst, this, ← windowIndices_eq_resolve d n r hr h0 (by omega) hov]
  congr 1
  apply List.map_congr_left
  intro fn hfn
  have hrange : 0 ≤ fn ∧ fn ≤ d.vi.numFrames - 1 := by
    rw [windowIndices_eq d n r hr, List.mem_map] at hfn
    obtain ⟨k, _, hk⟩ := hfn
    rw [← hk]
    exact frameIndex_range d n _ hN
  rw [(hgeom fn hrange.1 hrange.2 p hpl).2.2]

/-- C2, amended: the specification's end-to-end example.  Three frames with
luma 255, 0, 255, radius 1, strength `0.5`, output index 1: every pixel of the
returned frame is 85. -/
theorem ready_frame_correct_witness :
    ∃ f : Frame,
      (temporalDenoiseGetFrame 1 arAllFramesReady exampleData exampleHost).1
        = Result.frame 3 f ∧
      ∀ y, y < 2 → ∀ x, x < 2 → (f 0).sample y x = 85 := by
  obtain ⟨f, hf, hp⟩ := ready_frame_correct exampleData f32Half 1 1 exampleHost rfl rfl
    (by decide) (by decide) (by decide) (by decide)
    (by
      intro fn _ _ p _
      unfold exampleHost exampleClip constFrame constPlane
      simp only
      split_ifs <;> exact ⟨rfl, rfl, rfl⟩)
    (by
      intro p _
      exact Nat.le_refl 2)
  refine ⟨f, hf, ?_⟩
  intro y hy x hx
  obtain ⟨hw, hh, hsm⟩ := hp 0 (by decide)
  have hw2 : (f 0).width = 2 := hw
  have hh2 : (f 0).height = 2 := hh
  rw [hsm y (by omega) x (by omega)]
  have hwin : ((resolve 1 1 exampleData.vi.numFrames).map fun fn =>
      (exampleHost.clip fn 0).sample y x) = [255, 0, 255] := by
    have : resolve 1 1 exampleData.vi.numFrames = [0, 1, 2] := by decide
    rw [this]
    rfl
  rw [hwin]
  decide

theorem frameIndex_single (d : TemporalDenoiseData) (n i : Int) (hN : d.vi.numFrames = 1) :
    frameIndex d n i = 0 := by
  have := frameIndex_range d n i (by omega)
  omega

theorem windowIndices_single (d : TemporalDenoiseData) (n : Int) (r : Nat) (hr : d.radius = r)
    (hN : d.vi.numFrames = 1) : windowIndices d n = List.replicate (2 * r + 1) 0 := by
  rw [windowIndices_eq d n r hr]
  apply List.ext_getElem
  · simp
  · intro k h1 h2
    simp [frameIndex_single d n _ hN]

/-- C9, counterexample.  Two one-frame clips.  (1) Radius 2, strength `0.5`,
every source byte 9, source stride 1, but the host allocates the output with
stride 2: the code steps the write pointer by the source stride, so row 1 of
the output (offset 2) is never written and keeps the byte 7.  (2) Radius
4210752, strength 1, one white sample: the accumulator wraps over the 8421505
copies of the frame and the output sample is 0, not 255. -/
theorem single_frame_fails :
    ((temporalDenoiseGetFrame 0 arAllFramesReady singleFrameData singleFrameHost).1.sample? 0 1 0
          = some 7 ∧
        (singleFrameHost.clip 0 0).sample 1 0 = 9) ∧
      ((temporalDenoiseGetFrame 0 arAllFramesReady wideWindowData whiteHost).1.sample? 0 0 0
          = some 0 ∧
        (whiteHost.clip 0 0).sample 0 0 = 255) := by
  refine ⟨⟨by decide, by decide⟩, ?_, by decide⟩
  obtain ⟨f, hf, hp⟩ := readyPhase_samples wideWindowData f32One 0 4210752 whiteHost rfl
    (by decide)
  rw [getFrame_ready wideWindowData f32One 0 whiteHost rfl, hf]
  obtain ⟨_, _, hst, hsm⟩ := hp 0 (by decide)
  have h0 : frameIndex wideWindowData 0 0 = 0 := frameIndex_single _ _ _ rfl
  rw [h0] at hsm
  have := hsm (by decide) 0 (by decide) 0 (by decide)
  rw [windowIndices_single wideWindowData 0 4210752 rfl rfl, List.map_replicate] at this
  have hstr : (f 0).stride = 1 := hst
  show some ((f 0).data (0 * (f 0).stride + 0)) = some 0
  rw [hstr]
  have e : (whiteHost.clip 0 0).data (0 * (whiteHost.clip 0 0).stride + 0) = 255 := rfl
  rw [e] at this
  have e2 : (0 * (whiteHost.clip 0 0).stride + 0) = 0 * 1 + 0 := rfl
  rw [e2] at this
  rw [this, blendSample_replicate _ _ _ _ (by decide)]
  decide

/-- C9, amended.  Single-frame sequence: for `N = 1`, every radius `r` with
`255*(2r+1) < 2^31`, every binary32 strength in `[0,1]` and a host whose
output planes have the row stride of the source planes, the frame returned
for index 0 equals the single source frame sample for sample. -/
theorem single_frame_identity (d : TemporalDenoiseData) (s : Dyadic) (r : Nat) (host : Host)
    (hr : d.radius = r) (hs : d.strength = Fl.fin s) (hst : IsStrength s)
    (hN : d.vi.numFrames = 1) (hT : 255 * (2 * r + 1) < 2 ^ 31)
    (hbytes : ∀ p off, (host.clip 0 p).data off ≤ 255)
    (hstride : ∀ p, p < d.vi.format.numPlanes →
      (host.fresh p).stride = (host.clip 0 p).stride ∧
      (host.clip 0 p).width ≤ (host.clip 0 p).stride) :
    ∃ f : Frame,
      (temporalDenoiseGetFrame 0 arAllFramesReady d host).1
        = Result.frame (host.nextRef + (2 * r + 1)) f ∧
      ∀ p, p < d.vi.format.numPlanes →
        ∀ y, y < (host.clip 0 p).height → ∀ x, x < (host.clip 0 p).width →
          (f p).sample y x = (host.clip 0 p).sample y x := by
  have hr30 : r < 2 ^ 30 := by
    norm_num at hT ⊢
    omega
  obtain ⟨f, hf, hp⟩ := readyPhase_samples d s 0 r host hr hr30
  refine ⟨f, by rw [getFrame_ready d s 0 host hs, hf], ?_⟩
  intro p hpl y hy x hx
  obtain ⟨_, _, hfs, hsm⟩ := hp p hpl
  rw [frameIndex_single d 0 0 hN] at hsm
  have := hsm (hstride p hpl).2 y hy x hx
  rw [windowIndices_single d 0 r hr hN, List.map_replicate] at this
  unfold Plane.sample
  rw [hfs, (hstride p hpl).1, this]
  exact blendSample_replicate_eq r _ s (hbytes p _) hst hT

/-- C9, amended: the theorem applied to the specification's example, radius 2
on a one-frame clip (every byte 9, stride 1) with an output frame of the same
stride. -/
theorem single_frame_identity_witness :
    ∃ f : Frame,
      (temporalDenoiseGetFrame 0 arAllFramesReady singleFrameData
          { singleFrameHost with fresh := constFrame 1 2 1 7 }).1 = Result.frame 5 f ∧
      ∀ y, y < 2 → (f 0).sample y 0 = 9 := by
  obtain ⟨f, hf, hp⟩ := single_frame_identity singleFrameData f32Half 2
    { singleFrameHost with fresh := constFrame 1 2 1 7 } rfl rfl (by decide) rfl (by decide)
    (by
      intro p off
      show (9 : Nat) ≤ 255
      decide)
    (by
      intro p _
      exact ⟨rfl, Nat.le_refl 1⟩)
  exact ⟨f, hf, fun y hy => hp 0 (by decide) y hy 0 (by decide)⟩

/-! ## C10: construction -/

/-- C10.  Construction-time rejection: the constructor sets a configuration
error and creates no filter if and only if the `clip` argument is missing or
the clip's sample format is not 8-bit integer; in every other case it
creates exactly one filter and sets no error. -/
theorem create_rejects_iff (args : CreateArgs) :
    ((0 < (temporalDenoiseCreate args).countP CreateEvent.isError ∧
        (temporalDenoiseCreate args).countP CreateEvent.isFilter = 0) ↔ Rejected args) ∧
      (¬ Rejected args →
        (temporalDenoiseCreate args).countP CreateEvent.isFilter = 1 ∧
        (temporalDenoiseCreate args).countP CreateEvent.isError = 0) := by
  unfold temporalDenoiseCreate Rejected Is8BitInteger
  cases hc : args.clip with
  | none => simp [CreateEvent.isError, CreateEvent.isFilter]
  | some c =>
    obtain ⟨node, vi⟩ := c
    by_cases h : vi.format.bytesPerSample ≠ 1 ∨ vi.format.sampleType ≠ SampleType.stInteger
    · have h2 : ¬(vi.format.bytesPerSample = 1 ∧ vi.format.sampleType = SampleType.stInteger) := by
        tauto
      simp [h, h2, CreateEvent.isError, CreateEvent.isFilter]
    · have h2 : vi.format.bytesPerSample = 1 ∧ vi.format.sampleType = SampleType.stInteger := by
        tauto
      simp [h2, CreateEvent.isError, CreateEvent.isFilter]

/-! ## C14: other activation reasons -/

/-- C14.  Defensive no-op: for every activation reason other than
`arInitial` and `arAllFramesReady` the frame callback returns no frame and
leaves the host as it was: no frame request, no frame fetch, no allocation and
no release is added to the log. -/
theorem other_activation_noop (n reason : Int) (d : TemporalDenoiseData) (host : Host)
    (h0 : reason ≠ arInitial) (h1 : reason ≠ arAllFramesReady) :
    (temporalDenoiseGetFrame n reason d host).1 = Result.null ∧
      (temporalDenoiseGetFrame n reason d host).2 = host ∧
      newEvents host (temporalDenoiseGetFrame n reason d host).2 = [] := by
  have h : temporalDenoiseGetFrame n reason d host = (Result.null, host) := by
    unfold temporalDenoiseGetFrame
    rw [if_neg h0, if_neg h1]
  rw [h]
  refine ⟨rfl, rfl, ?_⟩
  unfold newEvents
  simp

/-- C14: the theorem applied to the activation reason `-1` on the end-to-end
example. -/
theorem other_activation_noop_witness :
    (temporalDenoiseGetFrame 1 (-1) exampleData exampleHost).1 = Result.null ∧
      newEvents exampleHost (temporalDenoiseGetFrame 1 (-1) exampleData exampleHost).2 = [] :=
  have h := other_activation_noop 1 (-1) exampleData exampleHost (by decide) (by decide)
  ⟨h.1, h.2.2⟩

/-! ## C15: the accumulator -/

theorem sumLoop_append_singleton (l : List Nat) (v : Nat) :
    sumLoop (l ++ [v]) = wrap32 (sumLoop l + (v : Int)) := by
  unfold sumLoop
  rw [List.foldl_append]
  rfl

theorem take_bounded (window : List Nat) (hv : ∀ v ∈ window, v ≤ 255) (k : Nat) :
    ∀ v ∈ window.take k, v ≤ 255 :=
  fun v h => hv v (List.mem_of_mem_take h)

/-- C15.  Accumulator width: for every window of `T` samples in `[0,255]` with
`255*T <= 2^31 - 1`, the 32-bit accumulation never wraps: the accumulator after
`k` iterations equals the sum of the first `k` samples and is at most `255*T`,
and the `k`-th addition `sum += window[k]` stays in the range of `int`. -/
theorem accumulator_never_wraps (window : List Nat) (hv : ∀ v ∈ window, v ≤ 255)
    (hT : 255 * window.length ≤ 2 ^ 31 - 1) :
    ∀ k, k ≤ window.length →
      sumLoop (window.take k) = (((window.take k).sum : Nat) : Int) ∧
      sumLoop (window.take k) ≤ 255 * (window.length : Int) ∧
      ∀ h : k < window.length,
        sumLoop (window.take (k + 1)) = wrap32 (sumLoop (window.take k) + (window.get ⟨k, h⟩ : Int)) ∧
        wrap32 (sumLoop (window.take k) + (window.get ⟨k, h⟩ : Int))
          = sumLoop (window.take k) + (window.get ⟨k, h⟩ : Int) := by
  intro k hk
  norm_num at hT
  have hlen : (window.take k).length = k := by
    rw [List.length_take]
    omega
  have hsum := sumLoop_eq_sum (window.take k) (take_bounded window hv k) (by rw [hlen]; omega)
  have hle := sum_le_of_bounded (window.take k) (take_bounded window hv k)
  rw [hlen] at hle
  refine ⟨hsum, by rw [hsum]; omega, ?_⟩
  intro h
  have hvk : window.get ⟨k, h⟩ ≤ 255 := hv _ (List.get_mem window k h)
  constructor
  · have e : window.take (k + 1) = window.take k ++ [window.get ⟨k, h⟩] := by
      rw [← List.take_concat_get window k h, List.concat_eq_append]
      rfl
    rw [e, sumLoop_append_singleton]
  · rw [hsum]
    exact wrap32_of_range _ (by omega) (by omega)

/-- C15: the theorem applied to the window `[255, 0, 255]` after two
iterations. -/
theorem accumulator_never_wraps_witness :
    sumLoop (([255, 0, 255] : List Nat).take 2) = (((([255, 0, 255] : List Nat).take 2).sum : Nat) : Int) ∧
      sumLoop (([255, 0, 255] : List Nat).take 2) ≤ 255 * (([255, 0, 255] : List Nat).length : Int) :=
  have h := accumulator_never_wraps [255, 0, 255] (by decide) (by decide) 2 (by decide)
  ⟨h.1, h.2.1⟩

/-! ## C18: convexity -/

theorem blendSample_eq_rounded (window : List Nat) (r : Nat) (s : Dyadic) :
    blendSample window r s = (clampInt (roundedValue window r s) 0 255 % 256).toNat := rfl

/-- The value before the clamp lies between the floors of the exact blend
shifted by `2^-13` either way. -/
theorem roundedValue_sandwich (r : Nat) (window : List Nat) (s : Dyadic)
    (hlen : window.length = 2 * r + 1) (hw : ∀ v ∈ window, v ≤ 255) (hs : IsStrength s)
    (hT : 255 * (2 * r + 1) < 2 ^ 31) :
    ⌊exactBlend (window.getD r 0) (truncMean window) s.toRat + 1 / 2 - (2 : ℚ) ^ (-13 : Int)⌋
        ≤ roundedValue window r s ∧
      roundedValue window r s
        ≤ ⌊exactBlend (window.getD r 0) (truncMean window) s.toRat + 1 / 2 + (2 : ℚ) ^ (-13 : Int)⌋ := by
  have hsum : sumLoop window = (window.sum : Nat) :=
    sumLoop_eq_sum window hw (by rw [hlen]; norm_num at hT ⊢; omega)
  have hcur := getD_le_of_bounded window hw r
  have hmean := truncMean_le window hw
  have havg : Int.tdiv (sumLoop window) (window.length : Int) = ((truncMean window : Nat) : Int) := by
    rw [hsum, Int.tdiv_eq_ediv (by positivity) (by positivity)]
    unfold truncMean
    push_cast
    rfl
  have h0 := hs.toRat_nonneg
  have h1 := hs.toRat_le_one
  have hmq1 : (truncMean window : ℚ) ≤ 255 := by exact_mod_cast hmean
  have hB := fmul_avg_err (truncMean window : Int) s (by positivity) (by exact_mod_cast hmean) hs
  have key := blend_trunc ((window.getD r 0 : Nat) : Int) s (fmul (ofInt (truncMean window : Int)) s)
    ((truncMean window : ℚ) * s.toRat) (by positivity) (by exact_mod_cast hcur) hs
    (by positivity)
    (by have := mul_le_mul hmq1 h1 h0 (by norm_num : (0 : ℚ) ≤ 255); linarith)
    (by simpa only [Int.cast_natCast] using hB)
  have hx : exactBlend (window.getD r 0) (truncMean window) s.toRat
      = (((window.getD r 0 : Nat) : Int) : ℚ) * (1 - s.toRat) + (truncMean window : ℚ) * s.toRat := by
    unfold exactBlend
    push_cast
    rfl
  rw [← hx] at key
  have hv : roundedValue window r s
      = truncToInt (fadd (fadd (fmul (ofInt ((window.getD r 0 : Nat) : Int)) (fsub f32One s))
          (fmul (ofInt (truncMean window : Int)) s)) f32Half) := by
    unfold roundedValue
    simp only
    rw [havg]
  rw [hv]
  exact key

/-- The exact blend lies between the centre sample and the mean. -/
theorem exactBlend_between (cur avg : Nat) (s : ℚ) (h0 : 0 ≤ s) (h1 : s ≤ 1) :
    ((min cur avg : Nat) : ℚ) ≤ exactBlend cur avg s ∧
      exactBlend cur avg s ≤ ((max cur avg : Nat) : ℚ) := by
  unfold exactBlend
  rcases le_total cur avg with h | h
  · rw [min_eq_left h, max_eq_right h]
    have hq : (cur : ℚ) ≤ (avg : ℚ) := by exact_mod_cast h
    constructor <;> nlinarith
  · rw [min_eq_right h, max_eq_left h]
    have hq : (avg : ℚ) ≤ (cur : ℚ) := by exact_mod_cast h
    constructor <;> nlinarith

theorem roundedValue_replicate (n v r : Nat) (s : Dyadic) (h : r < n) :
    roundedValue (List.replicate n v) r s =
      truncToInt (fadd (fadd (fmul (ofInt (v : Int)) (fsub f32One s))
        (fmul (ofInt (Int.tdiv (wrap32 ((n : Int) * (v : Int))) (n : Int))) s)) f32Half) := by
  unfold roundedValue
  simp only [sumLoop_replicate, List.length_replicate, List.getD_eq_getElem?_getD,
    List.getElem?_replicate_of_lt h, Option.getD_some]

/-- C18, counterexample.  A window of 8421505 samples of value 255 (radius
4210752) at strength 1: the accumulator wraps, `avg` is -254, the value before
the clamp is `static_cast<int>(-253.5f) = -253`, the clamp changes it to 0, and
the sample written, 0, is below both the centre sample 255 and the truncated
window mean 255. -/
theorem blendSample_convexity_fails :
    roundedValue (List.replicate (2 * 4210752 + 1) 255) 4210752 f32One = -253 ∧
      clampInt (-253) 0 255 = 0 ∧
      blendSample (List.replicate (2 * 4210752 + 1) 255) 4210752 f32One = 0 ∧
      (List.replicate (2 * 4210752 + 1) 255).getD 4210752 0 = 255 ∧
      truncMean (List.replicate (2 * 4210752 + 1) 255) = 255 := by
  refine ⟨?_, by decide, ?_, ?_, truncMean_replicate _ _ (by decide)⟩
  · rw [roundedValue_replicate _ _ _ _ (by decide)]
    decide
  · rw [blendSample_replicate _ _ _ _ (by decide)]
    decide
  · rw [List.getD_eq_getElem?_getD, List.getElem?_replicate_of_lt (by decide)]
    rfl

/-- C18, amended.  Convexity: for every window of `2r+1` samples in `[0,255]`
with `255*(2r+1) < 2^31` and every binary32 strength in `[0,1]`, the sample
written lies between the centre sample and the truncated window mean; the
value before the clamp is already in `[0,255]`, so the clamp and the narrowing
to `uint8_t` do not change it. -/
theorem blendSample_convex (r : Nat) (window : List Nat) (s : Dyadic)
    (hlen : window.length = 2 * r + 1) (hw : ∀ v ∈ window, v ≤ 255) (hs : IsStrength s)
    (hT : 255 * (2 * r + 1) < 2 ^ 31) :
    min (window.getD r 0) (truncMean window) ≤ blendSample window r s ∧
      blendSample window r s ≤ max (window.getD r 0) (truncMean window) ∧
      0 ≤ roundedValue window r s ∧ roundedValue window r s ≤ 255 ∧
      clampInt (roundedValue window r s) 0 255 = roundedValue window r s ∧
      (blendSample window r s : Int) = roundedValue window r s := by
  obtain ⟨hlo, hhi⟩ := roundedValue_sandwich r window s hlen hw hs hT
  obtain ⟨hb0, hb1⟩ := exactBlend_between (window.getD r 0) (truncMean window) s.toRat
    hs.toRat_nonneg hs.toRat_le_one
  have hmaxle : max (window.getD r 0) (truncMean window) ≤ 255 :=
    max_le (getD_le_of_bounded window hw r) (truncMean_le window hw)
  have e1 : ((min (window.getD r 0) (truncMean window) : Nat) : ℚ)
      = (((min (window.getD r 0) (truncMean window) : Nat) : Int) : ℚ) := by
    push_cast
    rfl
  have e2 : ((max (window.getD r 0) (truncMean window) : Nat) : ℚ)
      = (((max (window.getD r 0) (truncMean window) : Nat) : Int) : ℚ) := by
    push_cast
    rfl
  have h1 : ((min (window.getD r 0) (truncMean window) : Nat) : Int) ≤ roundedValue window r s := by
    refine le_trans ?_ hlo
    rw [← floor_int_add_half_sub ((min (window.getD r 0) (truncMean window) : Nat) : Int)]
    apply Int.floor_le_floor
    rw [← e1]
    linarith
  have h2 : roundedValue window r s ≤ ((max (window.getD r 0) (truncMean window) : Nat) : Int) := by
    refine le_trans hhi ?_
    rw [← floor_int_add_half_add ((max (window.getD r 0) (truncMean window) : Nat) : Int)]
    apply Int.floor_le_floor
    rw [← e2]
    linarith
  have hr0 : 0 ≤ roundedValue window r s := le_trans (by positivity) h1
  have hr1 : roundedValue window r s ≤ 255 := le_trans h2 (by exact_mod_cast hmaxle)
  have hcl := clampInt_of_range (roundedValue window r s) 0 255 hr0 hr1
  have hout : (blendSample window r s : Int) = roundedValue window r s := by
    rw [blendSample_eq_rounded, hcl]
    omega
  refine ⟨?_, ?_, hr0, hr1, hcl, hout⟩
  · have : ((min (window.getD r 0) (truncMean window) : Nat) : Int) ≤ (blendSample window r s : Int) := by
      rw [hout]
      exact h1
    exact_mod_cast this
  · have : (blendSample window r s : Int) ≤ ((max (window.getD r 0) (truncMean window) : Nat) : Int) := by
      rw [hout]
      exact h2
    exact_mod_cast this

/-- C18, amended: the theorem applied to the window `[255, 0, 255]`, radius 1
and strength `0.5`. -/
theorem blendSample_convex_witness :
    min (([255, 0, 255] : List Nat).getD 1 0) (truncMean [255, 0, 255])
        ≤ blendSample [255, 0, 255] 1 f32Half ∧
      blendSample [255, 0, 255] 1 f32Half
        ≤ max (([255, 0, 255] : List Nat).getD 1 0) (truncMean [255, 0, 255]) :=
  have h := blendSample_convex 1 [255, 0, 255] f32Half (by decide) (by decide) (by decide)
    (by decide)
  ⟨h.1, h.2.1⟩

/-! ## C20: permutations of the window -/

theorem foldl_wrap_sum (window : List Nat) :
    ∀ acc : Int,
      window.foldl (fun (sum : Int) (v : Nat) => wrap32 (sum + (v : Int))) (wrap32 acc)
        = wrap32 (acc + ((window.sum : Nat) : Int)) := by
  induction window with
  | nil => intro acc; simp
  | cons v w ih =>
    intro acc
    rw [List.foldl_cons, wrap32_wrap32_add, ih]
    congr 1
    simp only [List.sum_cons, Nat.cast_add]
    ring

/-- The accumulator holds the sum of the window reduced to 32 bits. -/
theorem sumLoop_eq_wrap_sum (window : List Nat) :
    sumLoop window = wrap32 ((window.sum : Nat) : Int) := by
  unfold sumLoop
  have h0 : (0 : Int) = wrap32 0 := by decide
  rw [h0, foldl_wrap_sum]
  simp

theorem blendSample_congr (w1 w2 : List Nat) (r : Nat) (s : Dyadic)
    (hlen : w1.length = w2.length) (hsum : w1.sum = w2.sum) (hc : w1.getD r 0 = w2.getD r 0) :
    blendSample w1 r s = blendSample w2 r s := by
  unfold blendSample
  simp only
  rw [sumLoop_eq_wrap_sum, sumLoop_eq_wrap_sum, hlen, hsum, hc]

theorem blendSample_perm (w1 w2 : List Nat) (r : Nat) (s : Dyadic)
    (hp : w1.Perm w2) (hc : w1[r]? = w2[r]?) :
    blendSample w1 r s = blendSample w2 r s := by
  apply blendSample_congr w1 w2 r s hp.length_eq hp.sum_eq
  rw [List.getD_eq_getElem?_getD, List.getD_eq_getElem?_getD, hc]

theorem colLoop_perm (rp1 rp2 : List Ptr) (r : Nat) (s : Dyadic)
    (hp : rp1.Perm rp2) (hc : rp1[r]? = rp2[r]?) (w : Nat) (wp : Ptr) :
    colLoop rp1 r s w wp = colLoop rp2 r s w wp := by
  have hf : (fun (wp : Ptr) (x : Nat) =>
        wp.write x (blendSample (rp1.map fun p => p.read x) r s))
      = (fun (wp : Ptr) (x : Nat) =>
        wp.write x (blendSample (rp2.map fun p => p.read x) r s)) := by
    funext wp x
    rw [blendSample_perm (rp1.map fun p => p.read x) (rp2.map fun p => p.read x) r s (hp.map _)
      (by rw [List.getElem?_map, List.getElem?_map, hc])]
  unfold colLoop
  rw [hf]

theorem rowLoop_perm (r : Nat) (s : Dyadic) (w stride : Nat) :
    ∀ (h : Nat) (rp1 rp2 : List Ptr) (wp : Ptr), rp1.Perm rp2 → rp1[r]? = rp2[r]? →
      rowLoop r s w stride h rp1 wp = rowLoop r s w stride h rp2 wp := by
  intro h
  induction h with
  | zero =>
    intro rp1 rp2 wp _ _
    rfl
  | succ h ih =>
    intro rp1 rp2 wp hp hc
    show rowLoop r s w stride h (rp1.map fun p => p.advance stride)
        ((colLoop rp1 r s w wp).advance stride)
      = rowLoop r s w stride h (rp2.map fun p => p.advance stride)
        ((colLoop rp2 r s w wp).advance stride)
    rw [colLoop_perm rp1 rp2 r s hp hc]
    apply ih _ _ _ (hp.map _)
    rw [List.getElem?_map, List.getElem?_map, hc]

theorem blendPlane_perm (f1 f2 : List Frame) (r : Nat) (s : Dyadic)
    (hp : f1.Perm f2) (hc : f1[r]? = f2[r]?) (dst : Frame) (plane : Nat) :
    blendPlane f1 r s dst plane = blendPlane f2 r s dst plane := by
  unfold blendPlane
  simp only
  have hsrc : f1.getD r nullFrame = f2.getD r nullFrame := by
    rw [List.getD_eq_getElem?_getD, List.getD_eq_getElem?_getD, hc]
  rw [hsrc]
  rw [rowLoop_perm r s _ _ _ (f1.map fun f => (⟨(f plane).data, 0⟩ : Ptr))
    (f2.map fun f => (⟨(f plane).data, 0⟩ : Ptr)) _ (hp.map _)
    (by rw [List.getElem?_map, List.getElem?_map, hc])]

theorem blendPlanes_perm (f1 f2 : List Frame) (r : Nat) (s : Dyadic)
    (hp : f1.Perm f2) (hc : f1[r]? = f2[r]?) (np : Nat) (dst : Frame) :
    blendPlanes f1 r s np dst = blendPlanes f2 r s np dst := by
  have hf : blendPlane f1 r s = blendPlane f2 r s := by
    funext dst plane
    exact blendPlane_perm f1 f2 r s hp hc dst plane
  unfold blendPlanes
  rw [hf]

theorem getElem?_reverse_centre {α : Type} (l : List α) (r : Nat) (hlen : l.length = 2 * r + 1) :
    l.reverse[r]? = l[r]? := by
  rw [List.getElem?_reverse (by omega)]
  congr 1
  omega

/-- C20.  Symmetry: for every radius `r`, every strength and every window of
`2r+1` frames, every permutation of the window that keeps the frame at
position `r` leaves the whole output of the loop over planes unchanged, and so
every output sample; reversing the window is such a permutation.  The same
holds for the window of samples of one pixel, whatever the samples are. -/
theorem window_permutation_invariant (r : Nat) (frames : List Frame) (s : Dyadic) (np : Nat)
    (dst : Frame) (hlen : frames.length = 2 * r + 1) :
    (∀ frames2 : List Frame, frames2.Perm frames → frames2[r]? = frames[r]? →
        blendPlanes frames2 r s np dst = blendPlanes frames r s np dst) ∧
      frames.reverse[r]? = frames[r]? ∧
      blendPlanes frames.reverse r s np dst = blendPlanes frames r s np dst ∧
      (∀ window window2 : List Nat, window2.Perm window → window2[r]? = window[r]? →
        blendSample window2 r s = blendSample window r s) ∧
      (∀ window : List Nat, window.length = 2 * r + 1 →
        blendSample window.reverse r s = blendSample window r s) := by
  refine ⟨fun f2 hp hc => blendPlanes_perm f2 frames r s hp hc np dst,
    getElem?_reverse_centre frames r hlen,
    blendPlanes_perm _ frames r s (List.reverse_perm frames)
      (getElem?_reverse_centre frames r hlen) np dst,
    fun w w2 hp hc => blendSample_perm w2 w r s hp hc,
    fun w hw => blendSample_perm _ w r s (List.reverse_perm w) (getElem?_reverse_centre w r hw)⟩

/-- C20: the theorem applied to the window of three constant 2x2 frames with
values 10, 20 and 30, radius 1 and strength `0.5`. -/
theorem window_permutation_invariant_witness :
    blendPlanes [constFrame 2 2 2 10, constFrame 2 2 2 20, constFrame 2 2 2 30].reverse 1 f32Half 1
        (constFrame 2 2 2 0)
      = blendPlanes [constFrame 2 2 2 10, constFrame 2 2 2 20, constFrame 2 2 2 30] 1 f32Half 1
        (constFrame 2 2 2 0) :=
  (window_permutation_invariant 1 [constFrame 2 2 2 10, constFrame 2 2 2 20, constFrame 2 2 2 30]
    f32Half 1 (constFrame 2 2 2 0) (by decide)).2.2.1

/-! ## Rounding to binary32: exact and monotone cases -/

/-- A value already written in binary32 is not changed by rounding. -/
theorem round32_of_binary32 (d : Dyadic) (h : IsBinary32 d) : round32 d = d := by
  obtain ⟨hm, he, _⟩ := h
  have hL : bitLength d.m.natAbs ≤ 24 := bitLength_le_of_lt _ _ hm
  unfold round32
  simp only
  rw [if_pos]
  rcases max_cases (d.e + (bitLength d.m.natAbs : Int) - 24) (-149) with ⟨h6, _⟩ | ⟨h6, _⟩ <;>
    rw [h6] <;> omega

/-- The shape of a rounded value: either the value itself, or a mantissa
`q` or `q + 1` at the grid exponent, where `q` is the mantissa with the low
bits dropped; `q + 1` only when some dropped bit is set. -/
theorem round32_shape (d : Dyadic) :
    round32 d = d ∨
      (d.e < max (d.e + bitLength d.m.natAbs - 24) (-149) ∧
        (round32 d).e = max (d.e + bitLength d.m.natAbs - 24) (-149) ∧
        ((round32 d).m = d.m / 2 ^ (max (d.e + bitLength d.m.natAbs - 24) (-149) - d.e).toNat ∨
          ((round32 d).m = d.m / 2 ^ (max (d.e + bitLength d.m.natAbs - 24) (-149) - d.e).toNat + 1 ∧
            0 < d.m % 2 ^ (max (d.e + bitLength d.m.natAbs - 24) (-149) - d.e).toNat))) := by
  unfold round32
  simp only
  set t : Int := max (d.e + bitLength d.m.natAbs - 24) (-149) with ht
  by_cases h1 : t ≤ d.e
  · left
    rw [if_pos h1]
  · right
    rw [if_neg h1]
    have hhpos : (0 : Int) < 2 ^ ((t - d.e).toNat - 1) := by positivity
    refine ⟨by omega, rfl, ?_⟩
    simp only
    split_ifs with c1 c2 c3
    · left; rfl
    · right; exact ⟨rfl, by omega⟩
    · left; rfl
    · right; exact ⟨rfl, by omega⟩

theorem round32_mantissa_nonpos (d : Dyadic) (h : d.m ≤ 0) : (round32 d).m ≤ 0 := by
  rcases round32_shape d with h1 | ⟨_, _, h2 | ⟨h2, h3⟩⟩
  · rw [h1]
    exact h
  · rw [h2]
    set k : Nat := (max (d.e + bitLength d.m.natAbs - 24) (-149) - d.e).toNat
    have hdm : d.m = 2 ^ k * (d.m / 2 ^ k) + d.m % 2 ^ k := (Int.ediv_add_emod d.m (2 ^ k)).symm
    have hp : (0 : Int) < 2 ^ k := by positivity
    have hr0 : 0 ≤ d.m % 2 ^ k := Int.emod_nonneg _ (by positivity)
    by_contra hc
    push_neg at hc
    have : 0 < 2 ^ k * (d.m / 2 ^ k) := mul_pos hp hc
    omega
  · rw [h2]
    set k : Nat := (max (d.e + bitLength d.m.natAbs - 24) (-149) - d.e).toNat
    have hdm : d.m = 2 ^ k * (d.m / 2 ^ k) + d.m % 2 ^ k := (Int.ediv_add_emod d.m (2 ^ k)).symm
    have hp : (0 : Int) < 2 ^ k := by positivity
    by_contra hc
    push_neg at hc
    have hq : 0 ≤ d.m / 2 ^ k := by omega
    have : 0 ≤ 2 ^ k * (d.m / 2 ^ k) := mul_nonneg hp.le hq
    omega

theorem mantissa_nonpos_of_toRat (d : Dyadic) (h : d.toRat ≤ 0) : d.m ≤ 0 := by
  unfold Dyadic.toRat at h
  have hp := two_zpow_pos d.e
  have : (d.m : ℚ) ≤ 0 := by
    by_contra hc
    push_neg at hc
    have := mul_pos hc hp
    linarith
  exact_mod_cast this

theorem round32_toRat_nonpos (d : Dyadic) (h : d.toRat ≤ 0) : (round32 d).toRat ≤ 0 := by
  have hm := round32_mantissa_nonpos d (mantissa_nonpos_of_toRat d h)
  unfold Dyadic.toRat
  exact mul_nonpos_of_nonpos_of_nonneg (by exact_mod_cast hm) (two_zpow_pos _).le

theorem round32_toRat_nonneg (d : Dyadic) (h : 0 ≤ d.toRat) : 0 ≤ (round32 d).toRat := by
  have hm := round32_mantissa_nonneg d (mantissa_nonneg_of_toRat d h)
  unfold Dyadic.toRat
  exact mul_nonneg (by exact_mod_cast hm) (two_zpow_pos _).le

/-- Rounding does not take a value at or above one below one. -/
theorem round32_ge_one (d : Dyadic) (h : 1 ≤ d.toRat) : 1 ≤ (round32 d).toRat := by
  rcases round32_shape d with h1 | ⟨hlt, he, hq⟩
  · rw [h1]
    exact h
  · have hm0 : 0 ≤ d.m := mantissa_nonneg_of_toRat d (by linarith)
    have hmne : d.m ≠ 0 := by
      intro hz
      rw [toRat_of_zero_mantissa d hz] at h
      norm_num at h
    have hn : d.m.natAbs ≠ 0 := by simpa using hmne
    have hb1 := two_pow_bitLength_le d.m.natAbs hn
    have hb2 := lt_two_pow_bitLength d.m.natAbs
    set L : Nat := bitLength d.m.natAbs with hL
    have habs : ((d.m.natAbs : Nat) : Int) = d.m := Int.natAbs_of_nonneg hm0
    -- the value is below `2^(L + e)`, hence `1 <= L + e`
    have hLe : 1 ≤ (L : Int) + d.e := by
      have h3 : d.toRat < (2 : ℚ) ^ ((L : Int) + d.e) := by
        unfold Dyadic.toRat
        rw [zpow_add₀ (by norm_num : (2 : ℚ) ≠ 0), zpow_natCast]
        apply mul_lt_mul_of_pos_right _ (two_zpow_pos d.e)
        have : (d.m : ℚ) = ((d.m.natAbs : Nat) : ℚ) := by
          rw [Nat.cast_natAbs, abs_of_nonneg hm0]
        rw [this]
        exact_mod_cast hb2
      have h4 : (2 : ℚ) ^ (0 : Int) < (2 : ℚ) ^ ((L : Int) + d.e) := by
        rw [zpow_zero]
        linarith
      have h5 := (zpow_lt_zpow_iff_right₀ (by norm_num : (1 : ℚ) < 2)).1 h4
      omega
    have ht : max (d.e + (L : Int) - 24) (-149) = d.e + (L : Int) - 24 := max_eq_left (by omega)
    rw [ht] at hlt he hq
    have hk : (d.e + (L : Int) - 24 - d.e).toNat = L - 24 := by omega
    rw [hk] at hq
    have hL24 : 25 ≤ L := by omega
    -- the truncated mantissa keeps the leading bit
    have hq23 : (2 : Int) ^ 23 ≤ d.m / 2 ^ (L - 24) := by
      apply Int.le_ediv_of_mul_le (by positivity)
      rw [← pow_add]
      have e : 23 + (L - 24) = L - 1 := by omega
      rw [e, ← habs]
      exact_mod_cast hb1
    have hm23 : (2 : Int) ^ 23 ≤ (round32 d).m := by
      rcases hq with hq | ⟨hq, _⟩ <;> rw [hq] <;> omega
    unfold Dyadic.toRat
    rw [he]
    have h6 : (1 : ℚ) ≤ (2 : ℚ) ^ 23 * (2 : ℚ) ^ (d.e + (L : Int) - 24) := by
      have : (2 : ℚ) ^ 23 = (2 : ℚ) ^ (23 : Int) := by norm_num
      rw [this, ← zpow_add₀ (by norm_num : (2 : ℚ) ≠ 0)]
      have h7 : (2 : ℚ) ^ (0 : Int) ≤ (2 : ℚ) ^ ((23 : Int) + (d.e + (L : Int) - 24)) :=
        zpow_le_zpow_right₀ (by norm_num) (by omega)
      simpa using h7
    refine le_trans h6 ?_
    apply mul_le_mul_of_nonneg_right _ (two_zpow_pos _).le
    exact_mod_cast hm23


/-! ## C11: the stored strength -/

theorem toRat_f32Zero : f32Zero.toRat = 0 := by
  unfold f32Zero Dyadic.toRat
  simp

theorem clamp01_range (x : ℚ) : 0 ≤ clamp01 x ∧ clamp01 x ≤ 1 := by
  unfold clamp01
  exact ⟨le_max_left _ _, max_le (by norm_num) (min_le_right _ _)⟩

theorem clamp01_of_nonpos (x : ℚ) (h : x ≤ 0) : clamp01 x = 0 := by
  unfold clamp01
  rw [min_eq_left (by linarith), max_eq_left h]

theorem clamp01_of_one_le (x : ℚ) (h : 1 ≤ x) : clamp01 x = 1 := by
  unfold clamp01
  rw [min_eq_right h, max_eq_right (by norm_num)]

theorem clamp01_of_mem (x : ℚ) (h0 : 0 ≤ x) (h1 : x ≤ 1) : clamp01 x = x := by
  unfold clamp01
  rw [min_eq_left h1, max_eq_right h0]

/-- Clamping to `[0, 1]` does not increase the distance to a value of
`[0, 1]`. -/
theorem clamp01_dist (x y : ℚ) (h0 : 0 ≤ y) (h1 : y ≤ 1) : |clamp01 x - y| ≤ |x - y| := by
  rcases le_total x 0 with hx | hx
  · rw [clamp01_of_nonpos x hx, abs_le]
    have := le_abs_self (y - x)
    rw [abs_sub_comm] at this
    constructor <;> linarith
  · rcases le_total x 1 with hx1 | hx1
    · rw [clamp01_of_mem x hx hx1]
    · rw [clamp01_of_one_le x hx1, abs_le]
      have := le_abs_self (x - y)
      constructor <;> linarith

/-- The clamp `std::clamp(v, 0.0f, 1.0f)` of a finite `float` is the clamp of
its value. -/
theorem clamp_fin (r : Dyadic) :
    ∃ s, Fl.clamp (Fl.fin r) (Fl.fin f32Zero) (Fl.fin f32One) = Fl.fin s ∧
      s.toRat = clamp01 r.toRat ∧ (s = r ∨ s = f32Zero ∨ s = f32One) := by
  unfold Fl.clamp
  by_cases h1 : Fl.lt (Fl.fin r) (Fl.fin f32Zero)
  · rw [if_pos h1]
    have h2 : r.toRat < 0 := by
      have := (Dyadic.lt_iff r f32Zero).1 h1
      rwa [toRat_f32Zero] at this
    exact ⟨f32Zero, rfl, by rw [toRat_f32Zero, clamp01_of_nonpos _ h2.le], Or.inr (Or.inl rfl)⟩
  · rw [if_neg h1]
    have h2 : 0 ≤ r.toRat := by
      have := (Dyadic.lt_iff r f32Zero).not.1 h1
      rw [toRat_f32Zero] at this
      linarith
    by_cases h3 : Fl.lt (Fl.fin f32One) (Fl.fin r)
    · rw [if_pos h3]
      have h4 : 1 < r.toRat := by
        have := (Dyadic.lt_iff f32One r).1 h3
        rwa [toRat_f32One] at this
      exact ⟨f32One, rfl, by rw [toRat_f32One, clamp01_of_one_le _ h4.le], Or.inr (Or.inr rfl)⟩
    · rw [if_neg h3]
      have h4 : r.toRat ≤ 1 := by
        have := (Dyadic.lt_iff f32One r).not.1 h3
        rw [toRat_f32One] at this
        linarith
      exact ⟨r, rfl, (clamp01_of_mem _ h2 h4).symm, Or.inl rfl⟩

/-- The strength stored for a finite `double`: the clamp of its rounding to
binary32. -/
theorem stored_strength_fin (g : Dyadic) :
    ∃ s, Fl.clamp (Fl.cast32 (Fl.fin g)) (Fl.fin f32Zero) (Fl.fin f32One) = Fl.fin s ∧
      s.toRat = clamp01 (round32 g).toRat ∧ (s = round32 g ∨ s = f32Zero ∨ s = f32One) := by
  unfold Fl.cast32
  simp only
  by_cases c1 : Dyadic.lt ⟨-(2 ^ 128), 0⟩ (round32 g)
  · rw [if_neg (not_not.2 c1)]
    by_cases c2 : Dyadic.lt (round32 g) ⟨2 ^ 128, 0⟩
    · rw [if_neg (not_not.2 c2)]
      exact clamp_fin (round32 g)
    · rw [if_pos c2]
      have h := (Dyadic.lt_iff (round32 g) ⟨2 ^ 128, 0⟩).not.1 c2
      rw [toRat_intLit] at h
      push_neg at h
      have h1 : (1 : ℚ) ≤ (round32 g).toRat := by
        refine le_trans ?_ h
        norm_num
      refine ⟨f32One, ?_, by rw [toRat_f32One, clamp01_of_one_le _ h1], Or.inr (Or.inr rfl)⟩
      unfold Fl.clamp
      rw [if_neg (by unfold Fl.lt; exact not_false), if_pos (by unfold Fl.lt; trivial)]
  · rw [if_pos c1]
    have h := (Dyadic.lt_iff ⟨-(2 ^ 128), 0⟩ (round32 g)).not.1 c1
    rw [toRat_intLit] at h
    push_neg at h
    have h1 : (round32 g).toRat ≤ 0 := by
      refine le_trans h ?_
      norm_num
    refine ⟨f32Zero, ?_, by rw [toRat_f32Zero, clamp01_of_nonpos _ h1], Or.inr (Or.inl rfl)⟩
    unfold Fl.clamp
    rw [if_pos (by unfold Fl.lt; trivial)]

/-- The clamped rounding is within `2^-25` of the clamped value, and equal to
it outside the open interval `(0, 1)`. -/
theorem clamp01_round32 (g : Dyadic) :
    |clamp01 (round32 g).toRat - clamp01 g.toRat| ≤ (2 : ℚ) ^ (-25 : Int) ∧
      (g.toRat ≤ 0 ∨ 1 ≤ g.toRat → clamp01 (round32 g).toRat = clamp01 g.toRat) := by
  have hpos : (0 : ℚ) ≤ (2 : ℚ) ^ (-25 : Int) := (two_zpow_pos _).le
  rcases le_or_lt g.toRat 0 with h0 | h0
  · have e : clamp01 (round32 g).toRat = clamp01 g.toRat := by
      rw [clamp01_of_nonpos _ h0, clamp01_of_nonpos _ (round32_toRat_nonpos g h0)]
    exact ⟨by rw [e, sub_self, abs_zero]; exact hpos, fun _ => e⟩
  · rcases le_or_lt 1 g.toRat with h1 | h1
    · have e : clamp01 (round32 g).toRat = clamp01 g.toRat := by
        rw [clamp01_of_one_le _ h1, clamp01_of_one_le _ (round32_ge_one g h1)]
      exact ⟨by rw [e, sub_self, abs_zero]; exact hpos, fun _ => e⟩
    · refine ⟨?_, ?_⟩
      · rw [clamp01_of_mem g.toRat h0.le h1.le]
        refine le_trans (clamp01_dist _ _ h0.le h1.le) ?_
        have habs : |g.toRat| < (2 : ℚ) ^ (0 : Int) := by
          rw [abs_of_pos h0, zpow_zero]
          exact h1
        have := round32_err g 0 (by norm_num) habs
        simpa using this
      · intro h
        rcases h with h | h <;> linarith

/-- What the constructor creates from arguments it accepts. -/
theorem create_accepted (args : CreateArgs) (h : ¬ Rejected args) :
    ∃ node vi, args.clip = some (node, vi) ∧
      temporalDenoiseCreate args
        = [CreateEvent.createVideoFilter "TemporalDenoiseO"
            ⟨node, vi,
              (match args.radius with
                | some v => wrap32 v
                | none => 1),
              Fl.clamp
                (match args.strength with
                  | some v => Fl.cast32 v
                  | none => Fl.fin f32Half)
                (Fl.fin f32Zero) (Fl.fin f32One)⟩] := by
  unfold Rejected Is8BitInteger at h
  unfold temporalDenoiseCreate
  cases hc : args.clip with
  | none =>
    rw [hc] at h
    exact absurd trivial h
  | some c =>
    obtain ⟨node, vi⟩ := c
    rw [hc] at h
    simp only [not_not] at h
    have h2 : ¬ (vi.format.bytesPerSample ≠ 1 ∨ vi.format.sampleType ≠ SampleType.stInteger) := by
      tauto
    refine ⟨node, vi, rfl, ?_⟩
    simp only [if_neg h2]

set_option maxRecDepth 4000 in
/-- C11, counterexample.  With the strength one tenth (the `double`
`3602879701896397 * 2^-55`, inside `[0,1]`, so that `clamp(given, 0, 1)` is the
given value) the constructor stores the `float` `13421773 * 2^-27`, which is
larger than the given strength. -/
theorem stored_strength_is_rounded :
    createdData (temporalDenoiseCreate tenthArgs) = some ⟨0, grayInfo, 1, Fl.fin floatTenth⟩ ∧
      Fl.clamp (Fl.fin doubleTenth) (Fl.fin f32Zero) (Fl.fin f32One) = Fl.fin doubleTenth ∧
      Dyadic.lt doubleTenth floatTenth ∧
      Fl.fin floatTenth ≠ Fl.clamp (Fl.fin doubleTenth) (Fl.fin f32Zero) (Fl.fin f32One) := by
  refine ⟨?_, ?_, ?_, ?_⟩ <;> decide

/-- A NaN strength is stored as it is: both comparisons of `std::clamp` are
false. -/
theorem stored_strength_nan :
    createdData (temporalDenoiseCreate nanArgs) = some ⟨0, grayInfo, 1, Fl.nan⟩ := by
  decide

/-- The strength the constructor stores, by the form of the option. -/
theorem stored_strength_cases (st : Option Fl) (hnan : st ≠ some Fl.nan) :
    ∃ s,
      Fl.clamp
          (match st with
            | some v => Fl.cast32 v
            | none => Fl.fin f32Half)
          (Fl.fin f32Zero) (Fl.fin f32One) = Fl.fin s ∧
      0 ≤ s.toRat ∧ s.toRat ≤ 1 ∧
      (st = none → s = f32Half) ∧
      (st = some Fl.posInf → s = f32One) ∧
      (st = some Fl.negInf → s = f32Zero) ∧
      (∀ g, st = some (Fl.fin g) →
        s.toRat = clamp01 (round32 g).toRat ∧
        |s.toRat - clamp01 g.toRat| ≤ (2 : ℚ) ^ (-25 : Int) ∧
        (g.toRat ≤ 0 ∨ 1 ≤ g.toRat ∨ IsBinary32 g → s.toRat = clamp01 g.toRat) ∧
        (IsBinary32 g → IsStrength s)) := by
  cases st with
  | none =>
    refine ⟨f32Half, by decide, ?_, ?_, fun _ => rfl, ?_, ?_, ?_⟩
    · rw [toRat_f32Half]; norm_num
    · rw [toRat_f32Half]; norm_num
    · intro h; cases h
    · intro h; cases h
    · intro g h; cases h
  | some v =>
    cases v with
    | nan => exact absurd rfl hnan
    | posInf =>
      refine ⟨f32One, by decide, ?_, ?_, ?_, fun _ => rfl, ?_, ?_⟩
      · rw [toRat_f32One]; norm_num
      · rw [toRat_f32One]
      · intro h; cases h
      · intro h; cases h
      · intro g h; cases h
    | negInf =>
      refine ⟨f32Zero, by decide, ?_, ?_, ?_, ?_, fun _ => rfl, ?_⟩
      · rw [toRat_f32Zero]
      · rw [toRat_f32Zero]; norm_num
      · intro h; cases h
      · intro h; cases h
      · intro g h; cases h
    | fin g =>
      obtain ⟨s, hs1, hs2, hs3⟩ := stored_strength_fin g
      obtain ⟨hr0, hr1⟩ := clamp01_range (round32 g).toRat
      obtain ⟨hd, he⟩ := clamp01_round32 g
      refine ⟨s, hs1, by rw [hs2]; exact hr0, by rw [hs2]; exact hr1, ?_, ?_, ?_, ?_⟩
      · intro h; cases h
      · intro h; cases h
      · intro h; cases h
      intro g2 hg
      have hgg : g2 = g := by
        injection hg with hg
        injection hg with hg
        exact hg.symm
      subst hgg
      refine ⟨hs2, by rw [hs2]; exact hd, ?_, ?_⟩
      · intro h
        rcases h with h | h | h
        · rw [hs2]; exact he (Or.inl h)
        · rw [hs2]; exact he (Or.inr h)
        · rw [hs2, round32_of_binary32 g2 h]
      · intro hb
        rw [round32_of_binary32 g2 hb] at hs2 hs3
        rcases hs3 with h | h | h
        · rw [h]
          rw [h] at hs2
          have hc := clamp01_range g2.toRat
          rw [← hs2] at hc
          refine ⟨hb, mantissa_nonneg_of_toRat g2 hc.1, ?_⟩
          rw [Dyadic.lt_iff, toRat_f32One]
          linarith [hc.2]
        · rw [h]; decide
        · rw [h]; decide

/-- C11, amended.  Strength resolution: for every accepted configuration whose
strength is not NaN, construction sets no error and the instance holds a
finite strength `s` in `[0,1]`: `0.5` when the option is absent, `1` for
`+inf`, `0` for `-inf`, and for a finite given value `g` the clamp to `[0,1]`
of `g` rounded to binary32; this is within `2^-25` of `clamp(g, 0, 1)` and
equal to it when `g <= 0`, `g >= 1` or `g` is representable in binary32. -/
theorem strength_resolution (args : CreateArgs) (hacc : ¬ Rejected args)
    (hnan : args.strength ≠ some Fl.nan) :
    ∃ d s, createdData (temporalDenoiseCreate args) = some d ∧
      (temporalDenoiseCreate args).countP CreateEvent.isError = 0 ∧
      d.strength = Fl.fin s ∧ 0 ≤ s.toRat ∧ s.toRat ≤ 1 ∧
      (args.strength = none → s = f32Half) ∧
      (args.strength = some Fl.posInf → s = f32One) ∧
      (args.strength = some Fl.negInf → s = f32Zero) ∧
      (∀ g, args.strength = some (Fl.fin g) →
        s.toRat = clamp01 (round32 g).toRat ∧
        |s.toRat - clamp01 g.toRat| ≤ (2 : ℚ) ^ (-25 : Int) ∧
        (g.toRat ≤ 0 ∨ 1 ≤ g.toRat ∨ IsBinary32 g → s.toRat = clamp01 g.toRat) ∧
        (IsBinary32 g → IsStrength s)) := by
  obtain ⟨node, vi, _, hcreate⟩ := create_accepted args hacc
  obtain ⟨s, hs, hrest⟩ := stored_strength_cases args.strength hnan
  rw [hcreate]
  exact ⟨_, s, rfl, rfl, hs, hrest⟩

/-- C11, amended: the theorem applied to the out-of-range strength 3. -/
theorem strength_resolution_witness :
    ∃ d s, createdData (temporalDenoiseCreate strongArgs) = some d ∧
      (temporalDenoiseCreate strongArgs).countP CreateEvent.isError = 0 ∧
      d.strength = Fl.fin s ∧ 0 ≤ s.toRat ∧ s.toRat ≤ 1 := by
  obtain ⟨d, s, h1, h2, h3, h4, h5, _⟩ :=
    strength_resolution strongArgs (by simp [Rejected, Is8BitInteger, strongArgs, grayInfo])
      (by decide)
  exact ⟨d, s, h1, h2, h3, h4, h5⟩

/-! ## C12: the stored radius -/

/-- C12, the code at the failing input.  With the radius option `-1` and a
valid clip the constructor sets no error and creates the filter with radius
`-1`: the window size `radius * 2 + 1` is `-1`, the initial activation requests
no frame, and the ready activation has no defined result (`std::vector` is
constructed with size `-1`). -/
theorem negative_radius_stored :
    createdData (temporalDenoiseCreate negativeRadiusArgs) = some negativeRadiusData ∧
      (temporalDenoiseCreate negativeRadiusArgs).countP CreateEvent.isError = 0 ∧
      negativeRadiusData.radius = -1 ∧
      wrap32 (negativeRadiusData.radius * 2 + 1) = -1 ∧
      newEvents exampleHost (temporalDenoiseGetFrame 1 arInitial negativeRadiusData exampleHost).2 = [] ∧
      (temporalDenoiseGetFrame 1 arAllFramesReady negativeRadiusData exampleHost).1.isUndefined = true := by
  refine ⟨by decide, by decide, by decide, by decide, by decide, ?_⟩
  rfl

/-! ## The host calls of the two activations -/

theorem newEvents_append (host after : Host) (l : List Event) (h : after.log = host.log ++ l) :
    newEvents host after = l := by
  unfold newEvents
  rw [h, List.drop_left]

theorem foldl_free (refs : List FrameRef) (host : Host) :
    refs.foldl (fun h r => h.freeFrame r) host
      = { host with log := host.log ++ refs.map fun r => Event.freeFrame r.id } := by
  induction refs generalizing host with
  | nil => simp
  | cons r rest ih =>
    rw [List.foldl_cons, ih]
    simp [Host.freeFrame]

/-- The host calls of the initial activation: one request per window index,
in order, and no frame is returned. -/
theorem initial_events (d : TemporalDenoiseData) (n : Int) (r : Nat) (host : Host)
    (hr : d.radius = r) (hr31 : r < 2 ^ 31 - 1) :
    (temporalDenoiseGetFrame n arInitial d host).1 = Result.null ∧
      newEvents host (temporalDenoiseGetFrame n arInitial d host).2
        = (windowIndices d n).map Event.requestFrameFilter := by
  have h : temporalDenoiseGetFrame n arInitial d host
      = (Result.null,
          { host with log := host.log ++ (windowIndices d n).map Event.requestFrameFilter }) := by
    unfold temporalDenoiseGetFrame
    rw [if_pos rfl, requestLoop_eq d n r hr hr31]
  rw [h]
  exact ⟨rfl, newEvents_append _ _ _ rfl⟩

/-- The host calls of the ready activation for a radius below `2^30`: the
`2r+1` fetches with consecutive new reference numbers, one allocation, then
the release of the fetched references in the order of the fetches. -/
theorem ready_events (d : TemporalDenoiseData) (s : Dyadic) (n : Int) (r : Nat) (host : Host)
    (hr : d.radius = r) (hs : d.strength = Fl.fin s) (hr30 : r < 2 ^ 30) :
    (temporalDenoiseGetFrame n arAllFramesReady d host).1.ref? = some (host.nextRef + (2 * r + 1)) ∧
      newEvents host (temporalDenoiseGetFrame n arAllFramesReady d host).2
        = ((List.range (2 * r + 1)).map fun (k : Nat) =>
              Event.getFrameFilter (frameIndex d n (-(r : Int) + (k : Int))) (host.nextRef + k))
          ++ [Event.newVideoFrame (host.nextRef + (2 * r + 1))]
          ++ (List.range (2 * r + 1)).map fun (k : Nat) => Event.freeFrame (host.nextRef + k) := by
  have h : temporalDenoiseGetFrame n arAllFramesReady d host = readyPhase d s n host := by
    unfold temporalDenoiseGetFrame
    rw [if_neg (by decide), if_pos rfl, hs]
  have hsize : wrap32 (d.radius * 2 + 1) = ((2 * r + 1 : Nat) : Int) := by
    rw [hr, wrap32_of_range _ (by omega) (by omega)]
    push_cast
    ring
  rw [h]
  unfold readyPhase
  simp only
  rw [hsize, if_neg (by omega), Int.toNat_ofNat, fetchLoop_eq d n r hr, foldl_free]
  refine ⟨rfl, newEvents_append _ _ _ ?_⟩
  simp only [Host.newVideoFrame, List.map_map, List.append_assoc]
  rfl

theorem filterMap_requested (l : List Int) :
    (l.map Event.requestFrameFilter).filterMap Event.requested = l := by
  induction l with
  | nil => rfl
  | cons a l ih =>
    rw [List.map_cons, List.filterMap_cons]
    simp only [Event.requested]
    rw [ih]

theorem filterMap_gets {β : Type} (p : Event → Option β) (f : Nat → Int) (g : Nat → Nat)
    (q : Int → Nat → β) (hp : ∀ fn ref, p (Event.getFrameFilter fn ref) = some (q fn ref))
    (m : Nat) :
    ((List.range m).map fun (k : Nat) => Event.getFrameFilter (f k) (g k)).filterMap p
      = (List.range m).map fun (k : Nat) => q (f k) (g k) := by
  rw [List.filterMap_map]
  rw [← List.filterMap_eq_map]
  congr 1
  funext k
  exact hp _ _

theorem filterMap_skip {β : Type} (p : Event → Option β) (l : List Event)
    (hp : ∀ e ∈ l, p e = none) : l.filterMap p = [] := by
  rw [List.filterMap_eq_nil_iff]
  exact hp


/-- The frame numbers requested by the initial activation, read off the
log. -/
theorem initial_requested (d : TemporalDenoiseData) (n : Int) (r : Nat) (host : Host)
    (hr : d.radius = r) (hr31 : r < 2 ^ 31 - 1) :
    (newEvents host (temporalDenoiseGetFrame n arInitial d host).2).filterMap Event.requested
      = windowIndices d n := by
  rw [(initial_events d n r host hr hr31).2, filterMap_requested]

/-- What the log of the ready activation shows: the frame numbers fetched, the
reference numbers fetched, allocated and released. -/
theorem ready_log (d : TemporalDenoiseData) (s : Dyadic) (n : Int) (r : Nat) (host : Host)
    (hr : d.radius = r) (hs : d.strength = Fl.fin s) (hr30 : r < 2 ^ 30) :
    (newEvents host (temporalDenoiseGetFrame n arAllFramesReady d host).2).filterMap Event.fetched
        = windowIndices d n ∧
      (newEvents host (temporalDenoiseGetFrame n arAllFramesReady d host).2).filterMap
          Event.fetchedRef = (List.range (2 * r + 1)).map (fun (k : Nat) => host.nextRef + k) ∧
      (newEvents host (temporalDenoiseGetFrame n arAllFramesReady d host).2).filterMap
          Event.allocated = [host.nextRef + (2 * r + 1)] ∧
      (newEvents host (temporalDenoiseGetFrame n arAllFramesReady d host).2).filterMap
          Event.released = (List.range (2 * r + 1)).map fun (k : Nat) => host.nextRef + k := by
  rw [(ready_events d s n r host hr hs hr30).2]
  simp only [List.filterMap_append]
  refine ⟨?_, ?_, ?_, ?_⟩
  · rw [filterMap_gets Event.fetched _ _ (fun fn _ => fn) (fun _ _ => rfl),
      filterMap_skip Event.fetched [_] (by simp [Event.fetched]),
      filterMap_skip Event.fetched (List.map _ _) (by simp [Event.fetched]),
      windowIndices_eq d n r hr]
    simp
  · rw [filterMap_gets Event.fetchedRef _ _ (fun _ ref => ref) (fun _ _ => rfl),
      filterMap_skip Event.fetchedRef [_] (by simp [Event.fetchedRef]),
      filterMap_skip Event.fetchedRef (List.map _ _) (by simp [Event.fetchedRef])]
    simp
  · rw [filterMap_skip Event.allocated (List.map _ _) (by simp [Event.allocated]),
      filterMap_skip Event.allocated (List.map _ _) (by simp [Event.allocated])]
    simp [Event.allocated]
  · rw [filterMap_skip Event.released (List.map _ _) (by simp [Event.released]),
      filterMap_skip Event.released [_] (by simp [Event.released])]
    simp only [List.nil_append, List.filterMap_map]
    rw [← List.filterMap_eq_map]
    rfl

/-! ## C13: request/fetch agreement -/

/-- C13, counterexample.  With radius `2^30` the initial activation requests
`2^31 + 1` frame numbers, while in the ready activation the size
`radius * 2 + 1` of `refFrames` does not fit an `int`: the run has no defined
result and fetches nothing. -/
theorem request_fetch_huge_radius :
    ((newEvents exampleHost (temporalDenoiseGetFrame 0 arInitial hugeRadiusData exampleHost).2).filterMap
          Event.requested).length = 2147483649 ∧
      (temporalDenoiseGetFrame 0 arAllFramesReady hugeRadiusData exampleHost).1.isUndefined = true ∧
      (newEvents exampleHost
          (temporalDenoiseGetFrame 0 arAllFramesReady hugeRadiusData exampleHost).2).filterMap
        Event.fetched = [] := by
  refine ⟨?_, by decide, by decide⟩
  rw [initial_requested hugeRadiusData 0 1073741824 exampleHost rfl (by norm_num),
    windowIndices_length hugeRadiusData 0 1073741824 rfl]

/-- C13, amended.  Request/fetch agreement for a radius `r < 2^30` (the
window size `2r+1` fits an `int`) and a finite strength: for every output
index `n`, the initial activation returns no frame and requests the frame
numbers of the window in order; the ready activation, from any host state,
fetches the same frame numbers in the same order, hence the same list; and
slot `k` of `refFrames` holds the frame of the `k`-th requested number under
the `k`-th new reference. -/
theorem request_fetch_agreement (d : TemporalDenoiseData) (s : Dyadic) (n : Int) (r : Nat)
    (host host2 : Host) (hr : d.radius = r) (hs : d.strength = Fl.fin s) (hr30 : r < 2 ^ 30) :
    (temporalDenoiseGetFrame n arInitial d host).1 = Result.null ∧
      (newEvents host (temporalDenoiseGetFrame n arInitial d host).2).filterMap Event.requested
        = windowIndices d n ∧
      (newEvents host2 (temporalDenoiseGetFrame n arAllFramesReady d host2).2).filterMap Event.fetched
        = (newEvents host (temporalDenoiseGetFrame n arInitial d host).2).filterMap Event.requested ∧
      ((newEvents host2 (temporalDenoiseGetFrame n arAllFramesReady d host2).2).filterMap
          Event.fetched).length = 2 * r + 1 ∧
      ∀ k, k < 2 * r + 1 →
        ∃ fn, ((newEvents host (temporalDenoiseGetFrame n arInitial d host).2).filterMap
            Event.requested)[k]? = some fn ∧
          (fetchLoop d n (List.replicate (2 * r + 1) nullRef) host2).1[k]?
            = some ⟨host2.nextRef + k, host2.clip fn⟩ := by
  have hr31 : r < 2 ^ 31 - 1 := by omega
  have hreq := initial_requested d n r host hr hr31
  have hfet := (ready_log d s n r host2 hr hs hr30).1
  refine ⟨(initial_events d n r host hr hr31).1, hreq, by rw [hfet, hreq], ?_, ?_⟩
  · rw [hfet, windowIndices_length d n r hr]
  · intro k hk
    refine ⟨frameIndex d n (-(r : Int) + (k : Int)), ?_, ?_⟩
    · rw [hreq, windowIndices_getElem? d n r hr k hk]
    · rw [fetchLoop_eq d n r hr]
      simp only
      rw [List.getElem?_map, List.getElem?_range hk]
      rfl

/-- C13, amended: the theorem applied to the end-to-end example (radius 1,
three frames, centre index 1). -/
theorem request_fetch_agreement_witness :
    (temporalDenoiseGetFrame 1 arInitial exampleData exampleHost).1 = Result.null ∧
      (newEvents exampleHost (temporalDenoiseGetFrame 1 arAllFramesReady exampleData exampleHost).2).filterMap
          Event.fetched
        = (newEvents exampleHost (temporalDenoiseGetFrame 1 arInitial exampleData exampleHost).2).filterMap
          Event.requested :=
  have h := request_fetch_agreement exampleData f32Half 1 1 exampleHost exampleHost rfl rfl
    (by decide)
  ⟨h.1, h.2.2.1⟩

/-! ## C16: release of the fetched references -/

theorem nodup_range_add (a m : Nat) : ((List.range m).map fun (k : Nat) => a + k).Nodup := by
  apply List.Nodup.map _ (List.nodup_range m)
  intro x y h
  exact Nat.add_left_cancel h

/-- C16, counterexample.  With radius `2^30` the ready activation has no
defined result: no frame is returned, none is allocated and none is fetched
or released. -/
theorem release_huge_radius :
    (temporalDenoiseGetFrame 0 arAllFramesReady hugeRadiusData exampleHost).1.isUndefined = true ∧
      (temporalDenoiseGetFrame 0 arAllFramesReady hugeRadiusData exampleHost).1.ref? = none ∧
      (newEvents exampleHost
          (temporalDenoiseGetFrame 0 arAllFramesReady hugeRadiusData exampleHost).2).filterMap
        Event.allocated = [] ∧
      (newEvents exampleHost
          (temporalDenoiseGetFrame 0 arAllFramesReady hugeRadiusData exampleHost).2).filterMap
        Event.fetchedRef = [] := by
  decide

/-- C16, amended.  Exactly-once release for a radius `r < 2^30` and a finite
strength: in the ready activation the sequence of references released is the
sequence of the `2r+1` references fetched, which are pairwise distinct (a
repeated frame number is fetched under a new reference each time); exactly one
frame is allocated, it is the frame returned, and it is not among the released
references. -/
theorem release_exactly_once (d : TemporalDenoiseData) (s : Dyadic) (n : Int) (r : Nat)
    (host : Host) (hr : d.radius = r) (hs : d.strength = Fl.fin s) (hr30 : r < 2 ^ 30) :
    (newEvents host (temporalDenoiseGetFrame n arAllFramesReady d host).2).filterMap Event.released
        = (newEvents host (temporalDenoiseGetFrame n arAllFramesReady d host).2).filterMap
          Event.fetchedRef ∧
      ((newEvents host (temporalDenoiseGetFrame n arAllFramesReady d host).2).filterMap
          Event.fetchedRef).length = 2 * r + 1 ∧
      ((newEvents host (temporalDenoiseGetFrame n arAllFramesReady d host).2).filterMap
          Event.fetchedRef).Nodup ∧
      (newEvents host (temporalDenoiseGetFrame n arAllFramesReady d host).2).filterMap
          Event.allocated = [host.nextRef + (2 * r + 1)] ∧
      (temporalDenoiseGetFrame n arAllFramesReady d host).1.ref? = some (host.nextRef + (2 * r + 1)) ∧
      host.nextRef + (2 * r + 1) ∉
        (newEvents host (temporalDenoiseGetFrame n arAllFramesReady d host).2).filterMap
          Event.released := by
  obtain ⟨_, h2, h3, h4⟩ := ready_log d s n r host hr hs hr30
  refine ⟨by rw [h4, h2], by rw [h2]; simp, by rw [h2]; exact nodup_range_add _ _, h3,
    (ready_events d s n r host hr hs hr30).1, ?_⟩
  rw [h4, List.mem_map]
  rintro ⟨k, hk, hke⟩
  rw [List.mem_range] at hk
  omega

/-- C16, amended: the theorem applied to the end-to-end example (radius 1,
three frames, centre index 1): references 0, 1, 2 are fetched and released,
reference 3 is allocated and returned. -/
theorem release_exactly_once_witness :
    (newEvents exampleHost (temporalDenoiseGetFrame 1 arAllFramesReady exampleData exampleHost).2).filterMap
          Event.released
        = (newEvents exampleHost (temporalDenoiseGetFrame 1 arAllFramesReady exampleData exampleHost).2).filterMap
          Event.fetchedRef ∧
      (temporalDenoiseGetFrame 1 arAllFramesReady exampleData exampleHost).1.ref?
        = some (exampleHost.nextRef + (2 * 1 + 1)) :=
  have h := release_exactly_once exampleData f32Half 1 1 exampleHost rfl rfl (by decide)
  ⟨h.1, h.2.2.2.2.1⟩

/-! ## C19: the order of the window -/

theorem orderedWindow_iff_chain (l : List Int) :
    OrderedWindow l ↔ List.Chain' (fun a b => b = a ∨ b = a + 1) l := by
  induction l with
  | nil => simp [OrderedWindow]
  | cons a l ih =>
    cases l with
    | nil => simp [OrderedWindow]
    | cons b rest =>
      rw [List.chain'_cons, ← ih]
      rfl

theorem clampInt_succ (v lo hi : Int) (h : lo ≤ hi) :
    clampInt (v + 1) lo hi = clampInt v lo hi ∨ clampInt (v + 1) lo hi = clampInt v lo hi + 1 := by
  unfold clampInt
  split_ifs <;> omega

/-- Where `n - r` and `n + r` fit an `int` the window is ordered, and it is
the run `n-r, ..., n+r` when `r <= n <= N-1-r`. -/
theorem window_ordered_in_range (d : TemporalDenoiseData) (n : Int) (r : Nat)
    (hr : d.radius = r) (hN : 1 ≤ d.vi.numFrames)
    (hlo : -(2 ^ 31) ≤ n - r) (hhi : n + r < 2 ^ 31) :
    OrderedWindow (windowIndices d n) ∧
      ((r : Int) ≤ n → n ≤ d.vi.numFrames - 1 - r →
        windowIndices d n = (List.range (2 * r + 1)).map fun (k : Nat) => n - (r : Int) + (k : Int)) := by
  have hidx : windowIndices d n = (List.range (2 * r + 1)).map fun (k : Nat) =>
      clampInt (n - (r : Int) + (k : Int)) 0 (d.vi.numFrames - 1) := by
    rw [windowIndices_eq d n r hr]
    apply List.map_congr_left
    intro k hk
    rw [List.mem_range] at hk
    rw [frameIndex_eq_clamp d n _ (by omega) (by omega)]
    congr 1
    ring
  constructor
  · rw [orderedWindow_iff_chain, hidx, List.chain'_map, List.chain'_range_succ]
    intro m _
    have e : n - (r : Int) + ((m.succ : Nat) : Int) = n - (r : Int) + (m : Int) + 1 := by
      push_cast
      ring
    rw [e]
    exact clampInt_succ _ 0 _ (by omega)
  · intro h1 h2
    rw [hidx]
    apply List.map_congr_left
    intro k hk
    rw [List.mem_range] at hk
    exact clampInt_of_range _ 0 _ (by omega) (by omega)

/-- C19, the code at the failing input.  On a clip of `N = 2^31 - 1` frames
with radius 2 and centre index `N - 1 = 2147483646` the window computed is
`[N-3, N-2, N-1, N-1, 0]`: the last step goes from `N - 1` down to 0, because
`n + 2` does not fit an `int` and the clamp receives a negative number.  The
list is not ordered. -/
theorem window_order_overflow :
    windowIndices longClipData 2147483646
        = [2147483644, 2147483645, 2147483646, 2147483646, 0] ∧
      ¬ OrderedWindow (windowIndices longClipData 2147483646) ∧
      OrderedWindow (resolve 2147483646 2 2147483647) := by
  decide

/-! ## C17: the memory accesses of the pixel loop -/

theorem pixelAccesses_eq (rp : List Ptr) (r : Nat) (wp : Ptr) (x : Nat) :
    pixelAccesses rp r wp x = pixelAccessesAt (rp.map Ptr.off) r wp.off x := by
  unfold pixelAccesses pixelAccessesAt
  rw [List.enum_map, List.map_map]
  congr 2
  have : (List.map Ptr.off rp).getD r 0 = (rp.getD r nullPtr).off := by
    rw [List.getD_eq_getElem?_getD, List.getD_eq_getElem?_getD, List.getElem?_map]
    cases rp[r]? <;> rfl
  rw [this]

theorem colLoopTraced_succ (rp : List Ptr) (r : Nat) (s : Dyadic) (w : Nat)
    (st : Ptr × List Access) :
    colLoopTraced rp r s (w + 1) st
      = ((colLoopTraced rp r s w st).1.write w (blendSample (rp.map fun p => p.read w) r s),
          (colLoopTraced rp r s w st).2 ++ pixelAccesses rp r (colLoopTraced rp r s w st).1 w) := by
  unfold colLoopTraced
  rw [List.range_succ, List.foldl_append]
  rfl

/-- The traced column loop computes what `colLoop` computes, and its accesses
are those of the columns `0 .. w-1`. -/
theorem colLoopTraced_spec (rp : List Ptr) (r : Nat) (s : Dyadic) (wp : Ptr) (tr : List Access)
    (w : Nat) :
    colLoopTraced rp r s w (wp, tr)
      = (colLoop rp r s w wp,
          tr ++ (List.range w).flatMap fun (x : Nat) =>
            pixelAccessesAt (rp.map Ptr.off) r wp.off x) := by
  induction w with
  | zero => simp [colLoopTraced, colLoop]
  | succ w ih =>
    rw [colLoopTraced_succ, ih, colLoop_succ, pixelAccesses_eq, (colLoop_spec rp r s wp w).1,
      List.range_succ, List.flatMap_append]
    simp [List.append_assoc]

theorem planeAccesses_succ (offs : List Nat) (r woff w stride h : Nat) :
    planeAccesses offs r woff w stride (h + 1)
      = ((List.range w).flatMap fun (x : Nat) => pixelAccessesAt offs r woff x)
        ++ planeAccesses (offs.map fun o => o + stride) r (woff + stride) w stride h := by
  unfold planeAccesses
  rw [List.range_succ_eq_map, List.flatMap_cons, List.flatMap_map]
  congr 1
  · simp
  · congr 1
    funext y
    congr 1
    funext x
    rw [List.map_map]
    have e1 : ((fun o => o + y * stride) ∘ fun o => o + stride)
        = fun o => o + Nat.succ y * stride := by
      funext o
      simp only [Function.comp_apply, Nat.succ_eq_add_one]
      ring
    have e2 : woff + stride + y * stride = woff + Nat.succ y * stride := by
      simp only [Nat.succ_eq_add_one]
      ring
    rw [e1, e2]

/-- The traced row loop computes what `rowLoop` computes, and its accesses
are those of the rows `0 .. h-1`. -/
theorem rowLoopTraced_spec (r : Nat) (s : Dyadic) (w stride : Nat) :
    ∀ (h : Nat) (rp : List Ptr) (wp : Ptr) (tr : List Access),
      rowLoopTraced r s w stride h rp (wp, tr)
        = (rowLoop r s w stride h rp wp,
            tr ++ planeAccesses (rp.map Ptr.off) r wp.off w stride h) := by
  intro h
  induction h with
  | zero =>
    intro rp wp tr
    simp [rowLoopTraced, rowLoop, planeAccesses]
  | succ h ih =>
    intro rp wp tr
    show rowLoopTraced r s w stride h (rp.map fun p => p.advance stride)
        (((colLoopTraced rp r s w (wp, tr)).1).advance stride,
          (colLoopTraced rp r s w (wp, tr)).2)
      = (rowLoop r s w stride h (rp.map fun p => p.advance stride)
            ((colLoop rp r s w wp).advance stride),
          tr ++ planeAccesses (rp.map Ptr.off) r wp.off w stride (h + 1))
    rw [colLoopTraced_spec, ih, planeAccesses_succ]
    have e1 : ((colLoop rp r s w wp).advance stride).off = wp.off + stride := by
      unfold Ptr.advance
      simp only [(colLoop_spec rp r s wp w).1]
    have e2 : List.map Ptr.off (rp.map fun p => p.advance stride)
        = (rp.map Ptr.off).map fun o => o + stride := by
      rw [List.map_map, List.map_map]
      rfl
    rw [e1, e2, List.append_assoc]

theorem mem_pixelAccessesAt (offs : List Nat) (r woff x : Nat) (a : Access)
    (hr : r < offs.length) (h : a ∈ pixelAccessesAt offs r woff x) :
    a = Access.write (woff + x) ∨
      ∃ t, t < offs.length ∧ a = Access.read t (offs.getD t 0 + x) := by
  unfold pixelAccessesAt at h
  rw [List.mem_append] at h
  rcases h with h | h
  · rw [List.mem_map] at h
    obtain ⟨tp, htp, rfl⟩ := h
    obtain ⟨t, o⟩ := tp
    obtain ⟨h1, h2⟩ := List.mem_enum htp
    right
    refine ⟨t, h1, ?_⟩
    rw [List.getD_eq_getElem _ _ h1, ← h2]
  · simp only [List.mem_cons, List.mem_singleton, List.not_mem_nil, or_false] at h
    rcases h with h | h
    · right
      exact ⟨r, hr, h⟩
    · left
      exact h

/-- Every access of the rows `0 .. h-1` is a store at `woff + y*stride + x` or
a load from window slot `t` at the slot's offset plus `y*stride + x`, for a
row `y < h` and a column `x < w`. -/
theorem mem_planeAccesses (offs : List Nat) (r woff w stride h : Nat) (a : Access)
    (hr : r < offs.length) (ha : a ∈ planeAccesses offs r woff w stride h) :
    ∃ y x, y < h ∧ x < w ∧
      (a = Access.write (woff + y * stride + x) ∨
        ∃ t, t < offs.length ∧ a = Access.read t (offs.getD t 0 + y * stride + x)) := by
  unfold planeAccesses at ha
  rw [List.mem_flatMap] at ha
  obtain ⟨y, hy, ha⟩ := ha
  rw [List.mem_flatMap] at ha
  obtain ⟨x, hx, ha⟩ := ha
  rw [List.mem_range] at hy hx
  refine ⟨y, x, hy, hx, ?_⟩
  rcases mem_pixelAccessesAt _ r _ x a (by rw [List.length_map]; exact hr) ha with h1 | h1
  · left
    exact h1
  · right
    obtain ⟨t, ht, h2⟩ := h1
    rw [List.length_map] at ht
    refine ⟨t, ht, ?_⟩
    rw [h2, List.getD_eq_getElem _ _ (by rw [List.length_map]; exact ht), List.getElem_map,
      List.getD_eq_getElem _ _ ht]

theorem flatMap_singleton_eq_map {α β : Type} (l : List α) (g : α → β) :
    (l.flatMap fun x => [g x]) = l.map g := by
  induction l with
  | nil => rfl
  | cons a l ih =>
    rw [List.flatMap_cons, ih]
    rfl

theorem writeOffsets_pixelAccessesAt (offs : List Nat) (r woff x : Nat) :
    writeOffsets (pixelAccessesAt offs r woff x) = [woff + x] := by
  unfold writeOffsets pixelAccessesAt
  rw [List.filterMap_append]
  have h1 : List.filterMap Access.writeOffset?
      (offs.enum.map fun (tp : Nat × Nat) => Access.read tp.1 (tp.2 + x)) = [] := by
    rw [List.filterMap_eq_nil_iff]
    intro a ha
    rw [List.mem_map] at ha
    obtain ⟨tp, _, rfl⟩ := ha
    rfl
  rw [h1]
  rfl

/-- The stores of the rows `0 .. h-1`, in order. -/
theorem writeOffsets_planeAccesses (offs : List Nat) (r woff w stride h : Nat) :
    writeOffsets (planeAccesses offs r woff w stride h)
      = (List.range h).flatMap fun (y : Nat) =>
          (List.range w).map fun (x : Nat) => woff + y * stride + x := by
  have hw : ∀ l : List Access, l.filterMap Access.writeOffset? = writeOffsets l := fun _ => rfl
  unfold planeAccesses
  rw [← hw, List.filterMap_flatMap]
  congr 1
  funext y
  rw [List.filterMap_flatMap]
  simp only [hw, writeOffsets_pixelAccessesAt]
  exact flatMap_singleton_eq_map _ _

theorem row_offsets_disjoint (woff w stride : Nat) (hS : w ≤ stride) (y1 y2 x1 x2 : Nat)
    (hy : y1 < y2) (hx1 : x1 < w) : woff + y1 * stride + x1 ≠ woff + y2 * stride + x2 := by
  have h1 : (y1 + 1) * stride ≤ y2 * stride := Nat.mul_le_mul_right _ (by omega)
  have h2 : (y1 + 1) * stride = y1 * stride + stride := by ring
  omega

/-- With `w <= stride` no byte offset is stored to twice. -/
theorem writes_nodup (woff w stride h : Nat) (hS : w ≤ stride) :
    ((List.range h).flatMap fun (y : Nat) =>
      (List.range w).map fun (x : Nat) => woff + y * stride + x).Nodup := by
  rw [List.nodup_flatMap]
  constructor
  · intro y _
    apply List.Nodup.map _ (List.nodup_range w)
    intro a b hab
    simp only at hab
    omega
  · apply (List.pairwise_lt_range h).imp
    intro y1 y2 hy
    show List.Disjoint _ _
    intro a h1 h2
    rw [List.mem_map] at h1 h2
    obtain ⟨x1, hx1, rfl⟩ := h1
    obtain ⟨x2, _, he⟩ := h2
    rw [List.mem_range] at hx1
    exact row_offsets_disjoint woff w stride hS y1 y2 x1 x2 hy hx1 he.symm

/-- The row loop leaves every byte that is not at an offset
`wp.off + y*stride + x` with `y < h`, `x < w` as it was. -/
theorem rowLoop_frame (r : Nat) (s : Dyadic) (w stride : Nat) :
    ∀ (h : Nat) (rp : List Ptr) (wp : Ptr) (j : Nat),
      (∀ y x, y < h → x < w → j ≠ wp.off + y * stride + x) →
        (rowLoop r s w stride h rp wp).buf j = wp.buf j := by
  intro h
  induction h with
  | zero =>
    intro rp wp j _
    rfl
  | succ h ih =>
    intro rp wp j hj
    obtain ⟨c1, _, c3⟩ := colLoop_spec rp r s wp w
    show (rowLoop r s w stride h (rp.map fun p => p.advance stride)
        ((colLoop rp r s w wp).advance stride)).buf j = wp.buf j
    have hoff : ((colLoop rp r s w wp).advance stride).off = wp.off + stride := by
      unfold Ptr.advance
      simp only [c1]
    rw [ih _ _ j (by
      intro y x hy hx
      rw [hoff]
      have := hj (y + 1) x (by omega) hx
      have e : (y + 1) * stride = y * stride + stride := by ring
      omega)]
    show (colLoop rp r s w wp).buf j = wp.buf j
    apply c3
    by_contra hc
    push_neg at hc
    have := hj 0 (j - wp.off) (by omega) (by omega)
    omega

/-- C17.  In-bounds access: for a window of `2r+1` planes, width `w`, height
`h` and stride at least `w`, the pixel loop (traced) computes what the pixel
loop computes; every load is from a window slot `t` at that plane's offset
`y*stride + x` and every store to the output plane's offset `y*stride + x` with
`y < h` and `x < w` (offsets counted from where the pointers start); each
in-bounds output byte is stored to exactly once; and every output byte in the
row padding (columns `w .. stride-1`), like every byte that is not in bounds,
is left unchanged. -/
theorem pixel_loop_in_bounds (r : Nat) (s : Dyadic) (w stride h : Nat) (rp : List Ptr) (wp : Ptr)
    (hS : w ≤ stride) (hlen : rp.length = 2 * r + 1) :
    (rowLoopTraced r s w stride h rp (wp, [])).1 = rowLoop r s w stride h rp wp ∧
      (∀ a ∈ (rowLoopTraced r s w stride h rp (wp, [])).2,
        ∃ y x, y < h ∧ x < w ∧
          (a = Access.write (wp.off + y * stride + x) ∨
            ∃ t, t < rp.length ∧
              a = Access.read t ((rp.getD t nullPtr).off + y * stride + x))) ∧
      (∀ y x, y < h → x < w →
        (writeOffsets (rowLoopTraced r s w stride h rp (wp, [])).2).count
          (wp.off + y * stride + x) = 1) ∧
      (∀ y c, y < h → w ≤ c → c < stride →
        (rowLoop r s w stride h rp wp).buf (wp.off + y * stride + c)
          = wp.buf (wp.off + y * stride + c)) ∧
      (∀ j, (∀ y x, y < h → x < w → j ≠ wp.off + y * stride + x) →
        (rowLoop r s w stride h rp wp).buf j = wp.buf j) := by
  have hspec := rowLoopTraced_spec r s w stride h rp wp []
  rw [hspec]
  simp only [List.nil_append]
  refine ⟨trivial, ?_, ?_, ?_, rowLoop_frame r s w stride h rp wp⟩
  · intro a ha
    obtain ⟨y, x, hy, hx, h1⟩ := mem_planeAccesses _ r _ w stride h a
      (by rw [List.length_map]; omega) ha
    refine ⟨y, x, hy, hx, ?_⟩
    rcases h1 with h1 | ⟨t, ht, h1⟩
    · left
      exact h1
    · right
      rw [List.length_map] at ht
      refine ⟨t, ht, ?_⟩
      rw [h1, List.getD_eq_getElem _ _ (by rw [List.length_map]; exact ht), List.getElem_map,
        List.getD_eq_getElem _ _ ht]
  · intro y x hy hx
    rw [writeOffsets_planeAccesses]
    apply List.count_eq_one_of_mem (writes_nodup _ w stride h hS)
    rw [List.mem_flatMap]
    exact ⟨y, List.mem_range.2 hy, List.mem_map.2 ⟨x, List.mem_range.2 hx, rfl⟩⟩
  · intro y c hy hc1 hc2
    apply rowLoop_frame
    intro y2 x2 _ hx2 he
    rcases Nat.lt_trichotomy y y2 with hlt | heq | hgt
    · have h1 : (y + 1) * stride ≤ y2 * stride := Nat.mul_le_mul_right _ (by omega)
      have h2 : (y + 1) * stride = y * stride + stride := by ring
      omega
    · subst heq
      omega
    · have h1 : (y2 + 1) * stride ≤ y * stride := Nat.mul_le_mul_right _ (by omega)
      have h2 : (y2 + 1) * stride = y2 * stride + stride := by ring
      omega

/-- C17: the theorem applied to three planes of width 1, height 2 and stride 2
(radius 1, strength `0.5`): the padding byte of row 1, at offset 3, keeps its
value. -/
theorem pixel_loop_in_bounds_witness :
    (rowLoopTraced 1 f32Half 1 2 2 exampleRows (exampleOut, [])).1
        = rowLoop 1 f32Half 1 2 2 exampleRows exampleOut ∧
      (rowLoop 1 f32Half 1 2 2 exampleRows exampleOut).buf (exampleOut.off + 1 * 2 + 1)
        = exampleOut.buf (exampleOut.off + 1 * 2 + 1) :=
  have h := pixel_loop_in_bounds 1 f32Half 1 2 2 exampleRows exampleOut (by decide) (by decide)
  ⟨h.1, h.2.2.2.1 1 1 (by decide) (by decide) (by decide)⟩

/-! ## C3: size and range of the window -/

/-- C3, counterexample.  (1) With radius `2^31 - 1` every `int` satisfies the
loop condition `i <= radius` and `i++` leaves the range of `int`: the window
loop does not end after `2r+1` iterations, whatever the number of iterations
allowed, and the initial activation has no defined result.  (2) With radius
`2^30` the size `radius * 2 + 1` of `refFrames` does not fit an `int`: the
ready activation has no defined result and its window loop computes no frame
number. -/
theorem window_loop_overflow :
    (∀ fuel : Nat,
      forOffsets maxRadiusData.radius (fun i l => l ++ [frameIndex maxRadiusData 0 i]) fuel
        (wrap32 (-maxRadiusData.radius)) [] = none) ∧
      windowLoop maxRadiusData 0 = none ∧
      (temporalDenoiseGetFrame 0 arInitial maxRadiusData exampleHost).1.isUndefined = true ∧
      (temporalDenoiseGetFrame 0 arAllFramesReady hugeRadiusData exampleHost).1.isUndefined = true ∧
      (newEvents exampleHost
          (temporalDenoiseGetFrame 0 arAllFramesReady hugeRadiusData exampleHost).2).filterMap
        Event.fetched = [] := by
  have hrad : maxRadiusData.radius = 2 ^ 31 - 1 := by decide
  have hdiv : ∀ {σ : Type} (body : Int → σ → σ) (fuel : Nat) (st : σ),
      forOffsets maxRadiusData.radius body fuel (wrap32 (-maxRadiusData.radius)) st = none := by
    intro σ body fuel st
    rw [hrad]
    exact forOffsets_diverges body fuel _ st (wrap32_range _).2
  refine ⟨fun fuel => hdiv _ fuel _, hdiv _ _ _, ?_, by decide, by decide⟩
  have h : temporalDenoiseGetFrame 0 arInitial maxRadiusData exampleHost
      = (Result.undefined, exampleHost) := by
    unfold temporalDenoiseGetFrame
    rw [if_pos rfl]
    have : requestLoop maxRadiusData 0 exampleHost = none := hdiv _ _ _
    rw [this]
  rw [h]
  rfl

/-- C3, amended.  Window size and range for a radius `0 <= r < 2^31 - 1` (the
`int` counter of the loop stays in range), sequence length `N >= 1` and centre
index `n`: the window loop ends, the list of frame numbers it computes, the
values `clamp(n+i, 0, N-1)` (with `n+i` an `int`) for `i = -r..r` in order, has
exactly `2r+1` elements and each lies in `[0, N-1]`; the initial activation
returns no frame and requests exactly this list; and for `r < 2^30` (the size
`2r+1` of `refFrames` fits an `int`) and a finite strength the ready
activation fetches exactly this list. -/
theorem window_size_and_range (d : TemporalDenoiseData) (n : Int) (r : Nat) (host : Host)
    (hr : d.radius = r) (hN : 1 ≤ d.vi.numFrames) (hr31 : r < 2 ^ 31 - 1) :
    windowLoop d n = some (windowIndices d n) ∧
      (windowIndices d n).length = 2 * r + 1 ∧
      (∀ k, k < 2 * r + 1 →
        (windowIndices d n)[k]? = some (frameIndex d n (-(r : Int) + (k : Int)))) ∧
      (∀ fn ∈ windowIndices d n, 0 ≤ fn ∧ fn ≤ d.vi.numFrames - 1) ∧
      (temporalDenoiseGetFrame n arInitial d host).1 = Result.null ∧
      (newEvents host (temporalDenoiseGetFrame n arInitial d host).2).filterMap Event.requested
        = windowIndices d n ∧
      (∀ s, d.strength = Fl.fin s → r < 2 ^ 30 →
        (newEvents host (temporalDenoiseGetFrame n arAllFramesReady d host).2).filterMap
          Event.fetched = windowIndices d n) := by
  refine ⟨windowLoop_eq d n r hr hr31, windowIndices_length d n r hr,
    fun k hk => windowIndices_getElem? d n r hr k hk, ?_, (initial_events d n r host hr hr31).1,
    initial_requested d n r host hr hr31, fun s hs hr30 => (ready_log d s n r host hr hs hr30).1⟩
  intro fn hfn
  rw [windowIndices_eq d n r hr, List.mem_map] at hfn
  obtain ⟨k, _, hk⟩ := hfn
  rw [← hk]
  exact frameIndex_range d n _ hN

/-- C3, amended: the theorem applied to the end-to-end example (radius 1,
three frames, centre index 1). -/
theorem window_size_and_range_witness :
    windowLoop exampleData 1 = some (windowIndices exampleData 1) ∧
      (windowIndices exampleData 1).length = 2 * 1 + 1 ∧
      (∀ fn ∈ windowIndices exampleData 1, 0 ≤ fn ∧ fn ≤ exampleData.vi.numFrames - 1) :=
  have h := window_size_and_range exampleData 1 1 exampleHost rfl (by decide) (by decide)
  ⟨h.1, h.2.1, h.2.2.2.1⟩

/-! ## Exact cases of the rounding to binary32 -/

/-- A value `n * 2^g` with `n < 2^24` and `g >= -149` is on the binary32 grid:
rounding does not change it, however the value is written. -/
theorem round32_exact (d : Dyadic) (n : Nat) (g : Int) (hn : n < 2 ^ 24) (hg : -149 ≤ g)
    (hv : d.toRat = (n : ℚ) * (2 : ℚ) ^ g) : (round32 d).toRat = d.toRat := by
  rcases round32_shape d with h1 | ⟨hlt, he, hq⟩
  · rw [h1]
  · set t : Int := max (d.e + bitLength d.m.natAbs - 24) (-149) with ht
    set k : Nat := (t - d.e).toNat with hk
    have hkz : ((k : Nat) : Int) = t - d.e := Int.toNat_of_nonneg (by omega)
    have hdvd : (2 : Int) ^ k ∣ d.m := by
      by_cases hm0 : d.m = 0
      · rw [hm0]
        exact dvd_zero _
      · have hpos : 0 ≤ d.toRat := by
          rw [hv]
          exact mul_nonneg (by positivity) (two_zpow_pos g).le
        have hm1 : 0 ≤ d.m := mantissa_nonneg_of_toRat d hpos
        have hnat : d.m.natAbs ≠ 0 := by simpa using hm0
        have hb1 := two_pow_bitLength_le d.m.natAbs hnat
        set L : Nat := bitLength d.m.natAbs with hL
        have hL1 : 1 ≤ L := by
          by_contra hc
          have h0 : L = 0 := by omega
          have h2 := lt_two_pow_bitLength d.m.natAbs
          rw [← hL, h0] at h2
          omega
        have hmq : ((2 : ℚ) ^ (L - 1 : Nat)) ≤ (d.m : ℚ) := by
          have : (d.m : ℚ) = ((d.m.natAbs : Nat) : ℚ) := by
            rw [Nat.cast_natAbs, abs_of_nonneg hm1]
          rw [this]
          exact_mod_cast hb1
        -- the grid exponent of `d` is at most `g`
        have htg : t ≤ g := by
          have h3 : (2 : ℚ) ^ (((L - 1 : Nat) : Int) + d.e) < (2 : ℚ) ^ ((24 : Int) + g) := by
            rw [zpow_add₀ (by norm_num : (2 : ℚ) ≠ 0), zpow_add₀ (by norm_num : (2 : ℚ) ≠ 0),
              zpow_natCast]
            calc (2 : ℚ) ^ (L - 1 : Nat) * (2 : ℚ) ^ d.e ≤ (d.m : ℚ) * (2 : ℚ) ^ d.e :=
                  mul_le_mul_of_nonneg_right hmq (two_zpow_pos _).le
              _ = (n : ℚ) * (2 : ℚ) ^ g := hv
              _ < (2 : ℚ) ^ (24 : Int) * (2 : ℚ) ^ g := by
                  apply mul_lt_mul_of_pos_right _ (two_zpow_pos g)
                  norm_num
                  omega
          have h5 := (zpow_lt_zpow_iff_right₀ (by norm_num : (1 : ℚ) < 2)).1 h3
          rcases max_cases (d.e + (L : Int) - 24) (-149) with ⟨h6, _⟩ | ⟨h6, _⟩ <;>
            rw [ht, h6] <;> omega
        -- hence the mantissa is `n * 2^(g - e)`
        have hge : ((((g - d.e).toNat : Nat)) : Int) = g - d.e := Int.toNat_of_nonneg (by omega)
        have hmn : d.m = (n : Int) * 2 ^ (g - d.e).toNat := by
          have h7 : (d.m : ℚ) = (n : ℚ) * (2 : ℚ) ^ (g - d.e).toNat := by
            have h8 : (2 : ℚ) ^ g = (2 : ℚ) ^ (g - d.e).toNat * (2 : ℚ) ^ d.e :=
              (two_zpow_toNat g d.e (by omega)).symm
            unfold Dyadic.toRat at hv
            rw [h8, ← mul_assoc] at hv
            exact mul_right_cancel₀ (two_zpow_pos d.e).ne' hv
          exact_mod_cast h7
        rw [hmn]
        exact dvd_mul_of_dvd_right (pow_dvd_pow 2 (by omega)) _
    have hr0 : d.m % 2 ^ k = 0 := Int.emod_eq_zero_of_dvd hdvd
    have hm2 : (round32 d).m = d.m / 2 ^ k := by
      rcases hq with hq | ⟨_, hq⟩
      · exact hq
      · rw [hr0] at hq
        exact absurd hq (lt_irrefl 0)
    have hmk : d.m = d.m / 2 ^ k * 2 ^ k := (Int.ediv_mul_cancel hdvd).symm
    have h2t : (2 : ℚ) ^ t = (2 : ℚ) ^ k * (2 : ℚ) ^ d.e := (two_zpow_toNat t d.e (by omega)).symm
    unfold Dyadic.toRat
    rw [he, hm2, h2t]
    have : (d.m : ℚ) = ((d.m / 2 ^ k : Int) : ℚ) * (2 : ℚ) ^ k := by
      have := congrArg (fun z : Int => (z : ℚ)) hmk
      simpa using this
    rw [← mul_assoc, ← this]


/-! ## The blend in binary32 -/

theorem toRat_ofInt_nat (c : Nat) (hc : c ≤ 255) : (ofInt (c : Int)).toRat = (c : ℚ) := by
  rw [ofInt_exact (c : Int) (by omega) (by omega), toRat_intLit]
  push_cast
  rfl

/-- The value `outv + 0.5f` is within `2^-13` of the exact blend plus one
half. -/
theorem blend32_err (cur avg : Nat) (s : Dyadic) (hc : cur ≤ 255) (ha : avg ≤ 255)
    (hs : IsStrength s) :
    |(blend32 cur avg s).toRat - (exactBlend cur avg s.toRat + 1 / 2)| ≤ (2 : ℚ) ^ (-13 : Int) := by
  have h0 := hs.toRat_nonneg
  have h1 := hs.toRat_le_one
  have haq : (avg : ℚ) ≤ 255 := by exact_mod_cast ha
  have hB := fmul_avg_err (avg : Int) s (by positivity) (by exact_mod_cast ha) hs
  have key := blend_err (cur : Int) s (fmul (ofInt (avg : Int)) s) ((avg : ℚ) * s.toRat)
    (by positivity) (by exact_mod_cast hc) hs (by positivity)
    (by have := mul_le_mul haq h1 h0 (by norm_num : (0 : ℚ) ≤ 255); linarith)
    (by simpa only [Int.cast_natCast] using hB)
  unfold blend32 exactBlend
  simpa only [Int.cast_natCast] using key

theorem blend32_nonneg (cur avg : Nat) (s : Dyadic) (hc : cur ≤ 255) (ha : avg ≤ 255)
    (hs : IsStrength s) : 0 ≤ (blend32 cur avg s).toRat := by
  have herr := blend32_err cur avg s hc ha hs
  obtain ⟨hx0, _⟩ := exactBlend_range cur avg s.toRat hc ha hs.toRat_nonneg hs.toRat_le_one
  rw [abs_le] at herr
  have : ((2 : ℚ) ^ (-13 : Int)) ≤ 1 / 2 := by norm_num
  linarith [herr.1]

/-- Without wrap of the accumulator the value before the clamp is the
truncation of `outv + 0.5f` computed from the centre sample and the truncated
window mean. -/
theorem roundedValue_eq_blend32 (r : Nat) (window : List Nat) (s : Dyadic)
    (hlen : window.length = 2 * r + 1) (hw : ∀ v ∈ window, v ≤ 255)
    (hT : 255 * (2 * r + 1) < 2 ^ 31) :
    roundedValue window r s = truncToInt (blend32 (window.getD r 0) (truncMean window) s) := by
  have hsum : sumLoop window = (window.sum : Nat) :=
    sumLoop_eq_sum window hw (by rw [hlen]; norm_num at hT ⊢; omega)
  have havg : Int.tdiv (sumLoop window) (window.length : Int) = ((truncMean window : Nat) : Int) := by
    rw [hsum, Int.tdiv_eq_ediv (by positivity) (by positivity)]
    unfold truncMean
    push_cast
    rfl
  unfold roundedValue blend32
  simp only
  rw [havg]

/-- Without wrap of the accumulator the sample written is the rounding law
evaluated in binary32. -/
theorem blendSample_eq_law32 (r : Nat) (window : List Nat) (s : Dyadic)
    (hlen : window.length = 2 * r + 1) (hw : ∀ v ∈ window, v ≤ 255) (hs : IsStrength s)
    (hT : 255 * (2 * r + 1) < 2 ^ 31) :
    (blendSample window r s : Int) = roundingLaw32 (window.getD r 0) (truncMean window) s ∧
      roundingLaw32 (window.getD r 0) (truncMean window) s
        = ⌊(blend32 (window.getD r 0) (truncMean window) s).toRat⌋ := by
  have hc := getD_le_of_bounded window hw r
  have ha := truncMean_le window hw
  have hnn := blend32_nonneg _ _ s hc ha hs
  have herr := blend32_err _ _ s hc ha hs
  obtain ⟨_, hx1⟩ := exactBlend_range (window.getD r 0) (truncMean window) s.toRat hc ha
    hs.toRat_nonneg hs.toRat_le_one
  rw [abs_le] at herr
  have hf0 : 0 ≤ ⌊(blend32 (window.getD r 0) (truncMean window) s).toRat⌋ :=
    Int.floor_nonneg.2 hnn
  have hf1 : ⌊(blend32 (window.getD r 0) (truncMean window) s).toRat⌋ ≤ 255 := by
    have : ⌊(blend32 (window.getD r 0) (truncMean window) s).toRat⌋ < 256 := by
      rw [Int.floor_lt]
      have : ((2 : ℚ) ^ (-13 : Int)) ≤ 1 / 4 := by norm_num
      push_cast
      linarith [herr.2]
    omega
  have hlaw : roundingLaw32 (window.getD r 0) (truncMean window) s
      = ⌊(blend32 (window.getD r 0) (truncMean window) s).toRat⌋ := by
    unfold roundingLaw32
    exact clampInt_of_range _ 0 255 hf0 hf1
  refine ⟨?_, hlaw⟩
  have hrv : roundedValue window r s
      = ⌊(blend32 (window.getD r 0) (truncMean window) s).toRat⌋ := by
    rw [roundedValue_eq_blend32 r window s hlen hw hT,
      truncToInt_eq_floor _ (mantissa_nonneg_of_toRat _ hnn)]
  rw [hlaw, blendSample_eq_rounded, hrv, clampInt_of_range _ 0 255 hf0 hf1]
  omega

/-- For a strength that is a multiple of `2^-16` every operation of the blend
is exact in binary32. -/
theorem blend32_exact (cur avg : Nat) (s : Dyadic) (hc : cur ≤ 255) (ha : avg ≤ 255)
    (hs : IsStrength s) (j : Nat) (hj : s.toRat = (j : ℚ) / 2 ^ 16) :
    (blend32 cur avg s).toRat = exactBlend cur avg s.toRat + 1 / 2 := by
  have h1 := hs.toRat_le_one
  have hj1 : j ≤ 2 ^ 16 := by
    rw [hj, div_le_one (by positivity)] at h1
    exact_mod_cast h1
  have hg : (2 : ℚ) ^ (-16 : Int) = 1 / 2 ^ 16 := by norm_num
  have hsub : ((2 ^ 16 - j : Nat) : ℚ) = 2 ^ 16 - (j : ℚ) := by
    rw [Nat.cast_sub hj1]
    norm_num
  have hb1 : cur * (2 ^ 16 - j) ≤ 255 * 2 ^ 16 := Nat.mul_le_mul hc (Nat.sub_le _ _)
  have hb2 : avg * j ≤ 255 * 2 ^ 16 := Nat.mul_le_mul ha hj1
  have hb3 : cur * (2 ^ 16 - j) + avg * j ≤ 255 * 2 ^ 16 := by
    have e1 : cur * (2 ^ 16 - j) ≤ 255 * (2 ^ 16 - j) := Nat.mul_le_mul_right _ hc
    have e2 : avg * j ≤ 255 * j := Nat.mul_le_mul_right _ ha
    have e3 : 255 * (2 ^ 16 - j) + 255 * j = 255 * 2 ^ 16 := by
      rw [← Nat.mul_add, Nat.sub_add_cancel hj1]
    omega
  -- `1.0f - strength`
  have e1 : (fsub f32One s).toRat = 1 - s.toRat := by
    have hv : (f32One.add s.neg).toRat = ((2 ^ 16 - j : Nat) : ℚ) * (2 : ℚ) ^ (-16 : Int) := by
      rw [Dyadic.toRat_add, Dyadic.toRat_neg, toRat_f32One, hj, hsub, hg]
      ring
    have := round32_exact (f32One.add s.neg) (2 ^ 16 - j) (-16) (by norm_num at hj1 ⊢; omega)
      (by norm_num) hv
    unfold fsub
    rw [this, Dyadic.toRat_add, Dyadic.toRat_neg, toRat_f32One]
    ring
  -- the two products
  have e2 : (fmul (ofInt (cur : Int)) (fsub f32One s)).toRat = (cur : ℚ) * (1 - s.toRat) := by
    have hv : ((ofInt (cur : Int)).mul (fsub f32One s)).toRat
        = ((cur * (2 ^ 16 - j) : Nat) : ℚ) * (2 : ℚ) ^ (-16 : Int) := by
      rw [Dyadic.toRat_mul, toRat_ofInt_nat cur hc, e1, hj, Nat.cast_mul, hsub, hg]
      ring
    have := round32_exact _ (cur * (2 ^ 16 - j)) (-16) (by norm_num at hb1 ⊢; omega)
      (by norm_num) hv
    unfold fmul
    rw [this, Dyadic.toRat_mul, toRat_ofInt_nat cur hc, e1]
  have e3 : (fmul (ofInt (avg : Int)) s).toRat = (avg : ℚ) * s.toRat := by
    have hv : ((ofInt (avg : Int)).mul s).toRat
        = ((avg * j : Nat) : ℚ) * (2 : ℚ) ^ (-16 : Int) := by
      rw [Dyadic.toRat_mul, toRat_ofInt_nat avg ha, hj, Nat.cast_mul, hg]
      ring
    have := round32_exact _ (avg * j) (-16) (by norm_num at hb2 ⊢; omega) (by norm_num) hv
    unfold fmul
    rw [this, Dyadic.toRat_mul, toRat_ofInt_nat avg ha]
  -- the sum
  have e4 : (fadd (fmul (ofInt (cur : Int)) (fsub f32One s)) (fmul (ofInt (avg : Int)) s)).toRat
      = (cur : ℚ) * (1 - s.toRat) + (avg : ℚ) * s.toRat := by
    have hv : ((fmul (ofInt (cur : Int)) (fsub f32One s)).add (fmul (ofInt (avg : Int)) s)).toRat
        = ((cur * (2 ^ 16 - j) + avg * j : Nat) : ℚ) * (2 : ℚ) ^ (-16 : Int) := by
      rw [Dyadic.toRat_add, e2, e3, hj, Nat.cast_add, Nat.cast_mul, Nat.cast_mul, hsub, hg]
      ring
    have := round32_exact _ (cur * (2 ^ 16 - j) + avg * j) (-16) (by norm_num at hb3 ⊢; omega)
      (by norm_num) hv
    unfold fadd
    rw [this, Dyadic.toRat_add, e2, e3]
  -- adding one half
  have hv : ((fadd (fmul (ofInt (cur : Int)) (fsub f32One s)) (fmul (ofInt (avg : Int)) s)).add
        f32Half).toRat
      = ((cur * (2 ^ 16 - j) + avg * j + 2 ^ 15 : Nat) : ℚ) * (2 : ℚ) ^ (-16 : Int) := by
    rw [Dyadic.toRat_add, e4, toRat_f32Half, hj, Nat.cast_add, Nat.cast_add, Nat.cast_mul,
      Nat.cast_mul, hsub, hg]
    push_cast
    ring
  have := round32_exact _ (cur * (2 ^ 16 - j) + avg * j + 2 ^ 15) (-16)
    (by norm_num at hb3 ⊢; omega) (by norm_num) hv
  unfold blend32 exactBlend
  show (round32 ((fadd (fmul (ofInt (cur : Int)) (fsub f32One s))
    (fmul (ofInt (avg : Int)) s)).add f32Half)).toRat = _
  rw [this, Dyadic.toRat_add, e4, toRat_f32Half]

/-- An exact tie (the exact blend plus one half is an integer) happens only
for a strength that is a multiple of `2^-16`. -/
theorem strength_short_of_tie (cur avg : Nat) (s : Dyadic) (hc : cur ≤ 255) (ha : avg ≤ 255)
    (hs : IsStrength s) (k : Int) (hk : exactBlend cur avg s.toRat + 1 / 2 = (k : ℚ)) :
    ∃ j : Nat, s.toRat = (j : ℚ) / 2 ^ 16 := by
  have hm0 : 0 ≤ s.m := hs.2.1
  have hmn : ((s.m.toNat : Nat) : Int) = s.m := Int.toNat_of_nonneg hm0
  have hmq : (s.m : ℚ) = ((s.m.toNat : Nat) : ℚ) := by
    conv_lhs => rw [← hmn]
    exact Int.cast_natCast _
  by_cases he : -16 ≤ s.e
  · refine ⟨s.m.toNat * 2 ^ (s.e + 16).toNat, ?_⟩
    have h1 : (2 : ℚ) ^ s.e = (2 : ℚ) ^ (s.e + 16).toNat / 2 ^ 16 := by
      have h2 : (((s.e + 16).toNat : Nat) : Int) = s.e + 16 := Int.toNat_of_nonneg (by omega)
      rw [← zpow_natCast (2 : ℚ) (s.e + 16).toNat, h2, zpow_add₀ (by norm_num : (2 : ℚ) ≠ 0)]
      norm_num
    unfold Dyadic.toRat
    rw [h1, hmq]
    push_cast
    ring
  · set p : Nat := (-s.e - 1).toNat with hp
    have hpe : s.e = -((p : Int) + 1) := by omega
    have hp16 : 16 ≤ p := by omega
    have h2e : (2 : ℚ) ^ s.e = 1 / (2 * (2 : ℚ) ^ p) := by
      rw [hpe, zpow_neg, ← Nat.cast_succ, zpow_natCast, pow_succ]
      field_simp
      ring
    -- the tie as an equation between integers
    have hint : ((avg : Int) - (cur : Int)) * s.m = (2 * (k - (cur : Int)) - 1) * 2 ^ p := by
      have hq : (((avg : Int) - (cur : Int)) * s.m : ℚ)
          = ((2 * (k - (cur : Int)) - 1) * 2 ^ p : ℚ) := by
        unfold exactBlend Dyadic.toRat at hk
        rw [h2e] at hk
        have hP : (0 : ℚ) < (2 : ℚ) ^ p := by positivity
        field_simp at hk
        push_cast
        linarith
      exact_mod_cast hq
    have hodd : (2 * (k - (cur : Int)) - 1) ≠ 0 := by omega
    have hne : ((avg : Int) - (cur : Int)) * s.m ≠ 0 := by
      rw [hint]
      exact mul_ne_zero hodd (by positivity)
    have hD0 : ((avg : Int) - (cur : Int)) ≠ 0 := left_ne_zero_of_mul hne
    have hm1 : s.m ≠ 0 := right_ne_zero_of_mul hne
    -- pass to natural numbers
    have hdvd : 2 ^ p ∣ ((avg : Int) - (cur : Int)).natAbs * s.m.toNat := by
      have h1 : ((2 : Int) ^ p) ∣ ((avg : Int) - (cur : Int)) * s.m := ⟨2 * (k - (cur : Int)) - 1, by rw [hint]; ring⟩
      have h2 := Int.natAbs_dvd_natAbs.2 h1
      rw [Int.natAbs_mul, Int.natAbs_pow] at h2
      have h3 : s.m.natAbs = s.m.toNat := by omega
      rw [h3] at h2
      exact h2
    have hDn : ((avg : Int) - (cur : Int)).natAbs ≠ 0 := by simpa using hD0
    have hD8 : ((avg : Int) - (cur : Int)).natAbs < 2 ^ 8 := by omega
    have hmn0 : s.m.toNat ≠ 0 := by omega
    have hval := (padicValNat_dvd_iff_le (Nat.mul_ne_zero hDn hmn0)).1 hdvd
    rw [padicValNat.mul hDn hmn0] at hval
    have hvD : padicValNat 2 ((avg : Int) - (cur : Int)).natAbs ≤ 7 := by
      by_contra hcon
      push_neg at hcon
      have h8 : 2 ^ 8 ∣ ((avg : Int) - (cur : Int)).natAbs :=
        (padicValNat_dvd_iff_le hDn).2 (by omega)
      have := Nat.le_of_dvd (Nat.pos_of_ne_zero hDn) h8
      omega
    have hvm : 2 ^ (p - 7) ∣ s.m.toNat := (padicValNat_dvd_iff_le hmn0).2 (by omega)
    obtain ⟨m2, hm2⟩ := hvm
    refine ⟨m2 * 2 ^ 8, ?_⟩
    unfold Dyadic.toRat
    rw [h2e, hmq, hm2]
    have hpp : (2 : ℚ) ^ p = (2 : ℚ) ^ (p - 7) * 2 ^ 7 := by
      rw [← pow_add]
      congr 1
      omega
    have hP : (0 : ℚ) < (2 : ℚ) ^ (p - 7) := by positivity
    push_cast
    rw [hpp]
    field_simp
    ring


/-- Where the value `outv + 0.5f` is the exact blend plus one half, the sample
written is the specification's rounding law. -/
theorem blendSample_eq_law_of_exact (r : Nat) (window : List Nat) (s : Dyadic)
    (hlen : window.length = 2 * r + 1) (hw : ∀ v ∈ window, v ≤ 255) (hs : IsStrength s)
    (hT : 255 * (2 * r + 1) < 2 ^ 31)
    (hex : (blend32 (window.getD r 0) (truncMean window) s).toRat
      = exactBlend (window.getD r 0) (truncMean window) s.toRat + 1 / 2) :
    (blendSample window r s : Int) = roundingLaw (window.getD r 0) (truncMean window) s.toRat := by
  obtain ⟨h1, h2⟩ := blendSample_eq_law32 r window s hlen hw hs hT
  rw [h1]
  unfold roundingLaw32 roundingLaw
  rw [hex]

/-! ## C1: the rounding law in binary32 -/

/-- C1, amended.  For a window of `T = 2r+1` samples in `[0,255]` with
`255*T < 2^31` and a binary32 strength `s` in `[0,1]`, the sample written is
the rounding law evaluated in binary32 arithmetic,
`clamp(floor(fl(fl(fl(cur * fl(1 - s)) + fl(avg * s)) + 1/2)), 0, 255)` with
`cur` the element at position `r`, `avg` the sum integer-divided by `T` and
`fl` the rounding to binary32.  It equals the law in exact arithmetic,
`clamp(floor(x + 1/2), 0, 255)` for `x = cur*(1-s) + avg*s`, whenever `s` is a
multiple of `2^-16` (every operation is then exact), whenever `x + 1/2` is an
integer (an exact tie, which needs such a strength), and whenever no integer
lies within `2^-13` of `x + 1/2`; in every case it lies between
`floor(x + 1/2 - 2^-13)` and `floor(x + 1/2 + 2^-13)`. -/
theorem blendSample_rounding_law_binary32 (r : Nat) (window : List Nat) (s : Dyadic)
    (hlen : window.length = 2 * r + 1) (hw : ∀ v ∈ window, v ≤ 255) (hs : IsStrength s)
    (hT : 255 * (2 * r + 1) < 2 ^ 31) :
    (blendSample window r s : Int) = roundingLaw32 (window.getD r 0) (truncMean window) s ∧
      ((∃ j : Nat, s.toRat = (j : ℚ) / 2 ^ 16) →
        (blendSample window r s : Int)
          = roundingLaw (window.getD r 0) (truncMean window) s.toRat) ∧
      ((∃ k : Int, exactBlend (window.getD r 0) (truncMean window) s.toRat + 1 / 2 = (k : ℚ)) →
        (blendSample window r s : Int)
          = roundingLaw (window.getD r 0) (truncMean window) s.toRat) ∧
      (⌊exactBlend (window.getD r 0) (truncMean window) s.toRat + 1 / 2 - (2 : ℚ) ^ (-13 : Int)⌋
          = ⌊exactBlend (window.getD r 0) (truncMean window) s.toRat + 1 / 2
            + (2 : ℚ) ^ (-13 : Int)⌋ →
        (blendSample window r s : Int)
          = roundingLaw (window.getD r 0) (truncMean window) s.toRat) ∧
      ⌊exactBlend (window.getD r 0) (truncMean window) s.toRat + 1 / 2 - (2 : ℚ) ^ (-13 : Int)⌋
        ≤ (blendSample window r s : Int) ∧
      (blendSample window r s : Int)
        ≤ ⌊exactBlend (window.getD r 0) (truncMean window) s.toRat + 1 / 2
            + (2 : ℚ) ^ (-13 : Int)⌋ := by
  have hc := getD_le_of_bounded window hw r
  have ha := truncMean_le window hw
  obtain ⟨hlo, hhi⟩ := blendSample_sandwich r window s hlen hw hs hT
  have hshort : (∃ j : Nat, s.toRat = (j : ℚ) / 2 ^ 16) →
      (blendSample window r s : Int)
        = roundingLaw (window.getD r 0) (truncMean window) s.toRat := by
    rintro ⟨j, hj⟩
    exact blendSample_eq_law_of_exact r window s hlen hw hs hT
      (blend32_exact _ _ s hc ha hs j hj)
  refine ⟨(blendSample_eq_law32 r window s hlen hw hs hT).1, hshort, ?_, ?_, hlo, hhi⟩
  · rintro ⟨k, hk⟩
    exact hshort (strength_short_of_tie _ _ s hc ha hs k hk)
  · intro heq
    obtain ⟨hx0, hx1⟩ := exactBlend_range (window.getD r 0) (truncMean window) s.toRat
      hc ha hs.toRat_nonneg hs.toRat_le_one
    have hpos : (0 : ℚ) < (2 : ℚ) ^ (-13 : Int) := two_zpow_pos _
    have hmid1 : ⌊exactBlend (window.getD r 0) (truncMean window) s.toRat + 1 / 2
        - (2 : ℚ) ^ (-13 : Int)⌋ ≤ ⌊exactBlend (window.getD r 0) (truncMean window) s.toRat + 1 / 2⌋ :=
      Int.floor_le_floor (by linarith)
    have hmid2 : ⌊exactBlend (window.getD r 0) (truncMean window) s.toRat + 1 / 2⌋
        ≤ ⌊exactBlend (window.getD r 0) (truncMean window) s.toRat + 1 / 2
            + (2 : ℚ) ^ (-13 : Int)⌋ :=
      Int.floor_le_floor (by linarith)
    have hf0 : 0 ≤ ⌊exactBlend (window.getD r 0) (truncMean window) s.toRat + 1 / 2⌋ :=
      Int.floor_nonneg.2 (by linarith)
    have hf1 : ⌊exactBlend (window.getD r 0) (truncMean window) s.toRat + 1 / 2⌋ < 256 := by
      rw [Int.floor_lt]
      push_cast
      linarith
    unfold roundingLaw
    rw [clampInt_of_range _ 0 255 hf0 (by omega)]
    omega

/-- C1, amended: the theorem applied to the window `[1, 0, 2]`, radius 1, at
the default strength `0.5`, an exact tie (`x + 1/2 = 1`): the sample written is
the value 1 of the rounding law in exact arithmetic. -/
theorem blendSample_rounding_law_binary32_witness :
    (blendSample [1, 0, 2] 1 f32Half : Int)
        = roundingLaw (([1, 0, 2] : List Nat).getD 1 0) (truncMean [1, 0, 2]) f32Half.toRat ∧
      blendSample [1, 0, 2] 1 f32Half = 1 :=
  have h := blendSample_rounding_law_binary32 1 [1, 0, 2] f32Half (by decide) (by decide)
    (by decide) (by decide)
  ⟨h.2.1 ⟨32768, by rw [toRat_f32Half]; norm_num⟩, by decide⟩

end TemporalDenoise
